import Mathlib

/-!
zap-msgpack-encoder: a shallow embedding of the encoder and its properties.

The Go package `zapmsgpack` (files `encoder.go`, `encoder_add.go`,
`encoder_append.go`) is embedded as pure Lean functions on an explicit encoder
state.

Conventions of the embedding

* A Go method with receiver `enc *encoder` that mutates the receiver becomes a
  function returning the new receiver state.
* A Go `panic` becomes `Except.error msg`; a Go `error` result becomes an
  `Option GoError` (`none` is `nil`).
* The byte buffer `enc.buf` is the list of bytes written so far; the codec
  writer `enc.enc` is bound to that buffer, so a call `enc.enc.EncodeX(v)`
  appends the bytes `c.EncodeX v` of the codec `c`.  Writes into the in-memory
  buffer cannot fail, so the discarded `error` results of the primitive writes
  are always `nil`.
* The codec (`github.com/vmihailenco/msgpack`) and the logging front-end
  (`go.uber.org/zap/zapcore`) are external collaborators.  The codec is a
  parameter `c : Codec`; `msgpack` is a concrete instance used to evaluate the
  code on concrete inputs.
* A user callback (array/object marshaler, level/name/caller formatter) is
  represented by the sequence of encoder calls it performs together with the
  error it returns.
-/

namespace zapmsgpack

/-- Byte strings: every element is meant to be a byte (`< 256`). -/
abbrev Bytes := List Nat

/-- A Go `error` value, represented by its message. -/
abbrev GoError := String

deriving instance DecidableEq for Except

/-! ## External data types (zapcore, time) -/

/-- Go `time.Time`, as Unix seconds and the nanosecond offset within the second. -/
structure Time where
  sec : Int
  nsec : Nat
deriving DecidableEq, Repr

namespace zapcore

/-- The named values of `zapcore.Level`. -/
inductive Level where
  | DebugLevel
  | InfoLevel
  | WarnLevel
  | ErrorLevel
  | DPanicLevel
  | PanicLevel
  | FatalLevel
deriving DecidableEq, Repr

/-- The lower-case name of a level, `zapcore.Level.String`. -/
def Level.String : Level → String
  | .DebugLevel => "debug"
  | .InfoLevel => "info"
  | .WarnLevel => "warn"
  | .ErrorLevel => "error"
  | .DPanicLevel => "dpanic"
  | .PanicLevel => "panic"
  | .FatalLevel => "fatal"

/-- The call site of a log event, `zapcore.EntryCaller`. -/
structure EntryCaller where
  Defined : Bool
  File : String
  Line : Nat
deriving DecidableEq, Repr

/-- The canonical form `file:line` of a caller, `zapcore.EntryCaller.String`. -/
def EntryCaller.String (ec : EntryCaller) : String :=
  if ec.Defined then ec.File ++ ":" ++ toString ec.Line else "undefined"

/-- A log event, `zapcore.Entry`. -/
structure Entry where
  Level : Level
  Time : Time
  LoggerName : String
  Message : String
  Caller : EntryCaller
  Stack : String
deriving DecidableEq, Repr

end zapcore

/-- A value handed to the reflection-based generic encoder (`interface{}`):
a few representative dynamic types, and a type the codec cannot encode. -/
inductive Interface where
  | Nil
  | Bool (val : Bool)
  | Int64 (val : Int)
  | String (val : String)
  | Unsupported (typ : String)
deriving DecidableEq, Repr

/-! ## The codec interface -/

/-- The codec primitives the encoder calls on `enc.enc` (`*msgpack.Encoder`),
each given by the bytes it writes.  Signed integers are `Int`, unsigned ones
`Nat`, floats are given by their IEEE-754 bit pattern.  `Encode` is the generic
reflected encoder: the bytes it wrote and the error it returned. -/
structure Codec where
  EncodeString : String → Bytes
  EncodeArrayLen : Nat → Bytes
  EncodeMapLen : Nat → Bytes
  EncodeTime : Time → Bytes
  EncodeBytes : Bytes → Bytes
  EncodeBool : Bool → Bytes
  EncodeFloat64 : Nat → Bytes
  EncodeFloat32 : Nat → Bytes
  EncodeInt : Int → Bytes
  EncodeInt64 : Int → Bytes
  EncodeInt32 : Int → Bytes
  EncodeInt16 : Int → Bytes
  EncodeInt8 : Int → Bytes
  EncodeUint : Nat → Bytes
  EncodeUint64 : Nat → Bytes
  EncodeUint32 : Nat → Bytes
  EncodeUint16 : Nat → Bytes
  EncodeUint8 : Nat → Bytes
  Encode : Interface → Bytes × Option GoError

/-! ## Scalar payloads of the `Add*` and `Append*` families -/

/-- The scalar `Append*` calls of `encoder_append.go`, one constructor per
method, carrying the method's argument. -/
inductive AppendValue where
  | Bool (val : Bool)
  | ByteString (val : String)
  | Complex128 (re im : Nat)
  | Complex64 (re im : Nat)
  | Duration (val : Int)
  | Float64 (val : Nat)
  | Float32 (val : Nat)
  | Int (val : Int)
  | Int64 (val : Int)
  | Int32 (val : Int)
  | Int16 (val : Int)
  | Int8 (val : Int)
  | String (val : String)
  | Time (val : Time)
  | Uint (val : Nat)
  | Uint64 (val : Nat)
  | Uint32 (val : Nat)
  | Uint16 (val : Nat)
  | Uint8 (val : Nat)
  | Uintptr (val : Nat)
deriving DecidableEq, Repr

/-- The scalar `Add*` calls of `encoder_add.go`, one constructor per method,
carrying the method's value argument. -/
inductive AddValue where
  | Binary (val : Bytes)
  | ByteString (val : String)
  | Bool (val : Bool)
  | Complex128 (re im : Nat)
  | Complex64 (re im : Nat)
  | Duration (val : Int)
  | Float64 (val : Nat)
  | Float32 (val : Nat)
  | Int (val : Int)
  | Int64 (val : Int)
  | Int32 (val : Int)
  | Int16 (val : Int)
  | Int8 (val : Int)
  | String (val : String)
  | Time (val : Time)
  | Uint (val : Nat)
  | Uint64 (val : Nat)
  | Uint32 (val : Nat)
  | Uint16 (val : Nat)
  | Uint8 (val : Nat)
  | Uintptr (val : Nat)
deriving DecidableEq, Repr

/-! ## User callbacks -/

mutual
/-- One call made by an array-population callback on its `ArrayEncoder`. -/
inductive ArrayCall where
  | Append (val : AppendValue)
  | AppendArray (arr : ArrayMarshaler)
  | AppendObject (obj : ObjectMarshaler)
  | AppendReflected (val : Interface)
/-- One call made by an object-population callback on its `ObjectEncoder`. -/
inductive ObjectCall where
  | Add (key : String) (val : AddValue)
  | AddArray (key : String) (arr : ArrayMarshaler)
  | AddObject (key : String) (obj : ObjectMarshaler)
  | AddReflected (key : String) (val : Interface)
  | OpenNamespace (key : String)
/-- A `zapcore.ArrayMarshaler`: the calls `MarshalLogArray` performs on the
encoder it is given, in order, and the error it returns. -/
inductive ArrayMarshaler where
  | mk (calls : List ArrayCall) (ret : Option GoError)
/-- A `zapcore.ObjectMarshaler`: the calls `MarshalLogObject` performs on the
encoder it is given, in order, and the error it returns. -/
inductive ObjectMarshaler where
  | mk (calls : List ObjectCall) (ret : Option GoError)
end

namespace zapcore

/-- The encoding configuration, `zapcore.EncoderConfig`: the six entry keys and
the formatting callbacks.  A callback that is not set is `none` (a nil func);
a callback that is set maps its argument to the scalar `Append*` calls it
performs on the encoder. -/
structure EncoderConfig where
  MessageKey : String
  LevelKey : String
  TimeKey : String
  NameKey : String
  CallerKey : String
  StacktraceKey : String
  EncodeLevel : Option (Level → List AppendValue)
  EncodeTime : Option (Time → List AppendValue)
  EncodeDuration : Option (Int → List AppendValue)
  EncodeCaller : Option (EntryCaller → List AppendValue)
  EncodeName : Option (String → List AppendValue)

/-- The default name formatter `zapcore.FullNameEncoder`: appends the logger
name unmodified. -/
def FullNameEncoder (loggerName : String) : List AppendValue :=
  [.String loggerName]

/-- The formatter `zapcore.LowercaseLevelEncoder`. -/
def LowercaseLevelEncoder (l : Level) : List AppendValue :=
  [.String l.String]

/-- A structured field of the field list, `zapcore.Field`, by field type. -/
inductive Field where
  | Array (key : String) (arr : ArrayMarshaler)
  | Object (key : String) (obj : ObjectMarshaler)
  | Scalar (key : String) (val : AddValue)
  | Reflect (key : String) (val : Interface)
  | Namespace (key : String)
  | Stringer (key : String) (str : String)
  | Skip

end zapcore

/-! ## The encoder state -/

/-- The struct `encoder` of `encoder.go`.  The embedded configuration pointer
is `none` when nil.  The codec writer `enc` of the source is bound to `buf` and
carries no state of its own. -/
structure encoder where
  EncoderConfig : Option zapcore.EncoderConfig
  buf : Bytes
  mapSize : Nat
  sliceLen : Nat
  nsPrefix : String

/-- The constructor `New` of `encoderPool`: an instance with an empty buffer
and zero-valued fields. -/
def encoderPool.New : encoder :=
  { EncoderConfig := none, buf := [], mapSize := 0, sliceLen := 0, nsPrefix := "" }

/-- The reset performed by `putEncoder` before the instance goes back to the
pool; the result is the state in which the pool holds the instance. -/
def putEncoder (enc : encoder) : encoder :=
  { enc with buf := [], EncoderConfig := none, mapSize := 0, sliceLen := 0, nsPrefix := "" }

/-- The instance handed out by `getEncoder`: either freshly built by `New` or
a pooled one, which `putEncoder` left in the same blank state. -/
def getEncoder : encoder := encoderPool.New

/-- The constructor `NewEncoder`. -/
def NewEncoder (cfg : zapcore.EncoderConfig) : encoder :=
  { getEncoder with EncoderConfig := some cfg }

/-- The write `enc.enc.EncodeX(v)` / `enc.buf.Write(b)`: append bytes to the buffer. -/
def encoder.write (enc : encoder) (b : Bytes) : encoder :=
  { enc with buf := enc.buf ++ b }

/-- The method `encodeKey`. -/
def encoder.encodeKey (c : Codec) (enc : encoder) (key : String) : encoder :=
  enc.write (c.EncodeString (enc.nsPrefix ++ key))

/-- The method `OpenNamespace`. -/
def encoder.OpenNamespace (enc : encoder) (key : String) : encoder :=
  { enc with nsPrefix := enc.nsPrefix ++ (key ++ ".") }

/-- The method `clone` (lower case): a blank instance sharing the configuration. -/
def encoder.clone (enc : encoder) : encoder :=
  { getEncoder with EncoderConfig := enc.EncoderConfig }

/-- The method `Clone` (upper case). -/
def encoder.Clone (enc : encoder) : encoder :=
  let clone := enc.clone
  let clone := clone.write enc.buf
  let clone := { clone with mapSize := enc.mapSize }
  let clone := { clone with sliceLen := enc.sliceLen }
  let clone := { clone with nsPrefix := enc.nsPrefix }
  clone

/-- The statement `enc.mapSize++`. -/
def encoder.incMapSize (enc : encoder) : encoder :=
  { enc with mapSize := enc.mapSize + 1 }

/-- The statement `enc.sliceLen++`. -/
def encoder.incSliceLen (enc : encoder) : encoder :=
  { enc with sliceLen := enc.sliceLen + 1 }

/-! ## `time.Duration.Seconds` -/

/-- Number of binary digits of `n`, computed with `fuel` halvings. -/
def bitLenAux : Nat → Nat → Nat
  | 0, _ => 0
  | fuel + 1, n => if n = 0 then 0 else bitLenAux fuel (n / 2) + 1

/-- Number of binary digits of `n`. -/
def bitLen (n : Nat) : Nat := bitLenAux n n

/-- The IEEE-754 binary64 bit pattern of the non-negative rational `p / q`
(`q > 0`), rounded to nearest, ties to even. -/
def roundF64 (p q : Nat) : Nat :=
  if p = 0 then 0 else
  let e0 : Int := (bitLen p : Int) - (bitLen q : Int) - 53
  let scale : Int → Nat × Nat := fun e =>
    if 0 ≤ e then (p, q * 2 ^ e.toNat) else (p * 2 ^ (-e).toNat, q)
  let e1 : Int := if 2 ^ 53 ≤ (scale e0).1 / (scale e0).2 then e0 + 1 else e0
  let e : Int := if e1 < -1074 then -1074 else e1
  let num := (scale e).1
  let den := (scale e).2
  let m0 := num / den
  let r := num % den
  let m1 := if den < 2 * r ∨ (2 * r = den ∧ m0 % 2 = 1) then m0 + 1 else m0
  let m := if m1 = 2 ^ 53 then 2 ^ 52 else m1
  let e2 : Int := if m1 = 2 ^ 53 then e + 1 else e
  if m < 2 ^ 52 then m
  else if 2047 ≤ e2 + 1075 then 2047 * 2 ^ 52
  else (e2 + 1075).toNat * 2 ^ 52 + (m - 2 ^ 52)

/-- Mantissa and exponent `(m, e)` of a finite non-negative binary64 bit
pattern: its value is `m * 2 ^ e`. -/
def decodeF64 (bits : Nat) : Nat × Int :=
  let E : Nat := bits / 2 ^ 52 % 2048
  let f : Nat := bits % 2 ^ 52
  if E = 0 then (f, -1074) else (f + 2 ^ 52, (E : Int) - 1075)

/-- Binary64 addition of two finite non-negative values given by bit pattern. -/
def addF64 (x y : Nat) : Nat :=
  if x = 0 then y else if y = 0 then x else
  let a := decodeF64 x
  let b := decodeF64 y
  let e : Int := if a.2 ≤ b.2 then a.2 else b.2
  let num := a.1 * 2 ^ (a.2 - e).toNat + b.1 * 2 ^ (b.2 - e).toNat
  if 0 ≤ e then roundF64 (num * 2 ^ e.toNat) 1 else roundF64 num (2 ^ (-e).toNat)

/-- Go `time.Duration.Seconds` on a duration of `d` nanoseconds, as the bit
pattern of the resulting float64:
`float64(d / Second) + float64(d % Second) / 1e9`. -/
def Duration.Seconds (d : Int) : Nat :=
  let a := d.natAbs
  let sec := roundF64 (a / 1000000000) 1
  let frac := roundF64 (a % 1000000000) 1000000000
  let s := addF64 sec frac
  if d < 0 ∧ s ≠ 0 then 2 ^ 63 + s else s

/-! ## `encoder_append.go`: scalar `Append*` methods -/

/-- The method `AppendBool`. -/
def encoder.AppendBool (c : Codec) (enc : encoder) (val : Bool) : encoder :=
  enc.incSliceLen.write (c.EncodeBool val)

/-- The method `AppendByteString`. -/
def encoder.AppendByteString (c : Codec) (enc : encoder) (val : String) : encoder :=
  enc.incSliceLen.write (c.EncodeString val)

/-- The method `AppendComplex128`: panics. -/
def encoder.AppendComplex128 (_enc : encoder) (_re _im : Nat) : Except String encoder :=
  .error "not implemented"

/-- The method `AppendComplex64`: panics. -/
def encoder.AppendComplex64 (_enc : encoder) (_re _im : Nat) : Except String encoder :=
  .error "not implemented"

/-- The method `AppendDuration`. -/
def encoder.AppendDuration (c : Codec) (enc : encoder) (val : Int) : encoder :=
  enc.incSliceLen.write (c.EncodeFloat64 (Duration.Seconds val))

/-- The method `AppendFloat64`. -/
def encoder.AppendFloat64 (c : Codec) (enc : encoder) (val : Nat) : encoder :=
  enc.incSliceLen.write (c.EncodeFloat64 val)

/-- The method `AppendFloat32`. -/
def encoder.AppendFloat32 (c : Codec) (enc : encoder) (val : Nat) : encoder :=
  enc.incSliceLen.write (c.EncodeFloat32 val)

/-- The method `AppendInt`. -/
def encoder.AppendInt (c : Codec) (enc : encoder) (val : Int) : encoder :=
  enc.incSliceLen.write (c.EncodeInt val)

/-- The method `AppendInt64`. -/
def encoder.AppendInt64 (c : Codec) (enc : encoder) (val : Int) : encoder :=
  enc.incSliceLen.write (c.EncodeInt64 val)

/-- The method `AppendInt32`. -/
def encoder.AppendInt32 (c : Codec) (enc : encoder) (val : Int) : encoder :=
  enc.incSliceLen.write (c.EncodeInt32 val)

/-- The method `AppendInt16`. -/
def encoder.AppendInt16 (c : Codec) (enc : encoder) (val : Int) : encoder :=
  enc.incSliceLen.write (c.EncodeInt16 val)

/-- The method `AppendInt8`. -/
def encoder.AppendInt8 (c : Codec) (enc : encoder) (val : Int) : encoder :=
  enc.incSliceLen.write (c.EncodeInt8 val)

/-- The method `AppendString`. -/
def encoder.AppendString (c : Codec) (enc : encoder) (val : String) : encoder :=
  enc.incSliceLen.write (c.EncodeString val)

/-- The method `AppendTime`. -/
def encoder.AppendTime (c : Codec) (enc : encoder) (val : Time) : encoder :=
  enc.incSliceLen.write (c.EncodeTime val)

/-- The method `AppendUint`. -/
def encoder.AppendUint (c : Codec) (enc : encoder) (val : Nat) : encoder :=
  enc.incSliceLen.write (c.EncodeUint val)

/-- The method `AppendUint64`. -/
def encoder.AppendUint64 (c : Codec) (enc : encoder) (val : Nat) : encoder :=
  enc.incSliceLen.write (c.EncodeUint64 val)

/-- The method `AppendUint32`. -/
def encoder.AppendUint32 (c : Codec) (enc : encoder) (val : Nat) : encoder :=
  enc.incSliceLen.write (c.EncodeUint32 val)

/-- The method `AppendUint16`. -/
def encoder.AppendUint16 (c : Codec) (enc : encoder) (val : Nat) : encoder :=
  enc.incSliceLen.write (c.EncodeUint16 val)

/-- The method `AppendUint8`. -/
def encoder.AppendUint8 (c : Codec) (enc : encoder) (val : Nat) : encoder :=
  enc.incSliceLen.write (c.EncodeUint8 val)

/-- The method `AppendUintptr`. -/
def encoder.AppendUintptr (c : Codec) (enc : encoder) (val : Nat) : encoder :=
  enc.incSliceLen.write (c.EncodeUint64 val)

/-- The method `AppendReflected`: the new receiver state and the returned error. -/
def encoder.AppendReflected (c : Codec) (enc : encoder) (val : Interface) :
    encoder × Option GoError :=
  (enc.incSliceLen.write (c.Encode val).1, (c.Encode val).2)

/-- Dispatch of a scalar `Append*` call to the method it names. -/
def encoder.Append (c : Codec) (enc : encoder) : AppendValue → Except String encoder
  | .Bool val => .ok (enc.AppendBool c val)
  | .ByteString val => .ok (enc.AppendByteString c val)
  | .Complex128 re im => enc.AppendComplex128 re im
  | .Complex64 re im => enc.AppendComplex64 re im
  | .Duration val => .ok (enc.AppendDuration c val)
  | .Float64 val => .ok (enc.AppendFloat64 c val)
  | .Float32 val => .ok (enc.AppendFloat32 c val)
  | .Int val => .ok (enc.AppendInt c val)
  | .Int64 val => .ok (enc.AppendInt64 c val)
  | .Int32 val => .ok (enc.AppendInt32 c val)
  | .Int16 val => .ok (enc.AppendInt16 c val)
  | .Int8 val => .ok (enc.AppendInt8 c val)
  | .String val => .ok (enc.AppendString c val)
  | .Time val => .ok (enc.AppendTime c val)
  | .Uint val => .ok (enc.AppendUint c val)
  | .Uint64 val => .ok (enc.AppendUint64 c val)
  | .Uint32 val => .ok (enc.AppendUint32 c val)
  | .Uint16 val => .ok (enc.AppendUint16 c val)
  | .Uint8 val => .ok (enc.AppendUint8 c val)
  | .Uintptr val => .ok (enc.AppendUintptr c val)

/-! ## `encoder_add.go`: scalar `Add*` methods -/

/-- The method `AddBinary`. -/
def encoder.AddBinary (c : Codec) (enc : encoder) (key : String) (val : Bytes) : encoder :=
  (enc.incMapSize.encodeKey c key).write (c.EncodeBytes val)

/-- The method `AddByteString`. -/
def encoder.AddByteString (c : Codec) (enc : encoder) (key : String) (val : String) : encoder :=
  (enc.incMapSize.encodeKey c key).write (c.EncodeString val)

/-- The method `AddBool`. -/
def encoder.AddBool (c : Codec) (enc : encoder) (key : String) (val : Bool) : encoder :=
  (enc.incMapSize.encodeKey c key).write (c.EncodeBool val)

/-- The method `AddComplex128`: panics. -/
def encoder.AddComplex128 (_enc : encoder) (_key : String) (_re _im : Nat) :
    Except String encoder :=
  .error "complex numbers not supported in msgpack"

/-- The method `AddComplex64`: panics. -/
def encoder.AddComplex64 (_enc : encoder) (_key : String) (_re _im : Nat) :
    Except String encoder :=
  .error "complex numbers not supported in msgpack"

/-- The method `AddDuration`. -/
def encoder.AddDuration (c : Codec) (enc : encoder) (key : String) (val : Int) : encoder :=
  (enc.incMapSize.encodeKey c key).write (c.EncodeFloat64 (Duration.Seconds val))

/-- The method `AddFloat64`. -/
def encoder.AddFloat64 (c : Codec) (enc : encoder) (key : String) (val : Nat) : encoder :=
  (enc.incMapSize.encodeKey c key).write (c.EncodeFloat64 val)

/-- The method `AddFloat32`. -/
def encoder.AddFloat32 (c : Codec) (enc : encoder) (key : String) (val : Nat) : encoder :=
  (enc.incMapSize.encodeKey c key).write (c.EncodeFloat32 val)

/-- The method `AddInt`. -/
def encoder.AddInt (c : Codec) (enc : encoder) (key : String) (val : Int) : encoder :=
  (enc.incMapSize.encodeKey c key).write (c.EncodeInt val)

/-- The method `AddInt64`. -/
def encoder.AddInt64 (c : Codec) (enc : encoder) (key : String) (val : Int) : encoder :=
  (enc.incMapSize.encodeKey c key).write (c.EncodeInt64 val)

/-- The method `AddInt32`. -/
def encoder.AddInt32 (c : Codec) (enc : encoder) (key : String) (val : Int) : encoder :=
  (enc.incMapSize.encodeKey c key).write (c.EncodeInt32 val)

/-- The method `AddInt16`. -/
def encoder.AddInt16 (c : Codec) (enc : encoder) (key : String) (val : Int) : encoder :=
  (enc.incMapSize.encodeKey c key).write (c.EncodeInt16 val)

/-- The method `AddInt8`. -/
def encoder.AddInt8 (c : Codec) (enc : encoder) (key : String) (val : Int) : encoder :=
  (enc.incMapSize.encodeKey c key).write (c.EncodeInt8 val)

/-- The method `AddString`. -/
def encoder.AddString (c : Codec) (enc : encoder) (key : String) (val : String) : encoder :=
  (enc.incMapSize.encodeKey c key).write (c.EncodeString val)

/-- The method `AddTime`. -/
def encoder.AddTime (c : Codec) (enc : encoder) (key : String) (val : Time) : encoder :=
  (enc.incMapSize.encodeKey c key).write (c.EncodeTime val)

/-- The method `AddUint`. -/
def encoder.AddUint (c : Codec) (enc : encoder) (key : String) (val : Nat) : encoder :=
  (enc.incMapSize.encodeKey c key).write (c.EncodeUint val)

/-- The method `AddUint64`. -/
def encoder.AddUint64 (c : Codec) (enc : encoder) (key : String) (val : Nat) : encoder :=
  (enc.incMapSize.encodeKey c key).write (c.EncodeUint64 val)

/-- The method `AddUint32`. -/
def encoder.AddUint32 (c : Codec) (enc : encoder) (key : String) (val : Nat) : encoder :=
  (enc.incMapSize.encodeKey c key).write (c.EncodeUint32 val)

/-- The method `AddUint16`. -/
def encoder.AddUint16 (c : Codec) (enc : encoder) (key : String) (val : Nat) : encoder :=
  (enc.incMapSize.encodeKey c key).write (c.EncodeUint16 val)

/-- The method `AddUint8`. -/
def encoder.AddUint8 (c : Codec) (enc : encoder) (key : String) (val : Nat) : encoder :=
  (enc.incMapSize.encodeKey c key).write (c.EncodeUint8 val)

/-- The method `AddUintptr`. -/
def encoder.AddUintptr (c : Codec) (enc : encoder) (key : String) (val : Nat) : encoder :=
  (enc.incMapSize.encodeKey c key).write (c.EncodeUint val)

/-- The method `AddReflected`: the new receiver state and the returned error. -/
def encoder.AddReflected (c : Codec) (enc : encoder) (key : String) (val : Interface) :
    encoder × Option GoError :=
  ((enc.incMapSize.encodeKey c key).write (c.Encode val).1, (c.Encode val).2)

/-- Dispatch of a scalar `Add*` call to the method it names. -/
def encoder.Add (c : Codec) (enc : encoder) (key : String) : AddValue → Except String encoder
  | .Binary val => .ok (enc.AddBinary c key val)
  | .ByteString val => .ok (enc.AddByteString c key val)
  | .Bool val => .ok (enc.AddBool c key val)
  | .Complex128 re im => enc.AddComplex128 key re im
  | .Complex64 re im => enc.AddComplex64 key re im
  | .Duration val => .ok (enc.AddDuration c key val)
  | .Float64 val => .ok (enc.AddFloat64 c key val)
  | .Float32 val => .ok (enc.AddFloat32 c key val)
  | .Int val => .ok (enc.AddInt c key val)
  | .Int64 val => .ok (enc.AddInt64 c key val)
  | .Int32 val => .ok (enc.AddInt32 c key val)
  | .Int16 val => .ok (enc.AddInt16 c key val)
  | .Int8 val => .ok (enc.AddInt8 c key val)
  | .String val => .ok (enc.AddString c key val)
  | .Time val => .ok (enc.AddTime c key val)
  | .Uint val => .ok (enc.AddUint c key val)
  | .Uint64 val => .ok (enc.AddUint64 c key val)
  | .Uint32 val => .ok (enc.AddUint32 c key val)
  | .Uint16 val => .ok (enc.AddUint16 c key val)
  | .Uint8 val => .ok (enc.AddUint8 c key val)
  | .Uintptr val => .ok (enc.AddUintptr c key val)

/-! ## `encoder.go`: nested containers -/

/-- The message of the runtime panic raised by reading a field through a nil
pointer or calling a nil func. -/
def nilDereference : String :=
  "runtime error: invalid memory address or nil pointer dereference"

mutual
/-- The method `encodeArray`: the new receiver state and the returned error. -/
def encoder.encodeArray (c : Codec) (enc : encoder) :
    ArrayMarshaler → Except String (encoder × Option GoError)
  | .mk calls ret =>
    let sliceEnc := enc.clone
    match MarshalLogArray c calls sliceEnc with
    | .error p => .error p
    | .ok sliceEnc =>
      match ret with
      | some err => .ok (enc, some err)
      | none =>
        let enc := enc.write (c.EncodeArrayLen sliceEnc.sliceLen)
        let enc := enc.write sliceEnc.buf
        .ok (enc, none)
/-- The method `encodeObject`: the new receiver state and the returned error. -/
def encoder.encodeObject (c : Codec) (enc : encoder) :
    ObjectMarshaler → Except String (encoder × Option GoError)
  | .mk calls ret =>
    let mapEnc := enc.clone
    match MarshalLogObject c calls mapEnc with
    | .error p => .error p
    | .ok mapEnc =>
      match ret with
      | some err => .ok (enc, some err)
      | none =>
        let enc := enc.write (c.EncodeMapLen mapEnc.mapSize)
        let enc := enc.write mapEnc.buf
        .ok (enc, none)
/-- One call of an array callback on `enc`.  `AppendArray` and `AppendObject`
are `enc.sliceLen++` followed by `encodeArray` / `encodeObject`; the callback
goes on whatever error the call returned. -/
def ArrayCall.run (c : Codec) (enc : encoder) : ArrayCall → Except String encoder
  | .Append val => enc.Append c val
  | .AppendArray arr =>
    match encoder.encodeArray c enc.incSliceLen arr with
    | .error p => .error p
    | .ok r => .ok r.1
  | .AppendObject obj =>
    match encoder.encodeObject c enc.incSliceLen obj with
    | .error p => .error p
    | .ok r => .ok r.1
  | .AppendReflected val => .ok (enc.AppendReflected c val).1
/-- One call of an object callback on `enc`.  `AddArray` and `AddObject` are
`enc.mapSize++`, `enc.encodeKey(key)` and then `encodeArray` / `encodeObject`. -/
def ObjectCall.run (c : Codec) (enc : encoder) : ObjectCall → Except String encoder
  | .Add key val => enc.Add c key val
  | .AddArray key arr =>
    match encoder.encodeArray c (enc.incMapSize.encodeKey c key) arr with
    | .error p => .error p
    | .ok r => .ok r.1
  | .AddObject key obj =>
    match encoder.encodeObject c (enc.incMapSize.encodeKey c key) obj with
    | .error p => .error p
    | .ok r => .ok r.1
  | .AddReflected key val => .ok (enc.AddReflected c key val).1
  | .OpenNamespace key => .ok (enc.OpenNamespace key)
/-- The effect of `arr.MarshalLogArray(enc)` on `enc`: its calls, in order. -/
def MarshalLogArray (c : Codec) : List ArrayCall → encoder → Except String encoder
  | [], enc => .ok enc
  | call :: rest, enc =>
    match ArrayCall.run c enc call with
    | .error p => .error p
    | .ok enc => MarshalLogArray c rest enc
/-- The effect of `obj.MarshalLogObject(enc)` on `enc`: its calls, in order. -/
def MarshalLogObject (c : Codec) : List ObjectCall → encoder → Except String encoder
  | [], enc => .ok enc
  | call :: rest, enc =>
    match ObjectCall.run c enc call with
    | .error p => .error p
    | .ok enc => MarshalLogObject c rest enc
end

/-- The method `AppendArray`. -/
def encoder.AppendArray (c : Codec) (enc : encoder) (arr : ArrayMarshaler) :
    Except String (encoder × Option GoError) :=
  enc.incSliceLen.encodeArray c arr

/-- The method `AppendObject`. -/
def encoder.AppendObject (c : Codec) (enc : encoder) (obj : ObjectMarshaler) :
    Except String (encoder × Option GoError) :=
  enc.incSliceLen.encodeObject c obj

/-- The method `AddArray`. -/
def encoder.AddArray (c : Codec) (enc : encoder) (key : String) (arr : ArrayMarshaler) :
    Except String (encoder × Option GoError) :=
  (enc.incMapSize.encodeKey c key).encodeArray c arr

/-- The method `AddObject`. -/
def encoder.AddObject (c : Codec) (enc : encoder) (key : String) (obj : ObjectMarshaler) :
    Except String (encoder × Option GoError) :=
  (enc.incMapSize.encodeKey c key).encodeObject c obj

/-- The scalar `Append*` calls of a formatting callback, applied in order. -/
def encoder.runAppends (c : Codec) : List AppendValue → encoder → Except String encoder
  | [], enc => .ok enc
  | val :: rest, enc =>
    match enc.Append c val with
    | .error p => .error p
    | .ok enc => encoder.runAppends c rest enc

/-! ## The field list (`zapcore.Field.AddTo`) -/

/-- The tail of `zapcore.Field.AddTo`: when the add operation returned an
error, the field `key ++ "Error"` with the error message is added. -/
def zapcore.Field.addError (c : Codec) (key : String) (r : encoder × Option GoError) : encoder :=
  match r.2 with
  | none => r.1
  | some err => r.1.AddString c (key ++ "Error") err

/-- The method `zapcore.Field.AddTo` applied to the encoder `enc`. -/
def zapcore.Field.AddTo (c : Codec) (enc : encoder) : zapcore.Field → Except String encoder
  | .Array key arr =>
    match enc.AddArray c key arr with
    | .error p => .error p
    | .ok r => .ok (zapcore.Field.addError c key r)
  | .Object key obj =>
    match enc.AddObject c key obj with
    | .error p => .error p
    | .ok r => .ok (zapcore.Field.addError c key r)
  | .Scalar key val => enc.Add c key val
  | .Reflect key val => .ok (zapcore.Field.addError c key (enc.AddReflected c key val))
  | .Namespace key => .ok (enc.OpenNamespace key)
  | .Stringer key str => .ok (enc.AddString c key str)
  | .Skip => .ok enc

/-! ## `encoder.go`: `EncodeEntry` -/

/-- Lines 165-175 of `EncodeEntry`: the level entry. -/
def EncodeEntry.level (c : Codec) (cfg : zapcore.EncoderConfig) (ent : zapcore.Entry)
    (final : encoder) : Except String encoder :=
  if cfg.LevelKey ≠ "" then
    let final := final.incMapSize
    let final := final.write (c.EncodeString cfg.LevelKey)
    let cur := final.buf.length
    match cfg.EncodeLevel with
    | none => .error nilDereference
    | some EncodeLevel =>
      match final.runAppends c (EncodeLevel ent.Level) with
      | .error p => .error p
      | .ok final =>
        if cur = final.buf.length then
          .ok (final.write (c.EncodeString ent.Level.String))
        else .ok final
  else .ok final

/-- Lines 176-178 of `EncodeEntry`: the time entry. -/
def EncodeEntry.time (c : Codec) (cfg : zapcore.EncoderConfig) (ent : zapcore.Entry)
    (final : encoder) : encoder :=
  if cfg.TimeKey ≠ "" then final.AddTime c cfg.TimeKey ent.Time else final

/-- Lines 179-197 of `EncodeEntry`: the logger-name entry. -/
def EncodeEntry.name (c : Codec) (cfg : zapcore.EncoderConfig) (ent : zapcore.Entry)
    (final : encoder) : Except String encoder :=
  if ent.LoggerName ≠ "" ∧ cfg.NameKey ≠ "" then
    let final := final.incMapSize
    let final := final.write (c.EncodeString cfg.NameKey)
    let cur := final.buf.length
    let nameEncoder :=
      match cfg.EncodeName with
      | none => zapcore.FullNameEncoder
      | some EncodeName => EncodeName
    match final.runAppends c (nameEncoder ent.LoggerName) with
    | .error p => .error p
    | .ok final =>
      if cur = final.buf.length then
        .ok (final.write (c.EncodeString ent.LoggerName))
      else .ok final
  else .ok final

/-- Lines 198-208 of `EncodeEntry`: the caller entry. -/
def EncodeEntry.caller (c : Codec) (cfg : zapcore.EncoderConfig) (ent : zapcore.Entry)
    (final : encoder) : Except String encoder :=
  if ent.Caller.Defined = true ∧ cfg.CallerKey ≠ "" then
    let final := final.incMapSize
    let final := final.write (c.EncodeString cfg.CallerKey)
    let cur := final.buf.length
    match cfg.EncodeCaller with
    | none => .error nilDereference
    | some EncodeCaller =>
      match final.runAppends c (EncodeCaller ent.Caller) with
      | .error p => .error p
      | .ok final =>
        if cur = final.buf.length then
          .ok (final.write (c.EncodeString ent.Caller.String))
        else .ok final
  else .ok final

/-- Lines 209-213 of `EncodeEntry`: the message entry.  The condition reads the
key through `final`, the written key is read through the receiver `enc`. -/
def EncodeEntry.message (c : Codec) (cfg encCfg : zapcore.EncoderConfig) (ent : zapcore.Entry)
    (final : encoder) : encoder :=
  if cfg.MessageKey ≠ "" then
    let final := final.incMapSize
    let final := final.write (c.EncodeString encCfg.MessageKey)
    final.write (c.EncodeString ent.Message)
  else final

/-- Lines 215-217 of `EncodeEntry`: the loop `fields[i].AddTo(final)`. -/
def EncodeEntry.fields (c : Codec) : List zapcore.Field → encoder → Except String encoder
  | [], final => .ok final
  | f :: rest, final =>
    match f.AddTo c final with
    | .error p => .error p
    | .ok final => EncodeEntry.fields c rest final

/-- Lines 219-221 of `EncodeEntry`: the stack-trace entry. -/
def EncodeEntry.stack (c : Codec) (cfg : zapcore.EncoderConfig) (ent : zapcore.Entry)
    (final : encoder) : encoder :=
  if ent.Stack ≠ "" ∧ cfg.StacktraceKey ≠ "" then
    final.AddString c cfg.StacktraceKey ent.Stack
  else final

/-- Lines 163-221 of `EncodeEntry`: the state of the scope `final` when the
record is framed.  The configuration is read through the embedded pointer, so a
nil pointer panics at the first read. -/
def EncodeEntry.final (c : Codec) (enc : encoder) (ent : zapcore.Entry)
    (fields : List zapcore.Field) : Except String encoder :=
  let final := enc.clone
  match final.EncoderConfig, enc.EncoderConfig with
  | some cfg, some encCfg =>
    match EncodeEntry.level c cfg ent final with
    | .error p => .error p
    | .ok final =>
      let final := EncodeEntry.time c cfg ent final
      match EncodeEntry.name c cfg ent final with
      | .error p => .error p
      | .ok final =>
        match EncodeEntry.caller c cfg ent final with
        | .error p => .error p
        | .ok final =>
          let final := EncodeEntry.message c cfg encCfg ent final
          match EncodeEntry.fields c fields final with
          | .error p => .error p
          | .ok final => .ok (EncodeEntry.stack c cfg ent final)
  | _, _ => .error nilDereference

/-- The method `EncodeEntry`: the bytes of the returned buffer and the returned
error. -/
def encoder.EncodeEntry (c : Codec) (enc : encoder) (ent : zapcore.Entry)
    (fields : List zapcore.Field) : Except String (Bytes × Option GoError) :=
  let finenc := enc.clone
  let finenc := finenc.write (c.EncodeArrayLen 2)
  let finenc := finenc.write (c.EncodeTime ent.Time)
  match EncodeEntry.final c enc ent fields with
  | .error p => .error p
  | .ok final =>
    let finenc := finenc.write (c.EncodeMapLen final.mapSize)
    let finenc := finenc.write final.buf
    let buf : Bytes := [] ++ finenc.buf
    .ok (buf, none)

/-! ## A concrete codec: the MessagePack wire format -/

/-- The `k` low-order bytes of `n`, most significant first. -/
def beBytes : Nat → Nat → Bytes
  | 0, _ => []
  | k + 1, n => (n / 256 ^ k) % 256 :: beBytes k n

/-- The two's-complement value of a signed integer in `w` bits. -/
def twos (w : Nat) (v : Int) : Nat := (v % 2 ^ w).toNat

/-- UTF-8 bytes of one character. -/
def utf8Char (ch : Char) : Bytes :=
  let n := ch.toNat
  if n < 0x80 then [n]
  else if n < 0x800 then [0xc0 + n / 64, 0x80 + n % 64]
  else if n < 0x10000 then [0xe0 + n / 4096, 0x80 + n / 64 % 64, 0x80 + n % 64]
  else [0xf0 + n / 262144, 0x80 + n / 4096 % 64, 0x80 + n / 64 % 64, 0x80 + n % 64]

/-- UTF-8 bytes of a string. -/
def utf8 (s : String) : Bytes := s.data.flatMap utf8Char

namespace msgpack

/-- The string header (`fixstr`, `str 8`, `str 16`, `str 32`). -/
def strLen (l : Nat) : Bytes :=
  if l < 32 then [0xa0 + l]
  else if l < 256 then [0xd9, l]
  else if l < 65536 then 0xda :: beBytes 2 l
  else 0xdb :: beBytes 4 l

def EncodeString (s : String) : Bytes := strLen (utf8 s).length ++ utf8 s

def EncodeArrayLen (l : Nat) : Bytes :=
  if l < 16 then [0x90 + l]
  else if l < 65536 then 0xdc :: beBytes 2 l
  else 0xdd :: beBytes 4 l

def EncodeMapLen (l : Nat) : Bytes :=
  if l < 16 then [0x80 + l]
  else if l < 65536 then 0xde :: beBytes 2 l
  else 0xdf :: beBytes 4 l

/-- The timestamp extension (type `-1`) in its 32-, 64- or 96-bit form. -/
def EncodeTime (t : Time) : Bytes :=
  let secs := twos 64 t.sec
  if secs / 2 ^ 34 = 0 then
    let data := t.nsec * 2 ^ 34 + secs
    if data / 2 ^ 32 = 0 then 0xd6 :: 0xff :: beBytes 4 data
    else 0xd7 :: 0xff :: beBytes 8 data
  else 0xc7 :: 12 :: 0xff :: (beBytes 4 t.nsec ++ beBytes 8 secs)

/-- The byte-array header and payload (`bin 8`, `bin 16`, `bin 32`). -/
def EncodeBytes (b : Bytes) : Bytes :=
  (if b.length < 256 then [0xc4, b.length]
   else if b.length < 65536 then 0xc5 :: beBytes 2 b.length
   else 0xc6 :: beBytes 4 b.length) ++ b

def EncodeBool (b : Bool) : Bytes := if b then [0xc3] else [0xc2]

def EncodeFloat64 (bits : Nat) : Bytes := 0xcb :: beBytes 8 bits

def EncodeFloat32 (bits : Nat) : Bytes := 0xca :: beBytes 4 bits

def EncodeUint8 (n : Nat) : Bytes := 0xcc :: beBytes 1 n

def EncodeUint16 (n : Nat) : Bytes := 0xcd :: beBytes 2 n

def EncodeUint32 (n : Nat) : Bytes := 0xce :: beBytes 4 n

def EncodeUint64 (n : Nat) : Bytes := 0xcf :: beBytes 8 n

def EncodeInt8 (n : Int) : Bytes := 0xd0 :: beBytes 1 (twos 8 n)

def EncodeInt16 (n : Int) : Bytes := 0xd1 :: beBytes 2 (twos 16 n)

def EncodeInt32 (n : Int) : Bytes := 0xd2 :: beBytes 4 (twos 32 n)

def EncodeInt64 (n : Int) : Bytes := 0xd3 :: beBytes 8 (twos 64 n)

/-- The shortest unsigned form: 1, 2, 3, 5 or 9 bytes. -/
def EncodeUint (n : Nat) : Bytes :=
  if n ≤ 127 then [n]
  else if n ≤ 255 then EncodeUint8 n
  else if n ≤ 65535 then EncodeUint16 n
  else if n ≤ 4294967295 then EncodeUint32 n
  else EncodeUint64 n

/-- The shortest signed form: 1, 2, 3, 5 or 9 bytes. -/
def EncodeInt (n : Int) : Bytes :=
  if 0 ≤ n then EncodeUint n.toNat
  else if -32 ≤ n then [twos 8 n]
  else if -128 ≤ n then EncodeInt8 n
  else if -32768 ≤ n then EncodeInt16 n
  else if -2147483648 ≤ n then EncodeInt32 n
  else EncodeInt64 n

/-- The generic encoder on the modelled dynamic types; a value of an
unsupported type writes nothing and reports an error. -/
def Encode : Interface → Bytes × Option GoError
  | .Nil => ([0xc0], none)
  | .Bool val => (EncodeBool val, none)
  | .Int64 val => (EncodeInt64 val, none)
  | .String val => (EncodeString val, none)
  | .Unsupported typ => ([], some ("msgpack: Encode(unsupported " ++ typ ++ ")"))

end msgpack

/-- The MessagePack codec as an instance of the codec interface. -/
def msgpack : Codec :=
  { EncodeString := msgpack.EncodeString
    EncodeArrayLen := msgpack.EncodeArrayLen
    EncodeMapLen := msgpack.EncodeMapLen
    EncodeTime := msgpack.EncodeTime
    EncodeBytes := msgpack.EncodeBytes
    EncodeBool := msgpack.EncodeBool
    EncodeFloat64 := msgpack.EncodeFloat64
    EncodeFloat32 := msgpack.EncodeFloat32
    EncodeInt := msgpack.EncodeInt
    EncodeInt64 := msgpack.EncodeInt64
    EncodeInt32 := msgpack.EncodeInt32
    EncodeInt16 := msgpack.EncodeInt16
    EncodeInt8 := msgpack.EncodeInt8
    EncodeUint := msgpack.EncodeUint
    EncodeUint64 := msgpack.EncodeUint64
    EncodeUint32 := msgpack.EncodeUint32
    EncodeUint16 := msgpack.EncodeUint16
    EncodeUint8 := msgpack.EncodeUint8
    Encode := msgpack.Encode }

/-- The configuration of the repository's test `TestEncodeEntry`. -/
def testConfig : zapcore.EncoderConfig :=
  { MessageKey := "M", LevelKey := "L", TimeKey := "T", NameKey := "N", CallerKey := "C",
    StacktraceKey := "S",
    EncodeLevel := some zapcore.LowercaseLevelEncoder,
    EncodeTime := some (fun t => [.Time t]),
    EncodeDuration := some (fun d => [.Duration d]),
    EncodeCaller := some (fun ec => [.String ec.String]),
    EncodeName := none }

/-! ## The wire grammar: value trees and their serialisation

A record is a tree of values.  A leaf is one value written by one call of a
codec primitive; an inner node is a sequence or a map, serialised as a length
prefix followed by its elements (for a map: key and value, alternating). -/

/-- One value written by one call of a codec primitive. -/
inductive Prim where
  | String (val : String)
  | Time (val : Time)
  | Bin (val : Bytes)
  | Bool (val : Bool)
  | Float64 (val : Nat)
  | Float32 (val : Nat)
  | Int (val : Int)
  | Int64 (val : Int)
  | Int32 (val : Int)
  | Int16 (val : Int)
  | Int8 (val : Int)
  | Uint (val : Nat)
  | Uint64 (val : Nat)
  | Uint32 (val : Nat)
  | Uint16 (val : Nat)
  | Uint8 (val : Nat)
  | Reflected (val : Interface)
deriving DecidableEq, Repr

/-- The bytes of a leaf. -/
def Prim.encode (c : Codec) : Prim → zapmsgpack.Bytes
  | .String val => c.EncodeString val
  | .Time val => c.EncodeTime val
  | .Bin val => c.EncodeBytes val
  | .Bool val => c.EncodeBool val
  | .Float64 val => c.EncodeFloat64 val
  | .Float32 val => c.EncodeFloat32 val
  | .Int val => c.EncodeInt val
  | .Int64 val => c.EncodeInt64 val
  | .Int32 val => c.EncodeInt32 val
  | .Int16 val => c.EncodeInt16 val
  | .Int8 val => c.EncodeInt8 val
  | .Uint val => c.EncodeUint val
  | .Uint64 val => c.EncodeUint64 val
  | .Uint32 val => c.EncodeUint32 val
  | .Uint16 val => c.EncodeUint16 val
  | .Uint8 val => c.EncodeUint8 val
  | .Reflected val => (c.Encode val).1

/-- A value tree. -/
inductive Value where
  | prim (p : Prim)
  | array (elems : List Value)
  | map (entries : List (String × Value))

mutual
/-- The serialisation of a value. -/
def Value.serialize (c : Codec) : Value → Bytes
  | .prim p => p.encode c
  | .array elems => c.EncodeArrayLen elems.length ++ serializeElems c elems
  | .map entries => c.EncodeMapLen entries.length ++ serializeEntries c entries
termination_by structural x => x
/-- The serialisations of the elements of a sequence, concatenated. -/
def serializeElems (c : Codec) : List Value → Bytes
  | [] => []
  | v :: rest => v.serialize c ++ serializeElems c rest
termination_by structural x => x
/-- The serialisations of the key/value pairs of a map, concatenated. -/
def serializeEntries (c : Codec) : List (String × Value) → Bytes
  | [] => []
  | (key, v) :: rest => c.EncodeString key ++ (v.serialize c ++ serializeEntries c rest)
termination_by structural x => x
end

/-- The leaf a scalar `Append*` call writes; `none` for the complex types. -/
def AppendValue.prim : AppendValue → Option Prim
  | .Bool val => some (.Bool val)
  | .ByteString val => some (.String val)
  | .Complex128 _ _ => none
  | .Complex64 _ _ => none
  | .Duration val => some (.Float64 (Duration.Seconds val))
  | .Float64 val => some (.Float64 val)
  | .Float32 val => some (.Float32 val)
  | .Int val => some (.Int val)
  | .Int64 val => some (.Int64 val)
  | .Int32 val => some (.Int32 val)
  | .Int16 val => some (.Int16 val)
  | .Int8 val => some (.Int8 val)
  | .String val => some (.String val)
  | .Time val => some (.Time val)
  | .Uint val => some (.Uint val)
  | .Uint64 val => some (.Uint64 val)
  | .Uint32 val => some (.Uint32 val)
  | .Uint16 val => some (.Uint16 val)
  | .Uint8 val => some (.Uint8 val)
  | .Uintptr val => some (.Uint64 val)

/-- The value leaf a scalar `Add*` call writes after its key; `none` for the
complex types. -/
def AddValue.prim : AddValue → Option Prim
  | .Binary val => some (.Bin val)
  | .ByteString val => some (.String val)
  | .Bool val => some (.Bool val)
  | .Complex128 _ _ => none
  | .Complex64 _ _ => none
  | .Duration val => some (.Float64 (Duration.Seconds val))
  | .Float64 val => some (.Float64 val)
  | .Float32 val => some (.Float32 val)
  | .Int val => some (.Int val)
  | .Int64 val => some (.Int64 val)
  | .Int32 val => some (.Int32 val)
  | .Int16 val => some (.Int16 val)
  | .Int8 val => some (.Int8 val)
  | .String val => some (.String val)
  | .Time val => some (.Time val)
  | .Uint val => some (.Uint val)
  | .Uint64 val => some (.Uint64 val)
  | .Uint32 val => some (.Uint32 val)
  | .Uint16 val => some (.Uint16 val)
  | .Uint8 val => some (.Uint8 val)
  | .Uintptr val => some (.Uint val)

/-- Whether a call of an object callback is an `Add*` call (every call except
`OpenNamespace`). -/
def ObjectCall.isAdd : ObjectCall → Bool
  | .OpenNamespace _ => false
  | _ => true

mutual
/-- The elements of the sequence a successful array marshaler denotes: `none`
when it reports an error or one of its calls does not write one complete
value. -/
def ArrayMarshaler.elems (c : Codec) : ArrayMarshaler → Option (List Value)
  | .mk calls ret =>
    match ret with
    | some _ => none
    | none => arrayElems c calls
termination_by structural x => x
/-- The key/value pairs of the map a successful object marshaler denotes; the
nested scope starts with an empty namespace prefix. -/
def ObjectMarshaler.entries (c : Codec) : ObjectMarshaler → Option (List (String × Value))
  | .mk calls ret =>
    match ret with
    | some _ => none
    | none => objectEntries c "" calls
termination_by structural x => x
/-- The elements a list of array calls contributes: `none` as soon as a call
does not write one complete value (a complex value, a reflected value the
codec rejects, a nested marshaler that reports an error). -/
def arrayElems (c : Codec) : List ArrayCall → Option (List Value)
  | [] => some []
  | .Append val :: rest =>
    match val.prim, arrayElems c rest with
    | some p, some vs => some (.prim p :: vs)
    | _, _ => none
  | .AppendArray arr :: rest =>
    match arr.elems c, arrayElems c rest with
    | some elems, some vs => some (.array elems :: vs)
    | _, _ => none
  | .AppendObject obj :: rest =>
    match obj.entries c, arrayElems c rest with
    | some entries, some vs => some (.map entries :: vs)
    | _, _ => none
  | .AppendReflected val :: rest =>
    match (c.Encode val).2, arrayElems c rest with
    | none, some vs => some (.prim (.Reflected val) :: vs)
    | _, _ => none
termination_by structural x => x
/-- The key/value pairs a list of object calls contributes when it starts with
namespace prefix `ns`: `none` as soon as a call does not write one complete
pair. -/
def objectEntries (c : Codec) (ns : String) : List ObjectCall → Option (List (String × Value))
  | [] => some []
  | .Add key val :: rest =>
    match val.prim, objectEntries c ns rest with
    | some p, some es => some ((ns ++ key, .prim p) :: es)
    | _, _ => none
  | .AddArray key arr :: rest =>
    match arr.elems c, objectEntries c ns rest with
    | some elems, some es => some ((ns ++ key, .array elems) :: es)
    | _, _ => none
  | .AddObject key obj :: rest =>
    match obj.entries c, objectEntries c ns rest with
    | some entries, some es => some ((ns ++ key, .map entries) :: es)
    | _, _ => none
  | .AddReflected key val :: rest =>
    match (c.Encode val).2, objectEntries c ns rest with
    | none, some es => some ((ns ++ key, .prim (.Reflected val)) :: es)
    | _, _ => none
  | .OpenNamespace key :: rest => objectEntries c (ns ++ (key ++ ".")) rest
termination_by structural x => x
end

/-- The call a field makes on the encoder (`zapcore.Field.AddTo` without its
error tail); `none` for `Skip`. -/
def zapcore.Field.call : zapcore.Field → Option ObjectCall
  | .Array key arr => some (.AddArray key arr)
  | .Object key obj => some (.AddObject key obj)
  | .Scalar key val => some (.Add key val)
  | .Reflect key val => some (.AddReflected key val)
  | .Namespace key => some (.OpenNamespace key)
  | .Stringer key str => some (.Add key (.String str))
  | .Skip => none

/-- The calls the field list makes on the encoder, in list order. -/
def fieldCalls (fields : List zapcore.Field) : List ObjectCall :=
  fields.filterMap zapcore.Field.call

/-- The namespace prefix after a list of calls that starts with prefix `ns`. -/
def finalPrefix (ns : String) : List ObjectCall → String
  | [] => ns
  | .OpenNamespace key :: rest => finalPrefix (ns ++ (key ++ ".")) rest
  | _ :: rest => finalPrefix ns rest

/-- The bytes a formatting callback writes: the encodings of the values it
appends, in order. -/
def callbackBytes (c : Codec) (calls : List AppendValue) : Bytes :=
  (calls.filterMap AppendValue.prim).flatMap (Prim.encode c)

/-- The value of a level, name or caller entry: the fallback string when the
formatting callback wrote no byte, the value it appended when it appended
exactly one, and `none` when it appended a complex value or more than one
value. -/
def formatted (c : Codec) (calls : List AppendValue) (fallback : String) : Option Value :=
  match calls with
  | [] => some (.prim (.String fallback))
  | [val] =>
    match val.prim with
    | none => none
    | some p => if p.encode c = [] then some (.prim (.String fallback)) else some (.prim p)
  | _ => none

/-- The level entry: gated by the level key; `none` when the level callback is
not set or appends more than one value. -/
def levelEntries (c : Codec) (cfg : zapcore.EncoderConfig) (ent : zapcore.Entry) :
    Option (List (String × Value)) :=
  if cfg.LevelKey ≠ "" then
    match cfg.EncodeLevel with
    | none => none
    | some f => (formatted c (f ent.Level) ent.Level.String).map (fun v => [(cfg.LevelKey, v)])
  else some []

/-- The time entry of the map: gated by the time key. -/
def timeEntries (cfg : zapcore.EncoderConfig) (ent : zapcore.Entry) : List (String × Value) :=
  if cfg.TimeKey ≠ "" then [(cfg.TimeKey, .prim (.Time ent.Time))] else []

/-- The logger-name entry: gated by the name key and a non-empty logger name;
without a name callback the default full-name formatter is used. -/
def nameEntries (c : Codec) (cfg : zapcore.EncoderConfig) (ent : zapcore.Entry) :
    Option (List (String × Value)) :=
  if ent.LoggerName ≠ "" ∧ cfg.NameKey ≠ "" then
    (formatted c ((cfg.EncodeName.getD zapcore.FullNameEncoder) ent.LoggerName)
      ent.LoggerName).map (fun v => [(cfg.NameKey, v)])
  else some []

/-- The caller entry: gated by the caller key and a defined caller; `none`
when the caller callback is not set or appends more than one value. -/
def callerEntries (c : Codec) (cfg : zapcore.EncoderConfig) (ent : zapcore.Entry) :
    Option (List (String × Value)) :=
  if ent.Caller.Defined = true ∧ cfg.CallerKey ≠ "" then
    match cfg.EncodeCaller with
    | none => none
    | some f => (formatted c (f ent.Caller) ent.Caller.String).map (fun v => [(cfg.CallerKey, v)])
  else some []

/-- The message entry: gated by the message key. -/
def messageEntries (cfg : zapcore.EncoderConfig) (ent : zapcore.Entry) :
    List (String × Value) :=
  if cfg.MessageKey ≠ "" then [(cfg.MessageKey, .prim (.String ent.Message))] else []

/-- The envelope entries of an event in the order level, time, logger name,
caller, message.  `none` when a formatting callback that is needed is not set
or appends more than one value. -/
def envelopeEntries (c : Codec) (cfg : zapcore.EncoderConfig) (ent : zapcore.Entry) :
    Option (List (String × Value)) :=
  match levelEntries c cfg ent, nameEntries c cfg ent, callerEntries c cfg ent with
  | some l, some n, some cl =>
    some (l ++ timeEntries cfg ent ++ n ++ cl ++ messageEntries cfg ent)
  | _, _, _ => none

/-- The stack-trace entry, written last under the key `key`. -/
def stackEntries (cfg : zapcore.EncoderConfig) (ent : zapcore.Entry) (key : String) :
    List (String × Value) :=
  if ent.Stack ≠ "" ∧ cfg.StacktraceKey ≠ "" then [(key, .prim (.String ent.Stack))] else []

/-- The map of a record as the specification describes it: the gated envelope
entries, the entries of the field list (namespace-prefixed), and the stack
trace under the configured stack-trace key. -/
def expectedEntries (c : Codec) (cfg : zapcore.EncoderConfig) (ent : zapcore.Entry)
    (fields : List zapcore.Field) : Option (List (String × Value)) :=
  match envelopeEntries c cfg ent, objectEntries c "" (fieldCalls fields) with
  | some env, some fs => some (env ++ fs ++ stackEntries cfg ent cfg.StacktraceKey)
  | _, _ => none

/-- The record the specification describes: the 2-element sequence of the
timestamp and the map. -/
def expectedRecord (c : Codec) (cfg : zapcore.EncoderConfig) (ent : zapcore.Entry)
    (fields : List zapcore.Field) : Option Value :=
  (expectedEntries c cfg ent fields).map
    (fun entries => .array [.prim (.Time ent.Time), .map entries])

/-- The state reached from `e` by writing the bytes `b` and adding `dm` to the
map-entry count and `ds` to the sequence-element count. -/
def encoder.advance (e : encoder) (b : Bytes) (dm ds : Nat) : encoder :=
  { e with buf := e.buf ++ b, mapSize := e.mapSize + dm, sliceLen := e.sliceLen + ds }

/-- The namespace prefix built by opening the namespaces `names` in order. -/
def namespacePrefix : List String → String
  | [] => ""
  | name :: rest => name ++ "." ++ namespacePrefix rest

/-! ## A conformant decoder for the MessagePack codec -/

namespace msgpack

/-- A decoded MessagePack value; strings are kept as their UTF-8 bytes. -/
inductive Decoded where
  | Nil
  | Bool (val : Bool)
  | Int (val : Int)
  | Uint (val : Nat)
  | Float32 (bits : Nat)
  | Float64 (bits : Nat)
  | Str (utf8 : Bytes)
  | Bin (val : Bytes)
  | Time (val : Time)
  | Array (elems : List Decoded)
  | Map (entries : List (Decoded × Decoded))

/-- The number encoded by big-endian bytes. -/
def ofBE (b : Bytes) : Nat := b.foldl (fun acc x => acc * 256 + x) 0

/-- The signed value of a `w`-bit two's-complement number. -/
def signed (w : Nat) (n : Nat) : Int := if n < 2 ^ (w - 1) then (n : Int) else (n : Int) - 2 ^ w

/-- Split off the first `n` bytes, if there are that many. -/
def split (n : Nat) (b : Bytes) : Option (Bytes × Bytes) :=
  if n ≤ b.length then some (b.take n, b.drop n) else none

/-- The timestamp extension payloads of 4, 8 and 12 bytes. -/
def decodeTime (payload : Bytes) : Option Time :=
  if payload.length = 4 then some ⟨(ofBE payload : Int), 0⟩
  else if payload.length = 8 then
    some ⟨((ofBE payload % 2 ^ 34 : Nat) : Int), ofBE payload / 2 ^ 34⟩
  else if payload.length = 12 then
    some ⟨signed 64 (ofBE (payload.drop 4)), ofBE (payload.take 4)⟩
  else none

mutual
/-- Decode one value from the front of the input; `fuel` bounds the number of
values visited. -/
def decode : Nat → Bytes → Option (Decoded × Bytes)
  | 0, _ => none
  | _ + 1, [] => none
  | fuel + 1, h :: t =>
    if h < 0x80 then some (.Uint h, t)
    else if h < 0x90 then (decodeEntries fuel (h - 0x80) t).map (fun r => (.Map r.1, r.2))
    else if h < 0xa0 then (decodeElems fuel (h - 0x90) t).map (fun r => (.Array r.1, r.2))
    else if h < 0xc0 then (split (h - 0xa0) t).map (fun r => (.Str r.1, r.2))
    else if h = 0xc0 then some (.Nil, t)
    else if h = 0xc2 then some (.Bool false, t)
    else if h = 0xc3 then some (.Bool true, t)
    else if h = 0xc4 then
      (split 1 t).bind (fun l => (split (ofBE l.1) l.2).map (fun r => (.Bin r.1, r.2)))
    else if h = 0xc7 then
      (split 2 t).bind (fun l =>
        if l.1 = [12, 0xff] then
          (split 12 l.2).bind (fun r => (decodeTime r.1).map (fun tm => (.Time tm, r.2)))
        else none)
    else if h = 0xca then (split 4 t).map (fun r => (.Float32 (ofBE r.1), r.2))
    else if h = 0xcb then (split 8 t).map (fun r => (.Float64 (ofBE r.1), r.2))
    else if h = 0xcc then (split 1 t).map (fun r => (.Uint (ofBE r.1), r.2))
    else if h = 0xcd then (split 2 t).map (fun r => (.Uint (ofBE r.1), r.2))
    else if h = 0xce then (split 4 t).map (fun r => (.Uint (ofBE r.1), r.2))
    else if h = 0xcf then (split 8 t).map (fun r => (.Uint (ofBE r.1), r.2))
    else if h = 0xd0 then (split 1 t).map (fun r => (.Int (signed 8 (ofBE r.1)), r.2))
    else if h = 0xd1 then (split 2 t).map (fun r => (.Int (signed 16 (ofBE r.1)), r.2))
    else if h = 0xd2 then (split 4 t).map (fun r => (.Int (signed 32 (ofBE r.1)), r.2))
    else if h = 0xd3 then (split 8 t).map (fun r => (.Int (signed 64 (ofBE r.1)), r.2))
    else if h = 0xd6 ∨ h = 0xd7 then
      (split 1 t).bind (fun l =>
        if l.1 = [0xff] then
          (split (if h = 0xd6 then 4 else 8) l.2).bind
            (fun r => (decodeTime r.1).map (fun tm => (.Time tm, r.2)))
        else none)
    else if h = 0xd9 then
      (split 1 t).bind (fun l => (split (ofBE l.1) l.2).map (fun r => (.Str r.1, r.2)))
    else if h = 0xda then
      (split 2 t).bind (fun l => (split (ofBE l.1) l.2).map (fun r => (.Str r.1, r.2)))
    else if h = 0xdc then
      (split 2 t).bind (fun l =>
        (decodeElems fuel (ofBE l.1) l.2).map (fun r => (.Array r.1, r.2)))
    else if h = 0xde then
      (split 2 t).bind (fun l =>
        (decodeEntries fuel (ofBE l.1) l.2).map (fun r => (.Map r.1, r.2)))
    else if 0xe0 ≤ h ∧ h < 0x100 then some (.Int ((h : Int) - 256), t)
    else none
/-- Decode `n` values in a row. -/
def decodeElems : Nat → Nat → Bytes → Option (List Decoded × Bytes)
  | _, 0, b => some ([], b)
  | 0, _ + 1, _ => none
  | fuel + 1, n + 1, b =>
    (decode fuel b).bind (fun v =>
      (decodeElems fuel n v.2).map (fun r => (v.1 :: r.1, r.2)))
/-- Decode `n` key/value pairs in a row. -/
def decodeEntries : Nat → Nat → Bytes → Option (List (Decoded × Decoded) × Bytes)
  | _, 0, b => some ([], b)
  | 0, _ + 1, _ => none
  | fuel + 1, n + 1, b =>
    (decode fuel b).bind (fun k =>
      (decode fuel k.2).bind (fun v =>
        (decodeEntries fuel n v.2).map (fun r => ((k.1, v.1) :: r.1, r.2))))
end

/-- Decode a whole input as one value, with nothing left over. -/
def Unmarshal (b : Bytes) : Option Decoded :=
  match decode (b.length + 1) b with
  | some (v, []) => some v
  | _ => none

end msgpack

/-! ## The heap: encoder instances and the instance pool

Encoders are heap objects handed around by pointer.  An address is an index
into the list of allocated instances; the pool holds addresses. -/

/-- The allocated encoder instances and the addresses held by `encoderPool`. -/
structure Heap where
  objs : List encoder
  pool : List Nat

/-- The instance at address `p`. -/
def Heap.get (h : Heap) (p : Nat) : encoder := h.objs.getD p encoderPool.New

/-- Overwrite the instance at address `p`. -/
def Heap.set (h : Heap) (p : Nat) (e : encoder) : Heap := { h with objs := h.objs.set p e }

/-- A method call on the instance at address `p` whose body reads and writes
only the receiver's own fields. -/
def Heap.call (h : Heap) (p : Nat) (method : encoder → encoder) : Heap :=
  h.set p (method (h.get p))

/-- `encoderPool.Get()` on the heap: hands out the pooled instance at position
`pick` of the pool, or, when there is none at that position, a new instance
built by `New`. -/
def Heap.getEncoder (h : Heap) (pick : Nat) : Nat × Heap :=
  match h.pool.get? pick with
  | some p => (p, { h with pool := h.pool.eraseIdx pick })
  | none => (h.objs.length, { h with objs := h.objs ++ [encoderPool.New] })

/-- `putEncoder` on the heap: reset the instance and hand it to the pool. -/
def Heap.putEncoder (h : Heap) (p : Nat) : Heap :=
  { objs := h.objs.set p (zapmsgpack.putEncoder (h.get p)), pool := p :: h.pool }

/-- The method `clone` on the heap. -/
def Heap.clone (h : Heap) (pick enc : Nat) : Nat × Heap :=
  let r := h.getEncoder pick
  (r.1, r.2.call r.1 (fun clone => { clone with EncoderConfig := (r.2.get enc).EncoderConfig }))

/-- The method `Clone` on the heap. -/
def Heap.Clone (h : Heap) (pick enc : Nat) : Nat × Heap :=
  let r := h.clone pick enc
  let h := r.2.call r.1 (fun clone => clone.write (r.2.get enc).buf)
  let h := h.call r.1 (fun clone => { clone with mapSize := (h.get enc).mapSize })
  let h := h.call r.1 (fun clone => { clone with sliceLen := (h.get enc).sliceLen })
  let h := h.call r.1 (fun clone => { clone with nsPrefix := (h.get enc).nsPrefix })
  (r.1, h)

/-- Every pooled address is allocated and its instance has an empty buffer. -/
def Heap.PoolBlank (h : Heap) : Prop :=
  ∀ p ∈ h.pool, p < h.objs.length ∧ (h.get p).buf = []

/-- The address `p` is allocated and not held by the pool. -/
def Heap.Live (h : Heap) (p : Nat) : Prop := p < h.objs.length ∧ p ∉ h.pool

/-! ## Concrete inputs -/

/-- The event of the repository test "info entry with some fields". -/
def testEntry : zapcore.Entry :=
  { Level := .InfoLevel, Time := ⟨1529426022, 99⟩, LoggerName := "bob", Message := "lob law",
    Caller := ⟨false, "", 0⟩, Stack := "" }

/-- The array marshaler `arr2` of the repository test: two booleans and an integer. -/
def testArr2 : List ArrayCall :=
  [.Append (.Bool false), .Append (.Bool true), .Append (.Int 34)]

/-- A configuration with only the level key set, whose level callback appends
two values. -/
def doubleLevelConfig : zapcore.EncoderConfig :=
  { MessageKey := "", LevelKey := "L", TimeKey := "", NameKey := "", CallerKey := "",
    StacktraceKey := "",
    EncodeLevel := some (fun _ => [.Bool true, .Bool true]),
    EncodeTime := none, EncodeDuration := none, EncodeCaller := none, EncodeName := none }

/-- A configuration with only the level key set, whose level callback does
nothing. -/
def noopLevelConfig : zapcore.EncoderConfig :=
  { MessageKey := "", LevelKey := "L", TimeKey := "", NameKey := "", CallerKey := "",
    StacktraceKey := "",
    EncodeLevel := some (fun _ => []),
    EncodeTime := none, EncodeDuration := none, EncodeCaller := some (fun _ => []),
    EncodeName := none }

/-- The field list of the concrete scenario: `String("so","passes")`, `Int("answer",42)`
(the front-end stores an `Int` field with the 64-bit integer field type). -/
def testFields : List zapcore.Field :=
  [.Scalar "so" (.String "passes"), .Scalar "answer" (.Int64 42)]

/-- The record of the concrete scenario as a value tree. -/
def testRecord : Value :=
  .array [.prim (.Time ⟨1529426022, 99⟩),
    .map [("L", .prim (.String "info")), ("T", .prim (.Time ⟨1529426022, 99⟩)),
      ("N", .prim (.String "bob")), ("M", .prim (.String "lob law")),
      ("so", .prim (.String "passes")), ("answer", .prim (.Int64 42))]]

/-- The record of the concrete scenario as a decoder returns it. -/
def testDecoded : msgpack.Decoded :=
  .Array [.Time ⟨1529426022, 99⟩,
    .Map [(.Str (utf8 "L"), .Str (utf8 "info")), (.Str (utf8 "T"), .Time ⟨1529426022, 99⟩),
      (.Str (utf8 "N"), .Str (utf8 "bob")), (.Str (utf8 "M"), .Str (utf8 "lob law")),
      (.Str (utf8 "so"), .Str (utf8 "passes")), (.Str (utf8 "answer"), .Int 42)]]

/-- A heap with one live encoder holding a field and one blank pooled instance. -/
def testHeap : Heap :=
  { objs := [(NewEncoder testConfig).AddString msgpack "str" "foo", encoderPool.New],
    pool := [1] }

/-! ## The bytes of the entries of a record, in the order of the specification -/

/-- The bytes of a level, name or caller entry: the key, then the bytes the
formatting callback wrote or, when it wrote none, the fallback string. -/
def entryBytes (c : Codec) (key : String) (calls : List AppendValue) (fallback : String) :
    Bytes :=
  c.EncodeString key ++
    (if callbackBytes c calls = [] then c.EncodeString fallback else callbackBytes c calls)

/-- The bytes of the level entry (none when the level key is empty; with no
level callback set the record is not produced at all). -/
def levelBytes (c : Codec) (cfg : zapcore.EncoderConfig) (ent : zapcore.Entry) : Bytes :=
  if cfg.LevelKey ≠ "" then
    match cfg.EncodeLevel with
    | none => []
    | some f => entryBytes c cfg.LevelKey (f ent.Level) ent.Level.String
  else []

/-- The bytes of the time entry of the map. -/
def timeBytes (c : Codec) (cfg : zapcore.EncoderConfig) (ent : zapcore.Entry) : Bytes :=
  if cfg.TimeKey ≠ "" then c.EncodeString cfg.TimeKey ++ c.EncodeTime ent.Time else []

/-- The bytes of the logger-name entry. -/
def nameBytes (c : Codec) (cfg : zapcore.EncoderConfig) (ent : zapcore.Entry) : Bytes :=
  if ent.LoggerName ≠ "" ∧ cfg.NameKey ≠ "" then
    entryBytes c cfg.NameKey ((cfg.EncodeName.getD zapcore.FullNameEncoder) ent.LoggerName)
      ent.LoggerName
  else []

/-- The bytes of the caller entry. -/
def callerBytes (c : Codec) (cfg : zapcore.EncoderConfig) (ent : zapcore.Entry) : Bytes :=
  if ent.Caller.Defined = true ∧ cfg.CallerKey ≠ "" then
    match cfg.EncodeCaller with
    | none => []
    | some f => entryBytes c cfg.CallerKey (f ent.Caller) ent.Caller.String
  else []

/-- The bytes of the message entry. -/
def messageBytes (c : Codec) (cfg : zapcore.EncoderConfig) (ent : zapcore.Entry) : Bytes :=
  if cfg.MessageKey ≠ "" then c.EncodeString cfg.MessageKey ++ c.EncodeString ent.Message
  else []

/-- The bytes of the stack-trace entry written under the key `key`. -/
def stackBytes (c : Codec) (cfg : zapcore.EncoderConfig) (ent : zapcore.Entry) (key : String) :
    Bytes :=
  if ent.Stack ≠ "" ∧ cfg.StacktraceKey ≠ "" then c.EncodeString key ++ c.EncodeString ent.Stack
  else []

/-- An empty scope with configuration `cfg` and namespace prefix `ns`. -/
def scope (cfg : Option zapcore.EncoderConfig) (ns : String) : encoder :=
  { encoderPool.New with EncoderConfig := cfg, nsPrefix := ns }

/-- The bytes one field writes into a scope whose namespace prefix is `ns`
(nothing when the field panics). -/
def fieldBytes (c : Codec) (cfg : Option zapcore.EncoderConfig) (ns : String)
    (f : zapcore.Field) : Bytes :=
  match f.AddTo c (scope cfg ns) with
  | .ok e => e.buf
  | .error _ => []

/-- The bytes of a field list, field after field in list order; a namespace
field changes the prefix under which the later fields are written. -/
def fieldsBytes (c : Codec) (cfg : Option zapcore.EncoderConfig) :
    String → List zapcore.Field → Bytes
  | _, [] => []
  | ns, f :: rest =>
    fieldBytes c cfg ns f ++ fieldsBytes c cfg (finalPrefix ns (fieldCalls [f])) rest

/-! ## Absence of complex values -/

mutual
/-- No call of the array marshaler, at any depth, passes a complex value. -/
def ArrayMarshaler.noComplex : ArrayMarshaler → Bool
  | .mk calls _ => arrayNoComplex calls
termination_by structural x => x
/-- No call of the object marshaler, at any depth, passes a complex value. -/
def ObjectMarshaler.noComplex : ObjectMarshaler → Bool
  | .mk calls _ => objectNoComplex calls
termination_by structural x => x
/-- No call of the list, at any depth, passes a complex value. -/
def arrayNoComplex : List ArrayCall → Bool
  | [] => true
  | .Append val :: rest => val.prim.isSome && arrayNoComplex rest
  | .AppendArray arr :: rest => arr.noComplex && arrayNoComplex rest
  | .AppendObject obj :: rest => obj.noComplex && arrayNoComplex rest
  | .AppendReflected _ :: rest => arrayNoComplex rest
termination_by structural x => x
/-- No call of the list, at any depth, passes a complex value. -/
def objectNoComplex : List ObjectCall → Bool
  | [] => true
  | .Add _ val :: rest => val.prim.isSome && objectNoComplex rest
  | .AddArray _ arr :: rest => arr.noComplex && objectNoComplex rest
  | .AddObject _ obj :: rest => obj.noComplex && objectNoComplex rest
  | .AddReflected _ _ :: rest => objectNoComplex rest
  | .OpenNamespace _ :: rest => objectNoComplex rest
termination_by structural x => x
end

/-- The field passes no complex value to the encoder, at any depth. -/
def zapcore.Field.noComplex : zapcore.Field → Bool
  | .Array _ arr => arr.noComplex
  | .Object _ obj => obj.noComplex
  | .Scalar _ val => val.prim.isSome
  | .Reflect _ _ => true
  | .Namespace _ => true
  | .Stringer _ _ => true
  | .Skip => true

/-! ## Change of configuration -/

/-- The encoder `e` with its configuration pointer replaced. -/
def encoder.withConfig (e : encoder) (cfg : Option zapcore.EncoderConfig) : encoder :=
  { e with EncoderConfig := cfg }

/-! ## Panics with the state of the receiver -/

/-- How a method call ended: it returned, or it panicked with a message; in
both cases `receiver` is the state in which the call left its receiver. -/
inductive Outcome where
  | returned (receiver : encoder)
  | panicked (msg : String) (receiver : encoder)

/-- The state in which the call left its receiver. -/
def Outcome.receiver : Outcome → encoder
  | .returned e => e
  | .panicked _ e => e

/-- The outcome without the state at a panic. -/
def Outcome.toExcept : Outcome → Except String encoder
  | .returned e => .ok e
  | .panicked msg _ => .error msg

/-- The method `AddComplex128` with the receiver state: the body is the single
statement `panic(...)`, no statement precedes it. -/
def AddComplex128.outcome (enc : encoder) (_key : String) (_re _im : Nat) : Outcome :=
  .panicked "complex numbers not supported in msgpack" enc

/-- The method `AddComplex64` with the receiver state. -/
def AddComplex64.outcome (enc : encoder) (_key : String) (_re _im : Nat) : Outcome :=
  .panicked "complex numbers not supported in msgpack" enc

/-- The method `AppendComplex128` with the receiver state. -/
def AppendComplex128.outcome (enc : encoder) (_re _im : Nat) : Outcome :=
  .panicked "not implemented" enc

/-- The method `AppendComplex64` with the receiver state. -/
def AppendComplex64.outcome (enc : encoder) (_re _im : Nat) : Outcome :=
  .panicked "not implemented" enc

/-- The method `AddInt` with the receiver state, statement by statement. -/
def AddInt.outcome (c : Codec) (enc : encoder) (key : String) (val : Int) : Outcome :=
  let enc := enc.incMapSize
  let enc := enc.encodeKey c key
  let enc := enc.write (c.EncodeInt val)
  .returned enc

/-! ## Concrete inputs (continued) -/

/-- The test event with a stack trace. -/
def stackEntry : zapcore.Entry := { testEntry with Stack := "trace" }

/-- A field list that opens the namespace `ns` and adds the field `k` in it. -/
def namespaceFields : List zapcore.Field := [.Namespace "ns", .Scalar "k" (.Bool true)]

/-- A field whose array marshaler appends a value and then reports an error. -/
def failingField : zapcore.Field := .Array "a" (.mk [.Append (.Bool true)] (some "boom"))

/-- A field whose array marshaler appends a complex number. -/
def complexArrayField : zapcore.Field := .Array "a" (.mk [.Append (.Complex64 0 0)] none)

/-! ## The operations that use the pool, on the heap

The functions below embed the same methods as above, this time on the heap:
the receiver is an address, scratch encoders are taken from and returned to
the pool.  A result is the heap in which the call ended together with what the
call returned, or with the message of the panic that ended it.  The parameter
`sched` stands for the choice `encoderPool.Get` makes: the position of the
pooled instance it hands out in the given heap (a new instance when there is
none at that position). -/

/-- The constructor `NewEncoder` on the heap. -/
def Heap.NewEncoder (h : Heap) (pick : Nat) (cfg : zapcore.EncoderConfig) : Nat × Heap :=
  let r := h.getEncoder pick
  (r.1, r.2.call r.1 (fun enc => { enc with EncoderConfig := some cfg }))

/-- Continue with `k` in the heap of `r` unless `r` ended in a panic. -/
def Heap.andThen {α β : Type} (r : Heap × Except String α)
    (k : Heap → Heap × Except String β) : Heap × Except String β :=
  match r.2 with
  | .error p => (r.1, .error p)
  | .ok _ => k r.1

mutual
/-- The method `encodeArray` on the heap, receiver at address `enc`. -/
def Heap.encodeArray (c : Codec) (sched : Heap → Nat) (h : Heap) (enc : Nat) :
    ArrayMarshaler → Heap × Except String (Option GoError)
  | .mk calls ret =>
    let r := h.clone (sched h) enc
    let sliceEnc := r.1
    let m := Heap.MarshalLogArray c sched calls r.2 sliceEnc
    match m.2 with
    | .error p => (m.1, .error p)
    | .ok _ =>
      match ret with
      | some err => (m.1, .ok (some err))
      | none =>
        let h := m.1
        let h := h.call enc (fun e => e.write (c.EncodeArrayLen (h.get sliceEnc).sliceLen))
        let h := h.call enc (fun e => e.write (h.get sliceEnc).buf)
        let h := h.putEncoder sliceEnc
        (h, .ok none)
termination_by structural x => x
/-- The method `encodeObject` on the heap, receiver at address `enc`. -/
def Heap.encodeObject (c : Codec) (sched : Heap → Nat) (h : Heap) (enc : Nat) :
    ObjectMarshaler → Heap × Except String (Option GoError)
  | .mk calls ret =>
    let r := h.clone (sched h) enc
    let mapEnc := r.1
    let m := Heap.MarshalLogObject c sched calls r.2 mapEnc
    match m.2 with
    | .error p => (m.1, .error p)
    | .ok _ =>
      match ret with
      | some err => (m.1, .ok (some err))
      | none =>
        let h := m.1
        let h := h.call enc (fun e => e.write (c.EncodeMapLen (h.get mapEnc).mapSize))
        let h := h.call enc (fun e => e.write (h.get mapEnc).buf)
        let h := h.putEncoder mapEnc
        (h, .ok none)
termination_by structural x => x
/-- One `Append*` call on the encoder at address `enc`; the result holds the
error the method returned (nil for the methods that return nothing).  A complex
value panics before the receiver is changed. -/
def Heap.arrayCall (c : Codec) (sched : Heap → Nat) (h : Heap) (enc : Nat) :
    ArrayCall → Heap × Except String (Option GoError)
  | .Append val =>
    match (h.get enc).Append c val with
    | .error p => (h, .error p)
    | .ok e => (h.set enc e, .ok none)
  | .AppendArray arr =>
    let h := h.call enc encoder.incSliceLen
    Heap.encodeArray c sched h enc arr
  | .AppendObject obj =>
    let h := h.call enc encoder.incSliceLen
    Heap.encodeObject c sched h enc obj
  | .AppendReflected val =>
    (h.call enc (fun e => (e.AppendReflected c val).1), .ok ((h.get enc).AppendReflected c val).2)
termination_by structural x => x
/-- One `Add*` or `OpenNamespace` call on the encoder at address `enc`. -/
def Heap.objectCall (c : Codec) (sched : Heap → Nat) (h : Heap) (enc : Nat) :
    ObjectCall → Heap × Except String (Option GoError)
  | .Add key val =>
    match (h.get enc).Add c key val with
    | .error p => (h, .error p)
    | .ok e => (h.set enc e, .ok none)
  | .AddArray key arr =>
    let h := h.call enc encoder.incMapSize
    let h := h.call enc (fun e => e.encodeKey c key)
    Heap.encodeArray c sched h enc arr
  | .AddObject key obj =>
    let h := h.call enc encoder.incMapSize
    let h := h.call enc (fun e => e.encodeKey c key)
    Heap.encodeObject c sched h enc obj
  | .AddReflected key val =>
    (h.call enc (fun e => (e.AddReflected c key val).1),
      .ok ((h.get enc).AddReflected c key val).2)
  | .OpenNamespace key => (h.call enc (fun e => e.OpenNamespace key), .ok none)
termination_by structural x => x
/-- The calls of `arr.MarshalLogArray(enc)` on the heap, in order; the
callback ignores the errors its calls return. -/
def Heap.MarshalLogArray (c : Codec) (sched : Heap → Nat) :
    List ArrayCall → Heap → Nat → Heap × Except String Unit
  | [], h, _ => (h, .ok ())
  | call :: rest, h, enc =>
    let r := Heap.arrayCall c sched h enc call
    match r.2 with
    | .error p => (r.1, .error p)
    | .ok _ => Heap.MarshalLogArray c sched rest r.1 enc
termination_by structural x => x
/-- The calls of `obj.MarshalLogObject(enc)` on the heap, in order. -/
def Heap.MarshalLogObject (c : Codec) (sched : Heap → Nat) :
    List ObjectCall → Heap → Nat → Heap × Except String Unit
  | [], h, _ => (h, .ok ())
  | call :: rest, h, enc =>
    let r := Heap.objectCall c sched h enc call
    match r.2 with
    | .error p => (r.1, .error p)
    | .ok _ => Heap.MarshalLogObject c sched rest r.1 enc
termination_by structural x => x
end

/-- The method `zapcore.Field.AddTo` on the heap. -/
def Heap.AddTo (c : Codec) (sched : Heap → Nat) (h : Heap) (enc : Nat) :
    zapcore.Field → Heap × Except String Unit
  | .Array key arr =>
    let r := Heap.objectCall c sched h enc (.AddArray key arr)
    match r.2 with
    | .error p => (r.1, .error p)
    | .ok none => (r.1, .ok ())
    | .ok (some err) => (r.1.call enc (fun e => e.AddString c (key ++ "Error") err), .ok ())
  | .Object key obj =>
    let r := Heap.objectCall c sched h enc (.AddObject key obj)
    match r.2 with
    | .error p => (r.1, .error p)
    | .ok none => (r.1, .ok ())
    | .ok (some err) => (r.1.call enc (fun e => e.AddString c (key ++ "Error") err), .ok ())
  | .Scalar key val =>
    Heap.andThen (Heap.objectCall c sched h enc (.Add key val)) (fun h => (h, .ok ()))
  | .Reflect key val =>
    let r := Heap.objectCall c sched h enc (.AddReflected key val)
    match r.2 with
    | .error p => (r.1, .error p)
    | .ok none => (r.1, .ok ())
    | .ok (some err) => (r.1.call enc (fun e => e.AddString c (key ++ "Error") err), .ok ())
  | .Namespace key => (h.call enc (fun e => e.OpenNamespace key), .ok ())
  | .Stringer key str => (h.call enc (fun e => e.AddString c key str), .ok ())
  | .Skip => (h, .ok ())

/-- The loop `fields[i].AddTo(final)` on the heap. -/
def Heap.fields (c : Codec) (sched : Heap → Nat) :
    List zapcore.Field → Heap → Nat → Heap × Except String Unit
  | [], h, _ => (h, .ok ())
  | f :: rest, h, final =>
    Heap.andThen (Heap.AddTo c sched h final f) (fun h => Heap.fields c sched rest h final)

/-- The scalar `Append*` calls of a formatting callback on the encoder at
address `enc`, in order. -/
def Heap.runAppends (c : Codec) : List AppendValue → Heap → Nat → Heap × Except String Unit
  | [], h, _ => (h, .ok ())
  | val :: rest, h, enc =>
    match (h.get enc).Append c val with
    | .error p => (h, .error p)
    | .ok e => Heap.runAppends c rest (h.set enc e) enc

/-- The level, name and caller blocks of `EncodeEntry` on the heap: count the
entry, write the key, call the formatting callback (`none`: a nil func) and
write the fallback string when the callback wrote nothing. -/
def Heap.entryBlock (c : Codec) (h : Heap) (final : Nat) (key : String)
    (callback : Option (List AppendValue)) (fallback : String) : Heap × Except String Unit :=
  let h := h.call final encoder.incMapSize
  let h := h.call final (fun e => e.write (c.EncodeString key))
  let cur := (h.get final).buf.length
  match callback with
  | none => (h, .error nilDereference)
  | some calls =>
    Heap.andThen (Heap.runAppends c calls h final) (fun h =>
      if cur = (h.get final).buf.length then
        (h.call final (fun e => e.write (c.EncodeString fallback)), .ok ())
      else (h, .ok ()))

/-- Lines 165-221 of `EncodeEntry` on the heap: the entries written into the
scope at address `final`. -/
def Heap.EncodeEntry.final (c : Codec) (sched : Heap → Nat) (h : Heap) (enc final : Nat)
    (ent : zapcore.Entry) (fields : List zapcore.Field) : Heap × Except String Unit :=
  match (h.get final).EncoderConfig, (h.get enc).EncoderConfig with
  | some cfg, some encCfg =>
    Heap.andThen
      (if cfg.LevelKey ≠ "" then
        Heap.entryBlock c h final cfg.LevelKey (cfg.EncodeLevel.map (fun f => f ent.Level))
          ent.Level.String
       else (h, .ok ())) (fun h =>
    Heap.andThen
      (if ent.LoggerName ≠ "" ∧ cfg.NameKey ≠ "" then
        Heap.entryBlock c (h.call final (EncodeEntry.time c cfg ent)) final cfg.NameKey
          (some ((cfg.EncodeName.getD zapcore.FullNameEncoder) ent.LoggerName)) ent.LoggerName
       else (h.call final (EncodeEntry.time c cfg ent), .ok ())) (fun h =>
    Heap.andThen
      (if ent.Caller.Defined = true ∧ cfg.CallerKey ≠ "" then
        Heap.entryBlock c h final cfg.CallerKey (cfg.EncodeCaller.map (fun f => f ent.Caller))
          ent.Caller.String
       else (h, .ok ())) (fun h =>
    Heap.andThen
      (Heap.fields c sched fields (h.call final (EncodeEntry.message c cfg encCfg ent)) final)
      (fun h => (h.call final (EncodeEntry.stack c cfg ent), .ok ())))))
  | _, _ => (h, .error nilDereference)

/-- The method `EncodeEntry` on the heap, receiver at address `enc`: both
scratch encoders are returned to the pool before the method returns. -/
def Heap.EncodeEntry (c : Codec) (sched : Heap → Nat) (h : Heap) (enc : Nat)
    (ent : zapcore.Entry) (fields : List zapcore.Field) :
    Heap × Except String (Bytes × Option GoError) :=
  let r := h.clone (sched h) enc
  let finenc := r.1
  let h := r.2.call finenc (fun e => e.write (c.EncodeArrayLen 2))
  let h := h.call finenc (fun e => e.write (c.EncodeTime ent.Time))
  let r := h.clone (sched h) enc
  let final := r.1
  Heap.andThen (Heap.EncodeEntry.final c sched r.2 enc final ent fields) (fun h =>
    let h := h.call finenc (fun e => e.write (c.EncodeMapLen (h.get final).mapSize))
    let h := h.call finenc (fun e => e.write (h.get final).buf)
    let buf : Bytes := [] ++ (h.get finenc).buf
    let h := h.putEncoder final
    let h := h.putEncoder finenc
    (h, .ok (buf, none)))

/-! ## Clients of the package -/

/-- An operation of a client of the package.  The client names an encoder by
its position in the list of the encoders `NewEncoder` and `Clone` have handed
out to it so far. -/
inductive Op where
  | NewEncoder (cfg : zapcore.EncoderConfig)
  | Clone (enc : Nat)
  | Object (enc : Nat) (call : ObjectCall)
  | Array (enc : Nat) (call : ArrayCall)
  | EncodeEntry (enc : Nat) (ent : zapcore.Entry) (fields : List zapcore.Field)

/-- The heap and the addresses of the encoders handed out to the client. -/
structure World where
  heap : Heap
  handles : List Nat

/-- The state before the first operation: nothing allocated, the pool empty. -/
def World.init : World := { heap := { objs := [], pool := [] }, handles := [] }

/-- One operation of the client; an operation that names an encoder the client
was never handed does nothing, an operation that panics leaves the heap as it
was at the panic. -/
def World.step (c : Codec) (sched : Heap → Nat) (w : World) : Op → World
  | .NewEncoder cfg =>
    let r := w.heap.NewEncoder (sched w.heap) cfg
    { heap := r.2, handles := w.handles ++ [r.1] }
  | .Clone i =>
    match w.handles.get? i with
    | none => w
    | some enc =>
      let r := w.heap.Clone (sched w.heap) enc
      { heap := r.2, handles := w.handles ++ [r.1] }
  | .Object i call =>
    match w.handles.get? i with
    | none => w
    | some enc => { w with heap := (Heap.objectCall c sched w.heap enc call).1 }
  | .Array i call =>
    match w.handles.get? i with
    | none => w
    | some enc => { w with heap := (Heap.arrayCall c sched w.heap enc call).1 }
  | .EncodeEntry i ent fields =>
    match w.handles.get? i with
    | none => w
    | some enc => { w with heap := (Heap.EncodeEntry c sched w.heap enc ent fields).1 }

/-- A sequence of operations, in order. -/
def World.run (c : Codec) (sched : Heap → Nat) (ops : List Op) (w : World) : World :=
  ops.foldl (World.step c sched) w

/-- Every pooled address is allocated and its instance is in the state `New`
builds: empty buffer, zero counts, empty namespace prefix, no configuration. -/
def Heap.PoolReset (h : Heap) : Prop :=
  ∀ p ∈ h.pool, p < h.objs.length ∧ h.get p = encoderPool.New

/-- The pool invariant: the pooled instances are reset and no address is
pooled twice. -/
def Heap.Inv (h : Heap) : Prop := h.PoolReset ∧ h.pool.Nodup

/-- The heap `h2` satisfies the pool invariant and every address that is live
in `h` is still live in `h2`. -/
def Heap.Keeps (h h2 : Heap) : Prop := h2.Inv ∧ ∀ q, h.Live q → h2.Live q

/-- The pool invariant holds and every encoder handed out to the client is
live. -/
def World.Inv (w : World) : Prop := w.heap.Inv ∧ ∀ p ∈ w.handles, w.heap.Live p

/-! ## Agreement of the heap runs with the runs on encoder states -/

/-- The run `r` on the heap `h` of a call whose receiver is at address `enc`
agrees with the run `pr` of the same call on the state of the receiver: no
other live instance is changed, a panic of `pr` is the panic of `r`, and when
`pr` returns, `r` returns the same value and leaves the receiver in the state
`pr` computes. -/
def Heap.Sim {α : Type} (h : Heap) (enc : Nat) (r : Heap × Except String α)
    (pr : Except String (encoder × α)) : Prop :=
  (∀ q, h.Live q → q ≠ enc → r.1.get q = h.get q)
  ∧ (∀ p, pr = .error p → r.2 = .error p)
  ∧ (∀ x, pr = .ok x → r.2 = .ok x.2 ∧ r.1.get enc = x.1)

/-- As `Heap.Sim`, for a call of which only the effect on the receiver is
compared. -/
def Heap.SimState {α : Type} (h : Heap) (enc : Nat) (r : Heap × Except String α)
    (pr : Except String encoder) : Prop :=
  (∀ q, h.Live q → q ≠ enc → r.1.get q = h.get q)
  ∧ (∀ p, pr = .error p → r.2 = .error p)
  ∧ (∀ e, pr = .ok e → (∃ a, r.2 = .ok a) ∧ r.1.get enc = e)

/-- The run `r` on the heap agrees with the run `pr` on the state of the
receiver and keeps the pool invariant and the live addresses. -/
def Heap.Refines {α : Type} (h : Heap) (enc : Nat) (r : Heap × Except String α)
    (pr : Except String encoder) : Prop :=
  h.Keeps r.1 ∧ Heap.SimState h enc r pr

/-- The level, name and caller blocks of `EncodeEntry` on the state of the
scope: count the entry, write the key, call the formatting callback (`none`: a
nil func) and write the fallback string when the callback wrote nothing. -/
def entryBlock (c : Codec) (final : encoder) (key : String)
    (callback : Option (List AppendValue)) (fallback : String) : Except String encoder :=
  let final := final.incMapSize
  let final := final.write (c.EncodeString key)
  let cur := final.buf.length
  match callback with
  | none => .error nilDereference
  | some calls =>
    (final.runAppends c calls).bind (fun final =>
      if cur = final.buf.length then .ok (final.write (c.EncodeString fallback))
      else .ok final)

/-- Lines 165-221 of `EncodeEntry` from the state `final` of the scope, with
the configuration `cfg` read through the scope and `encCfg` read through the
receiver. -/
def EncodeEntry.finalFrom (c : Codec) (cfg encCfg : zapcore.EncoderConfig)
    (ent : zapcore.Entry) (fields : List zapcore.Field) (final : encoder) :
    Except String encoder :=
  (EncodeEntry.level c cfg ent final).bind (fun final =>
  (EncodeEntry.name c cfg ent (EncodeEntry.time c cfg ent final)).bind (fun final =>
  (EncodeEntry.caller c cfg ent final).bind (fun final =>
  (EncodeEntry.fields c fields (EncodeEntry.message c cfg encCfg ent final)).bind (fun final =>
  .ok (EncodeEntry.stack c cfg ent final)))))

/-! ## The two operation families side by side -/

/-- The `Add*` call of the same scalar type as the `Append*` call: `AppendT(v)`
is mapped to `AddT(key, v)`. -/
def AppendValue.toAdd : AppendValue → AddValue
  | .Bool val => .Bool val
  | .ByteString val => .ByteString val
  | .Complex128 re im => .Complex128 re im
  | .Complex64 re im => .Complex64 re im
  | .Duration val => .Duration val
  | .Float64 val => .Float64 val
  | .Float32 val => .Float32 val
  | .Int val => .Int val
  | .Int64 val => .Int64 val
  | .Int32 val => .Int32 val
  | .Int16 val => .Int16 val
  | .Int8 val => .Int8 val
  | .String val => .String val
  | .Time val => .Time val
  | .Uint val => .Uint val
  | .Uint64 val => .Uint64 val
  | .Uint32 val => .Uint32 val
  | .Uint16 val => .Uint16 val
  | .Uint8 val => .Uint8 val
  | .Uintptr val => .Uintptr val

/-! ## Concrete inputs (nested scopes) -/

/-- An object marshaler that adds the boolean `k`. -/
def nestedObject : ObjectMarshaler := .mk [.Add "k" (.Bool true)] none

/-- An encoder with the test configuration on which the namespace `ns` is open. -/
def namespacedEncoder : encoder := (NewEncoder testConfig).OpenNamespace "ns"

/-! # Theorems -/

@[simp]
theorem write_buf (enc : encoder) (b : Bytes) : (enc.write b).buf = enc.buf ++ b := rfl
@[simp]
theorem write_mapSize (enc : encoder) (b : Bytes) : (enc.write b).mapSize = enc.mapSize := rfl
@[simp]
theorem write_sliceLen (enc : encoder) (b : Bytes) : (enc.write b).sliceLen = enc.sliceLen := rfl
@[simp]
theorem write_nsPrefix (enc : encoder) (b : Bytes) : (enc.write b).nsPrefix = enc.nsPrefix := rfl
@[simp]
theorem write_cfg (enc : encoder) (b : Bytes) : (enc.write b).EncoderConfig = enc.EncoderConfig := rfl

theorem Append_eq (c : Codec) (enc : encoder) (v : AppendValue) :
    enc.Append c v = match v.prim with
      | some p => .ok (enc.advance (p.encode c) 0 1)
      | none => .error "not implemented" := by
  cases v <;> rfl

theorem Add_eq (c : Codec) (enc : encoder) (key : String) (v : AddValue) :
    enc.Add c key v = match v.prim with
      | some p => .ok (enc.advance (c.EncodeString (enc.nsPrefix ++ key) ++ p.encode c) 1 0)
      | none => .error "complex numbers not supported in msgpack" := by
  cases v <;> simp [encoder.Add, AddValue.prim, encoder.advance, encoder.AddBinary, encoder.AddByteString,
    encoder.AddBool, encoder.AddComplex128, encoder.AddComplex64, encoder.AddDuration, encoder.AddFloat64,
    encoder.AddFloat32, encoder.AddInt, encoder.AddInt64, encoder.AddInt32, encoder.AddInt16, encoder.AddInt8,
    encoder.AddString, encoder.AddTime, encoder.AddUint, encoder.AddUint64, encoder.AddUint32, encoder.AddUint16,
    encoder.AddUint8, encoder.AddUintptr, encoder.write, encoder.encodeKey, encoder.incMapSize, Prim.encode]

@[simp]
theorem advance_zero (e : encoder) : e.advance [] 0 0 = e := by
  simp [encoder.advance]

@[simp]
theorem advance_advance (e : encoder) (b1 b2 : Bytes) (m1 m2 s1 s2 : Nat) :
    (e.advance b1 m1 s1).advance b2 m2 s2 = e.advance (b1 ++ b2) (m1 + m2) (s1 + s2) := by
  simp [encoder.advance, Nat.add_assoc]

mutual
theorem encodeArray_elems (c : Codec) :
    ∀ (arr : ArrayMarshaler) (elems : List Value) (e : encoder), arr.elems c = some elems →
      e.encodeArray c arr =
        .ok (e.advance (c.EncodeArrayLen elems.length ++ serializeElems c elems) 0 0, none)
  | .mk calls ret, elems, e, h => by
    simp only [ArrayMarshaler.elems] at h
    cases ret with
    | some err => simp at h
    | none =>
      simp only [] at h
      rw [encoder.encodeArray, MarshalLogArray_elems c calls elems _ h]
      simp [encoder.advance, encoder.write, encoder.clone, getEncoder, encoderPool.New]
theorem encodeObject_entries (c : Codec) :
    ∀ (obj : ObjectMarshaler) (entries : List (String × Value)) (e : encoder),
      obj.entries c = some entries →
      e.encodeObject c obj =
        .ok (e.advance (c.EncodeMapLen entries.length ++ serializeEntries c entries) 0 0, none)
  | .mk calls ret, entries, e, h => by
    simp only [ObjectMarshaler.entries] at h
    cases ret with
    | some err => simp at h
    | none =>
      simp only [] at h
      have h2 : objectEntries c (e.clone).nsPrefix calls = some entries := h
      rw [encoder.encodeObject, MarshalLogObject_entries c calls entries _ h2]
      simp [encoder.advance, encoder.write, encoder.clone, getEncoder, encoderPool.New]
theorem MarshalLogArray_elems (c : Codec) :
    ∀ (calls : List ArrayCall) (vs : List Value) (e : encoder), arrayElems c calls = some vs →
      MarshalLogArray c calls e = .ok (e.advance (serializeElems c vs) 0 vs.length)
  | [], vs, e, h => by
    simp [arrayElems] at h; subst h
    simp [MarshalLogArray, serializeElems]
  | .Append val :: rest, vs, e, h => by
    rw [arrayElems] at h
    cases hp : val.prim with
    | none => simp [hp] at h
    | some p =>
      cases hr : arrayElems c rest with
      | none => simp [hp, hr] at h
      | some ws =>
        simp [hp, hr] at h; subst h
        rw [MarshalLogArray, ArrayCall.run, Append_eq, hp]
        simp only []
        rw [MarshalLogArray_elems c rest ws _ hr]
        simp [serializeElems, Value.serialize, Nat.add_comm]
  | .AppendArray arr :: rest, vs, e, h => by
    rw [arrayElems] at h
    cases hc : arr.elems c with
    | none => simp [hc] at h
    | some elems =>
      cases hr : arrayElems c rest with
      | none => simp [hc, hr] at h
      | some ws =>
        simp [hc, hr] at h; subst h
        rw [MarshalLogArray, ArrayCall.run, encodeArray_elems c arr elems _ hc]
        simp only []
        rw [MarshalLogArray_elems c rest ws _ hr]
        simp [serializeElems, Value.serialize, Nat.add_comm, encoder.advance, encoder.incSliceLen, Nat.add_left_comm]
  | .AppendObject obj :: rest, vs, e, h => by
    rw [arrayElems] at h
    cases hc : obj.entries c with
    | none => simp [hc] at h
    | some entries =>
      cases hr : arrayElems c rest with
      | none => simp [hc, hr] at h
      | some ws =>
        simp [hc, hr] at h; subst h
        rw [MarshalLogArray, ArrayCall.run, encodeObject_entries c obj entries _ hc]
        simp only []
        rw [MarshalLogArray_elems c rest ws _ hr]
        simp [serializeElems, Value.serialize, Nat.add_comm, encoder.advance, encoder.incSliceLen, Nat.add_left_comm]
  | .AppendReflected val :: rest, vs, e, h => by
    rw [arrayElems] at h
    cases he : (c.Encode val).2 with
    | some err => simp [he] at h
    | none =>
      cases hr : arrayElems c rest with
      | none => simp [he, hr] at h
      | some ws =>
        simp [he, hr] at h; subst h
        rw [MarshalLogArray, ArrayCall.run]
        simp only []
        rw [MarshalLogArray_elems c rest ws _ hr]
        simp [serializeElems, Value.serialize, Nat.add_comm, encoder.advance, encoder.write,
            encoder.incSliceLen, encoder.AppendReflected, Prim.encode, Nat.add_left_comm]
theorem MarshalLogObject_entries (c : Codec) :
    ∀ (calls : List ObjectCall) (es : List (String × Value)) (e : encoder),
      objectEntries c e.nsPrefix calls = some es →
      MarshalLogObject c calls e =
        .ok { e.advance (serializeEntries c es) es.length 0 with
              nsPrefix := finalPrefix e.nsPrefix calls }
  | [], es, e, h => by
    simp [objectEntries] at h; subst h
    simp [MarshalLogObject, serializeEntries, finalPrefix]
  | .Add key val :: rest, es, e, h => by
    rw [objectEntries] at h
    cases hp : val.prim with
    | none => simp [hp] at h
    | some p =>
      cases hr : objectEntries c e.nsPrefix rest with
      | none => simp [hp, hr] at h
      | some ws =>
        simp [hp, hr] at h; subst h
        rw [MarshalLogObject, ObjectCall.run, Add_eq, hp]
        simp only []
        have h2 : objectEntries c
            (e.advance (c.EncodeString (e.nsPrefix ++ key) ++ p.encode c) 1 0).nsPrefix rest
              = some ws := hr
        rw [MarshalLogObject_entries c rest ws _ h2]
        simp [serializeEntries, Value.serialize, Nat.add_comm, finalPrefix, encoder.advance, Nat.add_left_comm]
  | .AddArray key arr :: rest, es, e, h => by
    rw [objectEntries] at h
    cases hc : arr.elems c with
    | none => simp [hc] at h
    | some elems =>
      cases hr : objectEntries c e.nsPrefix rest with
      | none => simp [hc, hr] at h
      | some ws =>
        simp [hc, hr] at h; subst h
        rw [MarshalLogObject, ObjectCall.run, encodeArray_elems c arr elems _ hc]
        simp only []
        have h2 : objectEntries c ((e.incMapSize.encodeKey c key).advance
            (c.EncodeArrayLen elems.length ++ serializeElems c elems) 0 0).nsPrefix rest
              = some ws := hr
        rw [MarshalLogObject_entries c rest ws _ h2]
        simp [serializeEntries, Value.serialize, Nat.add_comm, encoder.advance, encoder.write,
          encoder.incMapSize, encoder.encodeKey, finalPrefix, Nat.add_left_comm]
  | .AddObject key obj :: rest, es, e, h => by
    rw [objectEntries] at h
    cases hc : obj.entries c with
    | none => simp [hc] at h
    | some entries =>
      cases hr : objectEntries c e.nsPrefix rest with
      | none => simp [hc, hr] at h
      | some ws =>
        simp [hc, hr] at h; subst h
        rw [MarshalLogObject, ObjectCall.run, encodeObject_entries c obj entries _ hc]
        simp only []
        have h2 : objectEntries c ((e.incMapSize.encodeKey c key).advance
            (c.EncodeMapLen entries.length ++ serializeEntries c entries) 0 0).nsPrefix rest
              = some ws := hr
        rw [MarshalLogObject_entries c rest ws _ h2]
        simp [serializeEntries, Value.serialize, Nat.add_comm, encoder.advance, encoder.write,
          encoder.incMapSize, encoder.encodeKey, finalPrefix, Nat.add_left_comm]
  | .AddReflected key val :: rest, es, e, h => by
    rw [objectEntries] at h
    cases he : (c.Encode val).2 with
    | some err => simp [he] at h
    | none =>
      cases hr : objectEntries c e.nsPrefix rest with
      | none => simp [he, hr] at h
      | some ws =>
        simp [he, hr] at h; subst h
        rw [MarshalLogObject, ObjectCall.run]
        simp only []
        have h2 : objectEntries c (e.AddReflected c key val).1.nsPrefix rest = some ws := hr
        rw [MarshalLogObject_entries c rest ws _ h2]
        simp [serializeEntries, Value.serialize, Nat.add_comm, encoder.advance, encoder.write,
            encoder.incMapSize, encoder.AddReflected, Prim.encode, encoder.encodeKey, finalPrefix, Nat.add_left_comm]
  | .OpenNamespace key :: rest, es, e, h => by
    rw [objectEntries] at h
    have h2 : objectEntries c (e.OpenNamespace key).nsPrefix rest = some es := h
    rw [MarshalLogObject, ObjectCall.run]
    simp only []
    rw [MarshalLogObject_entries c rest es _ h2]
    simp [finalPrefix, encoder.advance, encoder.OpenNamespace]
end

theorem serializeEntries_append (c : Codec) (a b : List (String × Value)) :
    serializeEntries c (a ++ b) = serializeEntries c a ++ serializeEntries c b := by
  induction a with
  | nil => simp [serializeEntries]
  | cons x xs ih =>
    obtain ⟨k, v⟩ := x
    simp [serializeEntries, ih]

theorem runAppends_bytes (c : Codec) :
    ∀ (calls : List AppendValue) (e e1 : encoder), e.runAppends c calls = .ok e1 →
      e1 = e.advance (callbackBytes c calls) 0 calls.length
  | [], e, e1, h => by
    simp [encoder.runAppends] at h; subst h
    simp [callbackBytes]
  | v :: rest, e, e1, h => by
    rw [encoder.runAppends, Append_eq] at h
    cases hp : v.prim with
    | none => simp [hp] at h
    | some p =>
      simp only [hp] at h
      have ih := runAppends_bytes c rest _ e1 h
      rw [ih]
      simp [callbackBytes, hp, Nat.add_comm]

/-- The shape shared by the level, name and caller blocks of `EncodeEntry`. -/
theorem formatted_block (c : Codec) (calls : List AppendValue) (fb key : String) (v : Value)
    (final : encoder) (h : formatted c calls fb = some v) :
    ∃ f2, (final.incMapSize.write (c.EncodeString key)).runAppends c calls = .ok f2 ∧
      (if (final.incMapSize.write (c.EncodeString key)).buf.length = f2.buf.length then
          f2.write (c.EncodeString fb)
        else f2) = final.advance (c.EncodeString key ++ v.serialize c) 1 calls.length := by
  match calls, h with
  | [], h =>
    simp [formatted] at h; subst h
    simp [encoder.runAppends, encoder.advance, encoder.write, encoder.incMapSize, Value.serialize,
      Prim.encode]
  | [val], h =>
    simp only [formatted] at h
    cases hp : val.prim with
    | none => simp [hp] at h
    | some p =>
      simp only [hp] at h
      have hs : Prim.encode c (.String fb) = c.EncodeString fb := rfl
      generalize hw : p.encode c = w at h
      by_cases hz : w = []
      · simp [hz] at h; subst h
        simp [encoder.runAppends, Append_eq, hp, hw, hz, encoder.advance, encoder.write,
          encoder.incMapSize, Value.serialize, hs]
      · simp [hz] at h; subst h
        simp [encoder.runAppends, Append_eq, hp, hw, hz, encoder.advance, encoder.write,
          encoder.incMapSize, Value.serialize]
  | _ :: _ :: _, h => simp [formatted] at h

theorem level_step (c : Codec) (cfg : zapcore.EncoderConfig) (ent : zapcore.Entry)
    (l : List (String × Value)) (final : encoder) (h : levelEntries c cfg ent = some l) :
    ∃ ds, EncodeEntry.level c cfg ent final =
      .ok (final.advance (serializeEntries c l) l.length ds) := by
  unfold levelEntries at h
  unfold EncodeEntry.level
  by_cases hk : cfg.LevelKey ≠ ""
  · rw [if_pos hk] at h ⊢
    cases hf : cfg.EncodeLevel with
    | none => simp [hf] at h
    | some f =>
      simp only [hf] at h ⊢
      cases hv : formatted c (f ent.Level) ent.Level.String with
      | none => simp [hv] at h
      | some v =>
        simp [hv] at h; subst h
        refine ⟨(f ent.Level).length, ?_⟩
        obtain ⟨f2, hrun, hres⟩ := formatted_block c _ _ cfg.LevelKey v final hv
        simp only [hrun]
        have e1 : ∀ k, serializeEntries c [(k, v)] = c.EncodeString k ++ v.serialize c := by
          intro k; simp [serializeEntries]
        rw [e1, List.length_singleton, ← hres]
        split <;> rfl
  · rw [if_neg hk] at h ⊢
    simp at h; subst h
    exact ⟨0, by simp [serializeEntries]⟩

theorem name_step (c : Codec) (cfg : zapcore.EncoderConfig) (ent : zapcore.Entry)
    (l : List (String × Value)) (final : encoder) (h : nameEntries c cfg ent = some l) :
    ∃ ds, EncodeEntry.name c cfg ent final =
      .ok (final.advance (serializeEntries c l) l.length ds) := by
  unfold nameEntries at h
  unfold EncodeEntry.name
  by_cases hk : ent.LoggerName ≠ "" ∧ cfg.NameKey ≠ ""
  · rw [if_pos hk] at h ⊢
    cases hv : formatted c ((cfg.EncodeName.getD zapcore.FullNameEncoder) ent.LoggerName)
        ent.LoggerName with
    | none => simp [hv] at h
    | some v =>
      simp [hv] at h; subst h
      refine ⟨((cfg.EncodeName.getD zapcore.FullNameEncoder) ent.LoggerName).length, ?_⟩
      obtain ⟨f2, hrun, hres⟩ := formatted_block c _ _ cfg.NameKey v final hv
      have e1 : ∀ k, serializeEntries c [(k, v)] = c.EncodeString k ++ v.serialize c := by
        intro k; simp [serializeEntries]
      rw [e1, List.length_singleton, ← hres]
      cases hN : cfg.EncodeName with
      | none =>
        simp only [hN, Option.getD] at hrun ⊢
        simp only [hrun]
        split <;> rfl
      | some g =>
        simp only [hN, Option.getD] at hrun ⊢
        simp only [hrun]
        split <;> rfl
  · rw [if_neg hk] at h ⊢
    simp at h; subst h
    exact ⟨0, by simp [serializeEntries]⟩

theorem caller_step (c : Codec) (cfg : zapcore.EncoderConfig) (ent : zapcore.Entry)
    (l : List (String × Value)) (final : encoder) (h : callerEntries c cfg ent = some l) :
    ∃ ds, EncodeEntry.caller c cfg ent final =
      .ok (final.advance (serializeEntries c l) l.length ds) := by
  unfold callerEntries at h
  unfold EncodeEntry.caller
  by_cases hk : ent.Caller.Defined = true ∧ cfg.CallerKey ≠ ""
  · rw [if_pos hk] at h ⊢
    cases hf : cfg.EncodeCaller with
    | none => simp [hf] at h
    | some f =>
      simp only [hf] at h ⊢
      cases hv : formatted c (f ent.Caller) ent.Caller.String with
      | none => simp [hv] at h
      | some v =>
        simp [hv] at h; subst h
        refine ⟨(f ent.Caller).length, ?_⟩
        obtain ⟨f2, hrun, hres⟩ := formatted_block c _ _ cfg.CallerKey v final hv
        simp only [hrun]
        have e1 : ∀ k, serializeEntries c [(k, v)] = c.EncodeString k ++ v.serialize c := by
          intro k; simp [serializeEntries]
        rw [e1, List.length_singleton, ← hres]
        split <;> rfl
  · rw [if_neg hk] at h ⊢
    simp at h; subst h
    exact ⟨0, by simp [serializeEntries]⟩

theorem time_step (c : Codec) (cfg : zapcore.EncoderConfig) (ent : zapcore.Entry)
    (final : encoder) (hns : final.nsPrefix = "") :
    EncodeEntry.time c cfg ent final =
      final.advance (serializeEntries c (timeEntries cfg ent)) (timeEntries cfg ent).length 0 := by
  unfold EncodeEntry.time timeEntries
  by_cases hk : cfg.TimeKey = ""
  · simp [hk, serializeEntries]
  · simp [hk, serializeEntries, encoder.AddTime, encoder.encodeKey, encoder.write,
      encoder.incMapSize, encoder.advance, hns, Value.serialize, Prim.encode]

theorem message_step (c : Codec) (cfg : zapcore.EncoderConfig) (ent : zapcore.Entry)
    (final : encoder) :
    EncodeEntry.message c cfg cfg ent final =
      final.advance (serializeEntries c (messageEntries cfg ent))
        (messageEntries cfg ent).length 0 := by
  unfold EncodeEntry.message messageEntries
  by_cases hk : cfg.MessageKey = ""
  · simp [hk, serializeEntries]
  · simp [hk, serializeEntries, encoder.write, encoder.incMapSize, encoder.advance,
      Value.serialize, Prim.encode]

theorem stack_step (c : Codec) (cfg : zapcore.EncoderConfig) (ent : zapcore.Entry)
    (final : encoder) :
    EncodeEntry.stack c cfg ent final =
      final.advance (serializeEntries c (stackEntries cfg ent (final.nsPrefix ++ cfg.StacktraceKey)))
        (stackEntries cfg ent (final.nsPrefix ++ cfg.StacktraceKey)).length 0 := by
  unfold EncodeEntry.stack stackEntries
  by_cases hk : ent.Stack ≠ "" ∧ cfg.StacktraceKey ≠ ""
  · rw [if_pos hk, if_pos hk]
    simp [serializeEntries, encoder.AddString, encoder.encodeKey, encoder.write,
      encoder.incMapSize, encoder.advance, Value.serialize, Prim.encode]
  · rw [if_neg hk, if_neg hk]
    simp [serializeEntries]

theorem AddTo_eq_run (c : Codec) (f : zapcore.Field) (call : ObjectCall) (e : encoder)
    (es : List (String × Value)) (rest : List ObjectCall)
    (hcall : f.call = some call) (h : objectEntries c e.nsPrefix (call :: rest) = some es) :
    f.AddTo c e = ObjectCall.run c e call := by
  cases f with
  | Array key arr =>
    simp [zapcore.Field.call] at hcall; subst hcall
    rw [objectEntries] at h
    cases hc : arr.elems c with
    | none => simp [hc] at h
    | some elems =>
      simp [zapcore.Field.AddTo, ObjectCall.run, encoder.AddArray,
        encodeArray_elems c arr elems _ hc, zapcore.Field.addError]
  | Object key obj =>
    simp [zapcore.Field.call] at hcall; subst hcall
    rw [objectEntries] at h
    cases hc : obj.entries c with
    | none => simp [hc] at h
    | some entries =>
      simp [zapcore.Field.AddTo, ObjectCall.run, encoder.AddObject,
        encodeObject_entries c obj entries _ hc, zapcore.Field.addError]
  | Scalar key val =>
    simp [zapcore.Field.call] at hcall; subst hcall
    simp [zapcore.Field.AddTo, ObjectCall.run]
  | Reflect key val =>
    simp [zapcore.Field.call] at hcall; subst hcall
    rw [objectEntries] at h
    cases he : (c.Encode val).2 with
    | some err => simp [he] at h
    | none =>
      simp [zapcore.Field.AddTo, ObjectCall.run, zapcore.Field.addError, encoder.AddReflected, he]
  | Namespace key =>
    simp [zapcore.Field.call] at hcall; subst hcall
    simp [zapcore.Field.AddTo, ObjectCall.run]
  | Stringer key str =>
    simp [zapcore.Field.call] at hcall; subst hcall
    simp [zapcore.Field.AddTo, ObjectCall.run, encoder.Add]
  | Skip => simp [zapcore.Field.call] at hcall

theorem objectEntries_cons (c : Codec) (ns : String) (call : ObjectCall) (rest : List ObjectCall)
    (es : List (String × Value)) (h : objectEntries c ns (call :: rest) = some es) :
    ∃ es2, objectEntries c (finalPrefix ns [call]) rest = some es2 := by
  cases call with
  | Add key val =>
    rw [objectEntries] at h
    cases hr : objectEntries c ns rest with
    | none => cases hp : val.prim <;> simp [hr, hp] at h
    | some es2 => exact ⟨es2, by simpa [finalPrefix] using hr⟩
  | AddArray key arr =>
    rw [objectEntries] at h
    cases hr : objectEntries c ns rest with
    | none => cases hp : arr.elems c <;> simp [hr, hp] at h
    | some es2 => exact ⟨es2, by simpa [finalPrefix] using hr⟩
  | AddObject key obj =>
    rw [objectEntries] at h
    cases hr : objectEntries c ns rest with
    | none => cases hp : obj.entries c <;> simp [hr, hp] at h
    | some es2 => exact ⟨es2, by simpa [finalPrefix] using hr⟩
  | AddReflected key val =>
    rw [objectEntries] at h
    cases hr : objectEntries c ns rest with
    | none => cases hp : (c.Encode val).2 <;> simp [hr, hp] at h
    | some es2 => exact ⟨es2, by simpa [finalPrefix] using hr⟩
  | OpenNamespace key =>
    rw [objectEntries] at h
    exact ⟨es, by simpa [finalPrefix] using h⟩

theorem run_nsPrefix (c : Codec) (call : ObjectCall) (e e1 : encoder)
    (es : List (String × Value)) (rest : List ObjectCall)
    (h : objectEntries c e.nsPrefix (call :: rest) = some es)
    (hr : ObjectCall.run c e call = .ok e1) :
    e1.nsPrefix = finalPrefix e.nsPrefix [call] := by
  cases call with
  | Add key val =>
    rw [ObjectCall.run, Add_eq] at hr
    cases hp : val.prim with
    | none => simp [hp] at hr
    | some p => simp [hp] at hr; subst hr; simp [finalPrefix, encoder.advance]
  | AddArray key arr =>
    rw [objectEntries] at h
    cases hc : arr.elems c with
    | none => simp [hc] at h
    | some elems =>
      rw [ObjectCall.run, encodeArray_elems c arr elems _ hc] at hr
      simp at hr; subst hr
      simp [finalPrefix, encoder.advance, encoder.encodeKey, encoder.incMapSize]
  | AddObject key obj =>
    rw [objectEntries] at h
    cases hc : obj.entries c with
    | none => simp [hc] at h
    | some entries =>
      rw [ObjectCall.run, encodeObject_entries c obj entries _ hc] at hr
      simp at hr; subst hr
      simp [finalPrefix, encoder.advance, encoder.encodeKey, encoder.incMapSize]
  | AddReflected key val =>
    rw [ObjectCall.run] at hr
    simp at hr; subst hr
    simp [finalPrefix, encoder.AddReflected, encoder.encodeKey, encoder.incMapSize]
  | OpenNamespace key =>
    rw [ObjectCall.run] at hr
    simp at hr; subst hr
    simp [finalPrefix, encoder.OpenNamespace]

theorem fields_eq_MarshalLogObject (c : Codec) :
    ∀ (fields : List zapcore.Field) (es : List (String × Value)) (e : encoder),
      objectEntries c e.nsPrefix (fieldCalls fields) = some es →
      EncodeEntry.fields c fields e = MarshalLogObject c (fieldCalls fields) e
  | [], es, e, h => by simp [EncodeEntry.fields, fieldCalls, MarshalLogObject]
  | f :: rest, es, e, h => by
    cases hcall : f.call with
    | none =>
      have hf : f = .Skip := by
        cases f with
        | Skip => rfl
        | _ => simp [zapcore.Field.call] at hcall
      subst hf
      have h2 : objectEntries c e.nsPrefix (fieldCalls rest) = some es := by
        simpa [fieldCalls, zapcore.Field.call] using h
      simp only [EncodeEntry.fields, zapcore.Field.AddTo]
      rw [fields_eq_MarshalLogObject c rest es e h2]
      simp [fieldCalls, zapcore.Field.call]
    | some call =>
      have hfc : fieldCalls (f :: rest) = call :: fieldCalls rest := by
        simp [fieldCalls, hcall]
      rw [hfc] at h ⊢
      rw [EncodeEntry.fields, AddTo_eq_run c f call e es _ hcall h, MarshalLogObject]
      cases hr : ObjectCall.run c e call with
      | error p => rfl
      | ok e1 =>
        simp only []
        obtain ⟨es2, h2⟩ := objectEntries_cons c _ _ _ es h
        rw [← run_nsPrefix c call e e1 es _ h hr] at h2
        exact fields_eq_MarshalLogObject c rest es2 e1 h2

theorem fields_step (c : Codec) (fields : List zapcore.Field) (es : List (String × Value))
    (e : encoder) (h : objectEntries c e.nsPrefix (fieldCalls fields) = some es) :
    EncodeEntry.fields c fields e =
      .ok { e.advance (serializeEntries c es) es.length 0 with
            nsPrefix := finalPrefix e.nsPrefix (fieldCalls fields) } := by
  rw [fields_eq_MarshalLogObject c fields es e h, MarshalLogObject_entries c _ es e h]

/-- The scope `final` of `EncodeEntry` under the hypotheses that the envelope
and the field list denote complete entries. -/
theorem final_entries (c : Codec) (enc : encoder) (cfg : zapcore.EncoderConfig)
    (ent : zapcore.Entry) (fields : List zapcore.Field) (env fs : List (String × Value))
    (hcfg : enc.EncoderConfig = some cfg) (henv : envelopeEntries c cfg ent = some env)
    (hfs : objectEntries c "" (fieldCalls fields) = some fs) :
    ∃ ds, EncodeEntry.final c enc ent fields = .ok
      { EncoderConfig := some cfg,
        buf := serializeEntries c (env ++ fs ++
          stackEntries cfg ent (finalPrefix "" (fieldCalls fields) ++ cfg.StacktraceKey)),
        mapSize := (env ++ fs ++
          stackEntries cfg ent (finalPrefix "" (fieldCalls fields) ++ cfg.StacktraceKey)).length,
        sliceLen := ds,
        nsPrefix := finalPrefix "" (fieldCalls fields) } := by
  unfold envelopeEntries at henv
  cases hl : levelEntries c cfg ent with
  | none => simp [hl] at henv
  | some l =>
    cases hn : nameEntries c cfg ent with
    | none => simp [hl, hn] at henv
    | some n =>
      cases hc : callerEntries c cfg ent with
      | none => simp [hl, hn, hc] at henv
      | some cl =>
        simp only [hl, hn, hc, Option.some.injEq] at henv
        subst henv
        obtain ⟨d1, h1⟩ := level_step c cfg ent l enc.clone hl
        obtain ⟨d2, h2⟩ := name_step c cfg ent n
          (EncodeEntry.time c cfg ent (enc.clone.advance (serializeEntries c l) l.length d1)) hn
        obtain ⟨d3, h3⟩ := caller_step c cfg ent cl
          ((EncodeEntry.time c cfg ent
            (enc.clone.advance (serializeEntries c l) l.length d1)).advance
              (serializeEntries c n) n.length d2) hc
        refine ⟨d1 + d2 + d3, ?_⟩
        unfold EncodeEntry.final
        have hclone : enc.clone.EncoderConfig = some cfg := by simp [encoder.clone, hcfg]
        simp only [hclone, hcfg, h1, h2, h3]
        rw [time_step c cfg ent _ (by simp [encoder.advance, encoder.clone, getEncoder,
          encoderPool.New]), message_step]
        rw [fields_step c fields fs _ (by simpa [encoder.advance, encoder.clone, getEncoder,
          encoderPool.New] using hfs)]
        simp only [stack_step]
        simp [encoder.advance, encoder.clone, getEncoder, encoderPool.New, hcfg,
          serializeEntries_append, Nat.add_assoc]

theorem encodeArray_frame (c : Codec) (enc : encoder) (arr : ArrayMarshaler)
    (r : encoder × Option GoError) (h : enc.encodeArray c arr = .ok r) :
    r.1.sliceLen = enc.sliceLen ∧ r.1.mapSize = enc.mapSize := by
  cases arr with
  | mk calls ret =>
    rw [encoder.encodeArray] at h
    cases hm : MarshalLogArray c calls enc.clone with
    | error p => simp [hm] at h
    | ok s =>
      cases ret with
      | none => simp [hm] at h; subst h; simp
      | some e => simp [hm] at h; subst h; simp

theorem encodeObject_frame (c : Codec) (enc : encoder) (obj : ObjectMarshaler)
    (r : encoder × Option GoError) (h : enc.encodeObject c obj = .ok r) :
    r.1.sliceLen = enc.sliceLen ∧ r.1.mapSize = enc.mapSize := by
  cases obj with
  | mk calls ret =>
    rw [encoder.encodeObject] at h
    cases hm : MarshalLogObject c calls enc.clone with
    | error p => simp [hm] at h
    | ok s =>
      cases ret with
      | none => simp [hm] at h; subst h; simp
      | some e => simp [hm] at h; subst h; simp

theorem ArrayCall_run_counts (c : Codec) (call : ArrayCall) (e e1 : encoder)
    (h : ArrayCall.run c e call = .ok e1) :
    e1.sliceLen = e.sliceLen + 1 ∧ e1.mapSize = e.mapSize := by
  cases call with
  | Append val =>
    rw [ArrayCall.run, Append_eq] at h
    cases hp : val.prim with
    | none => simp [hp] at h
    | some p => simp [hp] at h; subst h; simp [encoder.advance]
  | AppendArray arr =>
    rw [ArrayCall.run] at h
    cases hr : encoder.encodeArray c e.incSliceLen arr with
    | error p => simp [hr] at h
    | ok r =>
      simp [hr] at h; subst h
      simpa [encoder.incSliceLen] using encodeArray_frame c _ arr r hr
  | AppendObject obj =>
    rw [ArrayCall.run] at h
    cases hr : encoder.encodeObject c e.incSliceLen obj with
    | error p => simp [hr] at h
    | ok r =>
      simp [hr] at h; subst h
      simpa [encoder.incSliceLen] using encodeObject_frame c _ obj r hr
  | AppendReflected val =>
    rw [ArrayCall.run] at h
    simp at h; subst h
    simp [encoder.AppendReflected, encoder.incSliceLen]

theorem ObjectCall_run_counts (c : Codec) (call : ObjectCall) (e e1 : encoder)
    (h : ObjectCall.run c e call = .ok e1) :
    e1.mapSize = e.mapSize + (if call.isAdd then 1 else 0) ∧ e1.sliceLen = e.sliceLen := by
  cases call with
  | Add key val =>
    rw [ObjectCall.run, Add_eq] at h
    cases hp : val.prim with
    | none => simp [hp] at h
    | some p => simp [hp] at h; subst h; simp [encoder.advance, ObjectCall.isAdd]
  | AddArray key arr =>
    rw [ObjectCall.run] at h
    cases hr : encoder.encodeArray c (e.incMapSize.encodeKey c key) arr with
    | error p => simp [hr] at h
    | ok r =>
      simp [hr] at h; subst h
      have := encodeArray_frame c _ arr r hr
      simpa [encoder.incMapSize, encoder.encodeKey, ObjectCall.isAdd, and_comm] using this
  | AddObject key obj =>
    rw [ObjectCall.run] at h
    cases hr : encoder.encodeObject c (e.incMapSize.encodeKey c key) obj with
    | error p => simp [hr] at h
    | ok r =>
      simp [hr] at h; subst h
      have := encodeObject_frame c _ obj r hr
      simpa [encoder.incMapSize, encoder.encodeKey, ObjectCall.isAdd, and_comm] using this
  | AddReflected key val =>
    rw [ObjectCall.run] at h
    simp at h; subst h
    simp [encoder.AddReflected, encoder.incMapSize, encoder.encodeKey, ObjectCall.isAdd]
  | OpenNamespace key =>
    rw [ObjectCall.run] at h
    simp at h; subst h
    simp [encoder.OpenNamespace, ObjectCall.isAdd]

theorem MarshalLogArray_sliceLen (c : Codec) :
    ∀ (calls : List ArrayCall) (e e1 : encoder), MarshalLogArray c calls e = .ok e1 →
      e1.sliceLen = e.sliceLen + calls.length
  | [], e, e1, h => by
    simp [MarshalLogArray] at h; subst h; simp
  | call :: rest, e, e1, h => by
    rw [MarshalLogArray] at h
    cases hr : ArrayCall.run c e call with
    | error p => simp [hr] at h
    | ok e2 =>
      simp only [hr] at h
      have h1 := (ArrayCall_run_counts c call e e2 hr).1
      have h2 := MarshalLogArray_sliceLen c rest e2 e1 h
      simp [h2, h1]; omega

theorem MarshalLogObject_mapSize (c : Codec) :
    ∀ (calls : List ObjectCall) (e e1 : encoder), MarshalLogObject c calls e = .ok e1 →
      e1.mapSize = e.mapSize + calls.countP ObjectCall.isAdd
  | [], e, e1, h => by
    simp [MarshalLogObject] at h; subst h; simp
  | call :: rest, e, e1, h => by
    rw [MarshalLogObject] at h
    cases hr : ObjectCall.run c e call with
    | error p => simp [hr] at h
    | ok e2 =>
      simp only [hr] at h
      have h1 := (ObjectCall_run_counts c call e e2 hr).1
      have h2 := MarshalLogObject_mapSize c rest e2 e1 h
      rw [h2, h1, List.countP_cons]
      omega

/-- C4: when the population callback of a nested array (object) runs to
completion on the scratch encoder and returns nil after performing `n` Append
(Add) calls, the parent gains, after the count increment and the key of an Add
operation, the container-length prefix `n` followed by exactly the bytes the
callback wrote into the scratch encoder; the parent may itself be a scratch
encoder, so this holds at any nesting depth.  With no call at all the value is
the empty container: the key and the prefix 0 are still written. -/
theorem nested_container_length_framed (c : Codec) (enc : encoder) (key : String)
    (acalls : List ArrayCall) (ocalls : List ObjectCall) (sa so : encoder)
    (ha : MarshalLogArray c acalls enc.clone = .ok sa)
    (ho : MarshalLogObject c ocalls enc.clone = .ok so) :
    enc.AppendArray c (.mk acalls none) =
        .ok (enc.advance (c.EncodeArrayLen acalls.length ++ sa.buf) 0 1, none)
    ∧ enc.AddArray c key (.mk acalls none) =
        .ok (enc.advance (c.EncodeString (enc.nsPrefix ++ key) ++
          (c.EncodeArrayLen acalls.length ++ sa.buf)) 1 0, none)
    ∧ enc.AppendObject c (.mk ocalls none) =
        .ok (enc.advance (c.EncodeMapLen (ocalls.countP ObjectCall.isAdd) ++ so.buf) 0 1, none)
    ∧ enc.AddObject c key (.mk ocalls none) =
        .ok (enc.advance (c.EncodeString (enc.nsPrefix ++ key) ++
          (c.EncodeMapLen (ocalls.countP ObjectCall.isAdd) ++ so.buf)) 1 0, none)
    ∧ enc.AddArray c key (.mk [] none) =
        .ok (enc.advance (c.EncodeString (enc.nsPrefix ++ key) ++ c.EncodeArrayLen 0) 1 0, none)
    ∧ enc.AddObject c key (.mk [] none) =
        .ok (enc.advance (c.EncodeString (enc.nsPrefix ++ key) ++ c.EncodeMapLen 0) 1 0, none) := by
  have hsa : sa.sliceLen = acalls.length := by
    simpa [encoder.clone, getEncoder, encoderPool.New] using
      MarshalLogArray_sliceLen c acalls enc.clone sa ha
  have hso : so.mapSize = ocalls.countP ObjectCall.isAdd := by
    simpa [encoder.clone, getEncoder, encoderPool.New] using
      MarshalLogObject_mapSize c ocalls enc.clone so ho
  have ha1 : MarshalLogArray c acalls enc.incSliceLen.clone = .ok sa := ha
  have ha2 : MarshalLogArray c acalls (enc.incMapSize.encodeKey c key).clone = .ok sa := ha
  have ho1 : MarshalLogObject c ocalls enc.incSliceLen.clone = .ok so := ho
  have ho2 : MarshalLogObject c ocalls (enc.incMapSize.encodeKey c key).clone = .ok so := ho
  refine ⟨?_, ?_, ?_, ?_, ?_, ?_⟩
  · simp only [encoder.AppendArray, encoder.encodeArray, ha1]
    simp [hsa, encoder.advance, encoder.write, encoder.incSliceLen]
  · simp only [encoder.AddArray, encoder.encodeArray, ha2]
    simp [hsa, encoder.advance, encoder.write, encoder.incMapSize, encoder.encodeKey]
  · simp only [encoder.AppendObject, encoder.encodeObject, ho1]
    simp [hso, encoder.advance, encoder.write, encoder.incSliceLen]
  · simp only [encoder.AddObject, encoder.encodeObject, ho2]
    simp [hso, encoder.advance, encoder.write, encoder.incMapSize, encoder.encodeKey]
  · simp [encoder.AddArray, encoder.encodeArray, MarshalLogArray, encoder.advance, encoder.write,
      encoder.incMapSize, encoder.encodeKey, encoder.clone, getEncoder, encoderPool.New]
  · simp [encoder.AddObject, encoder.encodeObject, MarshalLogObject, encoder.advance,
      encoder.write, encoder.incMapSize, encoder.encodeKey, encoder.clone, getEncoder,
      encoderPool.New]

/-- Witness of C4: the array `arr2` of the repository test, three Append calls. -/
theorem nested_container_length_framed_witness :
    (NewEncoder testConfig).AddArray msgpack "arr2" (.mk testArr2 none) =
      .ok ((NewEncoder testConfig).advance (msgpack.EncodeString "arr2" ++
        (msgpack.EncodeArrayLen 3 ++ [0xc2, 0xc3, 34])) 1 0, none) :=
  (nested_container_length_framed msgpack (NewEncoder testConfig) "arr2" testArr2 []
    { (NewEncoder testConfig).clone with buf := [0xc2, 0xc3, 34], sliceLen := 3 }
    (NewEncoder testConfig).clone (by rfl) (by rfl)).2.1

theorem foldl_OpenNamespace (names : List String) :
    ∀ enc : encoder, (names.foldl encoder.OpenNamespace enc).nsPrefix
        = enc.nsPrefix ++ namespacePrefix names
      ∧ (names.foldl encoder.OpenNamespace enc).buf = enc.buf
      ∧ (names.foldl encoder.OpenNamespace enc).mapSize = enc.mapSize
      ∧ (names.foldl encoder.OpenNamespace enc).sliceLen = enc.sliceLen := by
  induction names with
  | nil => intro enc; simp [namespacePrefix]
  | cons name rest ih =>
    intro enc
    obtain ⟨h1, h2, h3, h4⟩ := ih (enc.OpenNamespace name)
    simp only [List.foldl_cons, h1, h2, h3, h4]
    simp [encoder.OpenNamespace, namespacePrefix, String.append_assoc]

/-- C8: `OpenNamespace(name)` changes the namespace prefix to
`old ++ name ++ "."` and leaves the buffer and both counts unchanged; after
opening the names `names` in order the prefix is the old one followed by
`n1.n2.….nk.`, `encodeKey` writes the string `prefix ++ key`, and so does every
scalar Add; in particular `OpenNamespace("a"); OpenNamespace("b");
AddString("c", "v")` on a new encoder writes the key `"a.b.c"`. -/
theorem OpenNamespace_concatenates (c : Codec) (enc : encoder) (name key : String)
    (names : List String) (val : AddValue) (p : Prim) (hp : val.prim = some p) :
    ((enc.OpenNamespace name).nsPrefix = enc.nsPrefix ++ name ++ "."
      ∧ (enc.OpenNamespace name).buf = enc.buf
      ∧ (enc.OpenNamespace name).mapSize = enc.mapSize
      ∧ (enc.OpenNamespace name).sliceLen = enc.sliceLen)
    ∧ (names.foldl encoder.OpenNamespace enc).nsPrefix = enc.nsPrefix ++ namespacePrefix names
    ∧ ((names.foldl encoder.OpenNamespace enc).encodeKey c key).buf
        = enc.buf ++ c.EncodeString (enc.nsPrefix ++ namespacePrefix names ++ key)
    ∧ (∃ e1 : encoder, (names.foldl encoder.OpenNamespace enc).Add c key val = Except.ok e1
        ∧ e1.buf = enc.buf ++ c.EncodeString (enc.nsPrefix ++ namespacePrefix names ++ key)
            ++ p.encode c)
    ∧ ((((NewEncoder testConfig).OpenNamespace "a").OpenNamespace "b").AddString c "c" "v").buf
        = c.EncodeString "a.b.c" ++ c.EncodeString "v" := by
  obtain ⟨h1, h2, h3, h4⟩ := foldl_OpenNamespace names enc
  refine ⟨⟨?_, rfl, rfl, rfl⟩, h1, ?_, ?_, ?_⟩
  · simp [encoder.OpenNamespace, String.append_assoc]
  · simp [encoder.encodeKey, h1, h2]
  · rw [Add_eq, hp]
    exact ⟨_, rfl, by simp [encoder.advance, h1, h2]⟩
  · rfl

/-- C1 (the code departs from its documentation): after `AddString("str","foo")`
the encoder holds one entry (8 bytes, count 1), yet `EncodeEntry` returns the
very bytes it returns on the encoder without that field: a map of the four
envelope entries `L`, `T`, `N`, `M` in which the key `str` does not occur. -/
theorem EncodeEntry_drops_accumulated_context :
    ((NewEncoder testConfig).AddString msgpack "str" "foo").buf
        = [0xa3, 0x73, 0x74, 0x72, 0xa3, 0x66, 0x6f, 0x6f]
    ∧ ((NewEncoder testConfig).AddString msgpack "str" "foo").mapSize = 1
    ∧ ((NewEncoder testConfig).AddString msgpack "str" "foo").EncodeEntry msgpack testEntry []
        = (NewEncoder testConfig).EncodeEntry msgpack testEntry []
    ∧ ((NewEncoder testConfig).AddString msgpack "str" "foo").EncodeEntry msgpack testEntry []
        = .ok ([0x92, 0xd7, 0xff, 0, 0, 1, 140, 91, 41, 48, 102,
                0x84,
                0xa1, 0x4c, 0xa4, 0x69, 0x6e, 0x66, 0x6f,
                0xa1, 0x54, 0xd7, 0xff, 0, 0, 1, 140, 91, 41, 48, 102,
                0xa1, 0x4e, 0xa3, 0x62, 0x6f, 0x62,
                0xa1, 0x4d, 0xa7, 0x6c, 0x6f, 0x62, 0x20, 0x6c, 0x61, 0x77], none) := by
  refine ⟨by decide, by decide, rfl, by decide⟩

/-- C5 (the code breaks the count invariant on the error paths): `AppendArray`
with a callback that reports an error leaves the sequence-element count at 1
with an empty buffer; `AddObject` with such a callback and `AddReflected` with
a value the codec rejects leave the map-entry count at 1 while the buffer holds
the key alone, without a value. -/
theorem count_exceeds_written_on_error :
    (∃ r, (NewEncoder testConfig).AppendArray msgpack (.mk [] (some "boom")) = Except.ok r
        ∧ r.2 = some "boom" ∧ r.1.sliceLen = 1 ∧ r.1.buf = [])
    ∧ (∃ r, (NewEncoder testConfig).AddObject msgpack "k" (.mk [] (some "boom")) = Except.ok r
        ∧ r.2 = some "boom" ∧ r.1.mapSize = 1 ∧ r.1.buf = msgpack.EncodeString "k")
    ∧ ((NewEncoder testConfig).AddReflected msgpack "k" (.Unsupported "chan int")).2
          = some "msgpack: Encode(unsupported chan int)"
      ∧ ((NewEncoder testConfig).AddReflected msgpack "k" (.Unsupported "chan int")).1.mapSize = 1
      ∧ ((NewEncoder testConfig).AddReflected msgpack "k" (.Unsupported "chan int")).1.buf
          = msgpack.EncodeString "k" := by
  refine ⟨⟨_, rfl, rfl, rfl, rfl⟩, ⟨_, rfl, rfl, rfl, ?_⟩, by decide, rfl, by decide⟩
  decide

/-- C6 (the parent is modified although the callback failed): `AddArray` with a
callback that reports the error `"boom"` returns that error, but the parent's
map-entry count has grown by one and its buffer has gained the encoded key;
`AppendObject` with such a callback returns the error with the
sequence-element count grown by one. -/
theorem failing_callback_modifies_parent :
    (∃ r, (NewEncoder testConfig).AddArray msgpack "k" (.mk [.Append (.Bool true)] (some "boom"))
          = Except.ok r
        ∧ r.2 = some "boom"
        ∧ r.1.mapSize = (NewEncoder testConfig).mapSize + 1
        ∧ r.1.buf = (NewEncoder testConfig).buf ++ [0xa1, 0x6b])
    ∧ (∃ r, (NewEncoder testConfig).AppendObject msgpack (.mk [] (some "boom")) = Except.ok r
        ∧ r.2 = some "boom"
        ∧ r.1.sliceLen = (NewEncoder testConfig).sliceLen + 1) := by
  refine ⟨⟨_, rfl, rfl, rfl, ?_⟩, ⟨_, rfl, rfl, rfl⟩⟩
  decide

theorem block_bytes (c : Codec) (calls : List AppendValue) (fb key : String) (final : encoder)
    (hc : ∀ v ∈ calls, v.prim ≠ none) :
    ∃ f2, (final.incMapSize.write (c.EncodeString key)).runAppends c calls = .ok f2 ∧
      (if (final.incMapSize.write (c.EncodeString key)).buf.length = f2.buf.length then
          f2.write (c.EncodeString fb)
        else f2).buf = final.buf ++ c.EncodeString key ++
          (if callbackBytes c calls = [] then c.EncodeString fb else callbackBytes c calls) ∧
      (if (final.incMapSize.write (c.EncodeString key)).buf.length = f2.buf.length then
          f2.write (c.EncodeString fb)
        else f2).mapSize = final.mapSize + 1 := by
  have hrun : ∀ (calls : List AppendValue) (e : encoder), (∀ v ∈ calls, v.prim ≠ none) →
      ∃ f2, e.runAppends c calls = .ok f2 := by
    intro calls
    induction calls with
    | nil => intro e _; exact ⟨e, rfl⟩
    | cons v rest ih =>
      intro e hall
      cases hp : v.prim with
      | none => exact absurd hp (hall v (List.mem_cons_self _ _))
      | some p =>
        obtain ⟨f2, h2⟩ := ih (e.advance (p.encode c) 0 1)
          (fun w hw => hall w (List.mem_cons_of_mem _ hw))
        exact ⟨f2, by rw [encoder.runAppends, Append_eq, hp]; exact h2⟩
  obtain ⟨f2, h2⟩ := hrun calls (final.incMapSize.write (c.EncodeString key)) hc
  have hb := runAppends_bytes c calls _ f2 h2
  refine ⟨f2, h2, ?_, ?_⟩
  · rw [hb]
    by_cases hz : callbackBytes c calls = []
    · simp [hz, encoder.advance, encoder.write, encoder.incMapSize]
    · have : (callbackBytes c calls).length ≠ 0 := by simpa using hz
      simp [hz, encoder.advance, encoder.write, encoder.incMapSize, this]
  · rw [hb]
    split <;> simp [encoder.advance, encoder.write, encoder.incMapSize]

/-- C9: for the level, logger-name and caller blocks of `EncodeEntry`, when the
entry is included and the formatting callback is set (for the name: set or
defaulted) and appends no complex value, the block counts one entry and writes
the key followed by the bytes the callback wrote, or, when the callback wrote no
byte, by the string encoding of `level.String()`, the raw logger name,
`caller.String()`; when no name callback is configured the value is the
logger name unmodified. -/
theorem fallback_on_noop_formatter (c : Codec) (cfg : zapcore.EncoderConfig)
    (ent : zapcore.Entry) (final : encoder)
    (fl : zapcore.Level → List AppendValue) (fc : zapcore.EntryCaller → List AppendValue)
    (hl : cfg.EncodeLevel = some fl) (hc : cfg.EncodeCaller = some fc)
    (hlp : ∀ v ∈ fl ent.Level, v.prim ≠ none)
    (hnp : ∀ v ∈ (cfg.EncodeName.getD zapcore.FullNameEncoder) ent.LoggerName, v.prim ≠ none)
    (hcp : ∀ v ∈ fc ent.Caller, v.prim ≠ none) :
    (cfg.LevelKey ≠ "" →
      ∃ e1 : encoder, EncodeEntry.level c cfg ent final = Except.ok e1
        ∧ e1.mapSize = final.mapSize + 1
        ∧ e1.buf = final.buf ++ c.EncodeString cfg.LevelKey ++
            (if callbackBytes c (fl ent.Level) = [] then c.EncodeString ent.Level.String
             else callbackBytes c (fl ent.Level)))
    ∧ (ent.LoggerName ≠ "" ∧ cfg.NameKey ≠ "" →
      ∃ e1 : encoder, EncodeEntry.name c cfg ent final = Except.ok e1
        ∧ e1.mapSize = final.mapSize + 1
        ∧ e1.buf = final.buf ++ c.EncodeString cfg.NameKey ++
            (if callbackBytes c ((cfg.EncodeName.getD zapcore.FullNameEncoder) ent.LoggerName) = []
             then c.EncodeString ent.LoggerName
             else callbackBytes c ((cfg.EncodeName.getD zapcore.FullNameEncoder) ent.LoggerName)))
    ∧ (ent.LoggerName ≠ "" ∧ cfg.NameKey ≠ "" → cfg.EncodeName = none →
      ∃ e1 : encoder, EncodeEntry.name c cfg ent final = Except.ok e1
        ∧ e1.buf = final.buf ++ c.EncodeString cfg.NameKey ++ c.EncodeString ent.LoggerName)
    ∧ (ent.Caller.Defined = true ∧ cfg.CallerKey ≠ "" →
      ∃ e1 : encoder, EncodeEntry.caller c cfg ent final = Except.ok e1
        ∧ e1.mapSize = final.mapSize + 1
        ∧ e1.buf = final.buf ++ c.EncodeString cfg.CallerKey ++
            (if callbackBytes c (fc ent.Caller) = [] then c.EncodeString ent.Caller.String
             else callbackBytes c (fc ent.Caller))) := by
  have hname : ent.LoggerName ≠ "" ∧ cfg.NameKey ≠ "" →
      ∃ e1 : encoder, EncodeEntry.name c cfg ent final = Except.ok e1
        ∧ e1.mapSize = final.mapSize + 1
        ∧ e1.buf = final.buf ++ c.EncodeString cfg.NameKey ++
            (if callbackBytes c ((cfg.EncodeName.getD zapcore.FullNameEncoder) ent.LoggerName) = []
             then c.EncodeString ent.LoggerName
             else callbackBytes c ((cfg.EncodeName.getD zapcore.FullNameEncoder) ent.LoggerName)) := by
    intro hk
    obtain ⟨f2, hrun, hbuf, hmap⟩ := block_bytes c _ ent.LoggerName cfg.NameKey final hnp
    unfold EncodeEntry.name
    rw [if_pos hk]
    cases hN : cfg.EncodeName with
    | none =>
      simp only [hN, Option.getD] at hrun hbuf hmap ⊢
      simp only [hrun]
      split
      · rename_i heq; rw [if_pos heq] at hbuf hmap; exact ⟨_, rfl, hmap, hbuf⟩
      · rename_i heq; rw [if_neg heq] at hbuf hmap; exact ⟨_, rfl, hmap, hbuf⟩
    | some g =>
      simp only [hN, Option.getD] at hrun hbuf hmap ⊢
      simp only [hrun]
      split
      · rename_i heq; rw [if_pos heq] at hbuf hmap; exact ⟨_, rfl, hmap, hbuf⟩
      · rename_i heq; rw [if_neg heq] at hbuf hmap; exact ⟨_, rfl, hmap, hbuf⟩
  refine ⟨?_, hname, ?_, ?_⟩
  · intro hk
    obtain ⟨f2, hrun, hbuf, hmap⟩ := block_bytes c _ ent.Level.String cfg.LevelKey final hlp
    unfold EncodeEntry.level
    rw [if_pos hk]
    simp only [hl, hrun]
    split
    · rename_i heq; rw [if_pos heq] at hbuf hmap; exact ⟨_, rfl, hmap, hbuf⟩
    · rename_i heq; rw [if_neg heq] at hbuf hmap; exact ⟨_, rfl, hmap, hbuf⟩
  · intro hk hN
    obtain ⟨e1, h1, _, h3⟩ := hname hk
    refine ⟨e1, h1, ?_⟩
    rw [h3, hN]
    simp only [Option.getD, zapcore.FullNameEncoder, callbackBytes, List.filterMap_cons,
      AppendValue.prim, List.filterMap_nil, List.flatMap_cons, List.flatMap_nil, Prim.encode,
      List.append_nil]
    split <;> simp_all
  · intro hk
    obtain ⟨f2, hrun, hbuf, hmap⟩ := block_bytes c _ ent.Caller.String cfg.CallerKey final hcp
    unfold EncodeEntry.caller
    rw [if_pos hk]
    simp only [hc, hrun]
    split
    · rename_i heq; rw [if_pos heq] at hbuf hmap; exact ⟨_, rfl, hmap, hbuf⟩
    · rename_i heq; rw [if_neg heq] at hbuf hmap; exact ⟨_, rfl, hmap, hbuf⟩

/-- C10: when the message key is empty the message block leaves the scope `final`
as it is (no bytes, no count), and `EncodeEntry` returns the same result for
events that differ only in their message; likewise for the level, name, caller
and stack-trace keys, and for the time key with respect to the map scope
`final` (the timestamp is still element 0 of the record). -/
theorem omission_gating (c : Codec) (enc : encoder) (cfg : zapcore.EncoderConfig)
    (ent : zapcore.Entry) (fields : List zapcore.Field) (final : encoder)
    (hcfg : enc.EncoderConfig = some cfg) :
    (cfg.MessageKey = "" →
      EncodeEntry.message c cfg cfg ent final = final
      ∧ ∀ m, enc.EncodeEntry c { ent with Message := m } fields = enc.EncodeEntry c ent fields)
    ∧ (cfg.LevelKey = "" →
      EncodeEntry.level c cfg ent final = .ok final
      ∧ ∀ l, enc.EncodeEntry c { ent with Level := l } fields = enc.EncodeEntry c ent fields)
    ∧ (cfg.NameKey = "" →
      EncodeEntry.name c cfg ent final = .ok final
      ∧ ∀ n, enc.EncodeEntry c { ent with LoggerName := n } fields = enc.EncodeEntry c ent fields)
    ∧ (cfg.TimeKey = "" →
      EncodeEntry.time c cfg ent final = final
      ∧ ∀ t, EncodeEntry.final c enc { ent with Time := t } fields
          = EncodeEntry.final c enc ent fields)
    ∧ (cfg.CallerKey = "" →
      EncodeEntry.caller c cfg ent final = .ok final
      ∧ ∀ cl, enc.EncodeEntry c { ent with Caller := cl } fields = enc.EncodeEntry c ent fields)
    ∧ (cfg.StacktraceKey = "" →
      EncodeEntry.stack c cfg ent final = final
      ∧ ∀ s, enc.EncodeEntry c { ent with Stack := s } fields = enc.EncodeEntry c ent fields) := by
  have hclone : enc.clone.EncoderConfig = some cfg := by simp [encoder.clone, hcfg]
  refine ⟨?_, ?_, ?_, ?_, ?_, ?_⟩
  · intro hk
    refine ⟨by simp [EncodeEntry.message, hk], fun m => ?_⟩
    simp [encoder.EncodeEntry, EncodeEntry.final, hclone, hcfg, EncodeEntry.message, hk,
      EncodeEntry.level, EncodeEntry.time, EncodeEntry.name, EncodeEntry.caller, EncodeEntry.stack]
  · intro hk
    refine ⟨by simp [EncodeEntry.level, hk], fun l => ?_⟩
    simp [encoder.EncodeEntry, EncodeEntry.final, hclone, hcfg, EncodeEntry.message, hk,
      EncodeEntry.level, EncodeEntry.time, EncodeEntry.name, EncodeEntry.caller, EncodeEntry.stack]
  · intro hk
    refine ⟨by simp [EncodeEntry.name, hk], fun n => ?_⟩
    simp [encoder.EncodeEntry, EncodeEntry.final, hclone, hcfg, EncodeEntry.message, hk,
      EncodeEntry.level, EncodeEntry.time, EncodeEntry.name, EncodeEntry.caller, EncodeEntry.stack]
  · intro hk
    refine ⟨by simp [EncodeEntry.time, hk], fun t => ?_⟩
    simp [EncodeEntry.final, hclone, hcfg, EncodeEntry.message, hk,
      EncodeEntry.level, EncodeEntry.time, EncodeEntry.name, EncodeEntry.caller, EncodeEntry.stack]
  · intro hk
    refine ⟨by simp [EncodeEntry.caller, hk], fun cl => ?_⟩
    simp [encoder.EncodeEntry, EncodeEntry.final, hclone, hcfg, EncodeEntry.message, hk,
      EncodeEntry.level, EncodeEntry.time, EncodeEntry.name, EncodeEntry.caller, EncodeEntry.stack]
  · intro hk
    refine ⟨by simp [EncodeEntry.stack, hk], fun s => ?_⟩
    simp [encoder.EncodeEntry, EncodeEntry.final, hclone, hcfg, EncodeEntry.message, hk,
      EncodeEntry.level, EncodeEntry.time, EncodeEntry.name, EncodeEntry.caller, EncodeEntry.stack]

/-- C2 (amended): when the formatting callbacks that are needed are set and
each appends at most one, non-complex value (`envelopeEntries` is defined) and
every field writes complete key/value pairs (no complex field, every marshaler
at every depth returns nil, every reflected value encodes: `objectEntries` is
defined), `EncodeEntry` returns exactly `EncodeArrayLen(2) ++ EncodeTime(ent.Time)
++ EncodeMapLen(n) ++ P` with `P` the buffer and `n` the map-entry count of the
scope `final`, and `P` is the concatenation of exactly `n` encoded key/value
pairs. -/
theorem EncodeEntry_frame_and_count (c : Codec) (enc : encoder) (cfg : zapcore.EncoderConfig)
    (ent : zapcore.Entry) (fields : List zapcore.Field) (env fs : List (String × Value))
    (hcfg : enc.EncoderConfig = some cfg) (henv : envelopeEntries c cfg ent = some env)
    (hfs : objectEntries c "" (fieldCalls fields) = some fs) :
    ∃ final : encoder, EncodeEntry.final c enc ent fields = Except.ok final
      ∧ enc.EncodeEntry c ent fields = Except.ok
          (c.EncodeArrayLen 2 ++ c.EncodeTime ent.Time ++ c.EncodeMapLen final.mapSize
            ++ final.buf, none)
      ∧ ∃ entries : List (String × Value),
          entries.length = final.mapSize ∧ final.buf = serializeEntries c entries := by
  obtain ⟨ds, hfin⟩ := final_entries c enc cfg ent fields env fs hcfg henv hfs
  refine ⟨_, hfin, ?_, _, rfl, rfl⟩
  simp [encoder.EncodeEntry, hfin, encoder.write, encoder.clone, getEncoder, encoderPool.New]

theorem finalPrefix_no_namespace (ns : String) :
    ∀ fields : List zapcore.Field, (∀ key, zapcore.Field.Namespace key ∉ fields) →
      finalPrefix ns (fieldCalls fields) = ns
  | [], _ => by simp [fieldCalls, finalPrefix]
  | f :: rest, h => by
    have hrest : ∀ key, zapcore.Field.Namespace key ∉ rest :=
      fun key hmem => h key (List.mem_cons_of_mem _ hmem)
    have ih := finalPrefix_no_namespace ns rest hrest
    cases f with
    | Namespace key => exact absurd (List.mem_cons_self _ _) (h key)
    | Array key arr => simpa [fieldCalls, zapcore.Field.call, finalPrefix] using ih
    | Object key obj => simpa [fieldCalls, zapcore.Field.call, finalPrefix] using ih
    | Scalar key val => simpa [fieldCalls, zapcore.Field.call, finalPrefix] using ih
    | Reflect key val => simpa [fieldCalls, zapcore.Field.call, finalPrefix] using ih
    | Stringer key str => simpa [fieldCalls, zapcore.Field.call, finalPrefix] using ih
    | Skip => simpa [fieldCalls, zapcore.Field.call, finalPrefix] using ih

/-- C3 (amended): when the record the specification describes is defined (the
needed formatting callbacks are set and append at most one non-complex value,
no field is complex, every marshaler returns nil, every reflected value
encodes) and no stack-trace entry is written after a field opened a namespace,
the bytes `EncodeEntry` returns are the codec serialisation of the 2-element
sequence of the timestamp and the map of the expected keys and values, so a
decoder that inverts the serialisation yields that sequence. -/
theorem EncodeEntry_serializes_expected_record (c : Codec) (enc : encoder)
    (cfg : zapcore.EncoderConfig) (ent : zapcore.Entry) (fields : List zapcore.Field)
    (record : Value) (hcfg : enc.EncoderConfig = some cfg)
    (hrec : expectedRecord c cfg ent fields = some record)
    (hns : ent.Stack = "" ∨ cfg.StacktraceKey = "" ∨ ∀ key, zapcore.Field.Namespace key ∉ fields) :
    enc.EncodeEntry c ent fields = Except.ok (record.serialize c, none) := by
  unfold expectedRecord expectedEntries at hrec
  cases henv : envelopeEntries c cfg ent with
  | none => simp [henv] at hrec
  | some env =>
    cases hfs : objectEntries c "" (fieldCalls fields) with
    | none => simp [henv, hfs] at hrec
    | some fs =>
      simp only [henv, hfs, Option.map_some', Option.some.injEq] at hrec
      subst hrec
      obtain ⟨ds, hfin⟩ := final_entries c enc cfg ent fields env fs hcfg henv hfs
      have hstack : stackEntries cfg ent (finalPrefix "" (fieldCalls fields) ++ cfg.StacktraceKey)
          = stackEntries cfg ent cfg.StacktraceKey := by
        rcases hns with h | h | h
        · simp [stackEntries, h]
        · simp [stackEntries, h]
        · rw [finalPrefix_no_namespace "" fields h]; simp
      rw [hstack] at hfin
      simp [encoder.EncodeEntry, hfin, encoder.write, encoder.clone, getEncoder, encoderPool.New,
        Value.serialize, serializeElems, Prim.encode]

theorem msgpack_prim_ne (p : Prim) : p.encode msgpack ≠ [0xc3, 0xc3] := by
  cases p with
  | String val =>
    simp only [Prim.encode, msgpack, msgpack.EncodeString, msgpack.strLen]
    split_ifs
    · simp; omega
    · simp
    · simp [beBytes]
    · simp [beBytes]
  | Time val =>
    simp only [Prim.encode, msgpack, msgpack.EncodeTime]
    split_ifs <;> simp
  | Bin val =>
    simp only [Prim.encode, msgpack, msgpack.EncodeBytes]
    split_ifs <;> simp [beBytes]
  | Bool val => cases val <;> simp [Prim.encode, msgpack, msgpack.EncodeBool]
  | Float64 val => simp [Prim.encode, msgpack, msgpack.EncodeFloat64]
  | Float32 val => simp [Prim.encode, msgpack, msgpack.EncodeFloat32]
  | Int val =>
    simp only [Prim.encode, msgpack, msgpack.EncodeInt, msgpack.EncodeUint, msgpack.EncodeUint8,
      msgpack.EncodeUint16, msgpack.EncodeUint32, msgpack.EncodeUint64, msgpack.EncodeInt8,
      msgpack.EncodeInt16, msgpack.EncodeInt32, msgpack.EncodeInt64]
    split_ifs <;> simp
  | Int64 val => simp [Prim.encode, msgpack, msgpack.EncodeInt64]
  | Int32 val => simp [Prim.encode, msgpack, msgpack.EncodeInt32]
  | Int16 val => simp [Prim.encode, msgpack, msgpack.EncodeInt16]
  | Int8 val => simp [Prim.encode, msgpack, msgpack.EncodeInt8]
  | Uint val =>
    simp only [Prim.encode, msgpack, msgpack.EncodeUint, msgpack.EncodeUint8,
      msgpack.EncodeUint16, msgpack.EncodeUint32, msgpack.EncodeUint64]
    split_ifs <;> simp
  | Uint64 val => simp [Prim.encode, msgpack, msgpack.EncodeUint64]
  | Uint32 val => simp [Prim.encode, msgpack, msgpack.EncodeUint32]
  | Uint16 val => simp [Prim.encode, msgpack, msgpack.EncodeUint16]
  | Uint8 val => simp [Prim.encode, msgpack, msgpack.EncodeUint8]
  | Reflected val =>
    cases val with
    | Nil => simp [Prim.encode, msgpack, msgpack.Encode]
    | Bool b => cases b <;> simp [Prim.encode, msgpack, msgpack.Encode, msgpack.EncodeBool]
    | Int64 n => simp [Prim.encode, msgpack, msgpack.Encode, msgpack.EncodeInt64]
    | String s =>
      simp only [Prim.encode, msgpack, msgpack.Encode, msgpack.EncodeString, msgpack.strLen]
      split_ifs
      · simp; omega
      · simp
      · simp [beBytes]
      · simp [beBytes]
    | Unsupported typ => simp [Prim.encode, msgpack, msgpack.Encode]

theorem msgpack_value_ne (v : Value) : v.serialize msgpack ≠ [0xc3, 0xc3] := by
  cases v with
  | prim p => simpa [Value.serialize] using msgpack_prim_ne p
  | array elems =>
    simp only [Value.serialize, msgpack, msgpack.EncodeArrayLen]
    split_ifs
    · simp; omega
    · simp [beBytes]
    · simp [beBytes]
  | map entries =>
    simp only [Value.serialize, msgpack, msgpack.EncodeMapLen]
    split_ifs
    · simp; omega
    · simp [beBytes]
    · simp [beBytes]

theorem msgpack_key_split (k : String) (rest : Bytes)
    (h : msgpack.EncodeString k ++ rest = [0xa1, 0x4c, 0xc3, 0xc3]) : rest = [0xc3, 0xc3] := by
  simp only [msgpack.EncodeString, msgpack.strLen] at h
  generalize utf8 k = u at h
  split_ifs at h with h1 h2 h3
  · simp at h
    obtain ⟨hl, h⟩ := h
    have hl1 : u.length = 1 := by omega
    match u, hl1, h with
    | [x], _, h =>
      simp at h
      exact h.2
  · simp at h
  · simp [beBytes] at h
  · simp [beBytes] at h

/-- C2 fails as stated: with a level callback that appends two values the scope
`final` has map-entry count 1 and buffer `a1 4c c3 c3` (the key `"L"` followed
by two values), which is not the concatenation of one encoded key/value
pair. -/
theorem map_length_differs_from_pairs_written :
    ∃ final : encoder,
      EncodeEntry.final msgpack (NewEncoder doubleLevelConfig) testEntry [] = Except.ok final
      ∧ final.mapSize = 1
      ∧ final.buf = [0xa1, 0x4c, 0xc3, 0xc3]
      ∧ ¬ ∃ entries : List (String × Value),
          entries.length = final.mapSize ∧ final.buf = serializeEntries msgpack entries := by
  refine ⟨_, rfl, rfl, by decide, ?_⟩
  rintro ⟨entries, hlen, hbuf⟩
  have hb : serializeEntries msgpack entries = [0xa1, 0x4c, 0xc3, 0xc3] := by
    rw [← hbuf]; decide
  match entries, hlen with
  | [(k, v)], _ =>
    simp only [serializeEntries, List.append_nil] at hb
    exact msgpack_value_ne v (msgpack_key_split k _ hb)

/-- C3 fails as stated: on a field list holding a complex-typed field (no
marshaler involved) `EncodeEntry` panics and returns no record to decode. -/
theorem EncodeEntry_panics_on_complex_field :
    (NewEncoder testConfig).EncodeEntry msgpack testEntry [.Scalar "c" (.Complex128 0 0)]
        = Except.error "complex numbers not supported in msgpack"
    ∧ ¬ ∃ out : Bytes × Option GoError,
        (NewEncoder testConfig).EncodeEntry msgpack testEntry [.Scalar "c" (.Complex128 0 0)]
          = Except.ok out := by
  have h : (NewEncoder testConfig).EncodeEntry msgpack testEntry [.Scalar "c" (.Complex128 0 0)]
      = Except.error "complex numbers not supported in msgpack" := by decide
  refine ⟨h, ?_⟩
  rintro ⟨out, hout⟩
  rw [h] at hout
  exact Except.noConfusion hout

theorem Heap.get_set_same (h : Heap) (p : Nat) (e : encoder) (hp : p < h.objs.length) :
    (h.set p e).get p = e := by
  simp [Heap.get, Heap.set, List.getD_eq_getElem?_getD, hp]

theorem Heap.get_set_other (h : Heap) (p q : Nat) (e : encoder) (hne : p ≠ q) :
    (h.set p e).get q = h.get q := by
  simp [Heap.get, Heap.set, List.getD_eq_getElem?_getD, List.getElem?_set_ne hne]

theorem Heap.set_length (h : Heap) (p : Nat) (e : encoder) :
    (h.set p e).objs.length = h.objs.length := by
  simp [Heap.set]

theorem encoder.Clone_eq (enc : encoder) : enc.Clone = enc := by
  cases enc
  simp [encoder.Clone, encoder.clone, encoder.write, getEncoder, encoderPool.New]

/-- The instance handed out by the pool is allocated, differs from every live
address, has an empty buffer, and no other instance is touched. -/
theorem Heap.getEncoder_spec (h : Heap) (pick enc : Nat) (hblank : h.PoolBlank)
    (hlive : h.Live enc) :
    (h.getEncoder pick).1 ≠ enc
    ∧ (h.getEncoder pick).1 < (h.getEncoder pick).2.objs.length
    ∧ ((h.getEncoder pick).2.get (h.getEncoder pick).1).buf = []
    ∧ (h.getEncoder pick).2.get enc = h.get enc := by
  unfold Heap.getEncoder
  cases hp : h.pool.get? pick with
  | none =>
    simp only []
    refine ⟨Nat.ne_of_gt hlive.1, by simp, ?_, ?_⟩
    · simp [Heap.get, List.getD_eq_getElem?_getD, encoderPool.New]
    · simp [Heap.get, List.getD_eq_getElem?_getD, List.getElem?_append_left hlive.1]
  | some p =>
    simp only []
    have hmem : p ∈ h.pool := List.get?_mem hp
    refine ⟨?_, (hblank p hmem).1, (hblank p hmem).2, rfl⟩
    intro heq
    exact hlive.2 (heq ▸ hmem)

/-- C7: on a heap whose pooled instances are blank, `Clone()` of a live encoder
`E` returns an address `C` different from `E` whose instance equals `E`'s in
buffer, both counts, namespace prefix and configuration, and leaves `E` as it
was; a method then called on `C` leaves `E` unchanged, and a method called on
`E` leaves `C` unchanged. -/
theorem Clone_copies_and_isolates (h : Heap) (pick enc : Nat) (hblank : h.PoolBlank)
    (hlive : h.Live enc) :
    (h.get enc).Clone = h.get enc
    ∧ (h.Clone pick enc).1 ≠ enc
    ∧ (h.Clone pick enc).2.get (h.Clone pick enc).1 = h.get enc
    ∧ (h.Clone pick enc).2.get enc = h.get enc
    ∧ ∀ method : encoder → encoder,
        ((h.Clone pick enc).2.call (h.Clone pick enc).1 method).get enc = h.get enc
        ∧ ((h.Clone pick enc).2.call enc method).get (h.Clone pick enc).1
            = (h.Clone pick enc).2.get (h.Clone pick enc).1 := by
  obtain ⟨hne, hlt, hbuf, hsame⟩ := Heap.getEncoder_spec h pick enc hblank hlive
  have key : (h.Clone pick enc).1 = (h.getEncoder pick).1 := rfl
  have hget1 : (h.Clone pick enc).2.get (h.Clone pick enc).1 = h.get enc := by
    simp only [Heap.Clone, Heap.clone, Heap.call]
    simp only [Heap.get_set_same, Heap.set_length, hlt, Heap.get_set_other _ _ _ _ hne, hsame]
    cases hx : h.get enc
    simp [encoder.write, hbuf]
  have hget2 : (h.Clone pick enc).2.get enc = h.get enc := by
    simp only [Heap.Clone, Heap.clone, Heap.call]
    simp only [Heap.get_set_other _ _ _ _ hne, hsame]
  refine ⟨encoder.Clone_eq _, hne, hget1, hget2, fun method => ⟨?_, ?_⟩⟩
  · rw [Heap.call, Heap.get_set_other _ _ _ _ (by rw [key]; exact hne), hget2]
  · rw [Heap.call, Heap.get_set_other _ _ _ _ (by rw [key]; exact fun h => hne h.symm)]

/-- Witness of C7: a heap with a live encoder holding one field and one blank
pooled instance. -/
theorem Clone_copies_and_isolates_witness :
    (testHeap.PoolBlank ∧ testHeap.Live 0)
    ∧ (testHeap.Clone 0 0).1 ≠ 0
    ∧ (testHeap.Clone 0 0).2.get (testHeap.Clone 0 0).1 = testHeap.get 0
    ∧ ((testHeap.Clone 0 0).2.call (testHeap.Clone 0 0).1
          (fun e => e.AddInt msgpack "n" 1)).get 0 = testHeap.get 0 := by
  have hb : testHeap.PoolBlank := by
    intro p hp
    simp [testHeap] at hp
    subst hp
    exact ⟨by decide, rfl⟩
  have hl : testHeap.Live 0 := ⟨by decide, by decide⟩
  have h := Clone_copies_and_isolates testHeap 0 0 hb hl
  exact ⟨⟨hb, hl⟩, h.2.1, h.2.2.1, (h.2.2.2.2 _).1⟩

/-- Witness of C2 (amended): the concrete scenario of the specification. -/
theorem EncodeEntry_frame_and_count_witness :
    envelopeEntries msgpack testConfig testEntry
        = some [("L", .prim (.String "info")), ("T", .prim (.Time ⟨1529426022, 99⟩)),
            ("N", .prim (.String "bob")), ("M", .prim (.String "lob law"))]
    ∧ objectEntries msgpack "" (fieldCalls testFields)
        = some [("so", .prim (.String "passes")), ("answer", .prim (.Int64 42))]
    ∧ ∃ final : encoder,
        EncodeEntry.final msgpack (NewEncoder testConfig) testEntry testFields = Except.ok final
        ∧ (NewEncoder testConfig).EncodeEntry msgpack testEntry testFields = Except.ok
            (msgpack.EncodeArrayLen 2 ++ msgpack.EncodeTime testEntry.Time
              ++ msgpack.EncodeMapLen final.mapSize ++ final.buf, none)
        ∧ ∃ entries : List (String × Value),
            entries.length = final.mapSize ∧ final.buf = serializeEntries msgpack entries :=
  ⟨rfl, rfl, EncodeEntry_frame_and_count msgpack (NewEncoder testConfig) testConfig testEntry
    testFields _ _ rfl rfl rfl⟩

/-- Witness of C3 (amended): the concrete scenario of the specification; the
returned bytes decode to `[T, {L: info, T: T, N: bob, M: lob law, so: passes,
answer: 42}]`. -/
theorem EncodeEntry_serializes_expected_record_witness :
    expectedRecord msgpack testConfig testEntry testFields = some testRecord
    ∧ (NewEncoder testConfig).EncodeEntry msgpack testEntry testFields
        = Except.ok (testRecord.serialize msgpack, none)
    ∧ msgpack.Unmarshal (testRecord.serialize msgpack) = some testDecoded :=
  ⟨rfl, EncodeEntry_serializes_expected_record msgpack (NewEncoder testConfig) testConfig
    testEntry testFields testRecord rfl rfl (Or.inl rfl), rfl⟩

/-- Witness of C8: the namespaces `a`, `b` and the key `c`. -/
theorem OpenNamespace_concatenates_witness :
    (AddValue.String "v").prim = some (Prim.String "v")
    ∧ ∃ e1 : encoder,
        (["a", "b"].foldl encoder.OpenNamespace (NewEncoder testConfig)).Add msgpack "c"
            (.String "v") = Except.ok e1
        ∧ e1.buf = (NewEncoder testConfig).buf
            ++ msgpack.EncodeString ((NewEncoder testConfig).nsPrefix
                ++ namespacePrefix ["a", "b"] ++ "c")
            ++ (Prim.String "v").encode msgpack :=
  ⟨rfl, (OpenNamespace_concatenates msgpack (NewEncoder testConfig) "a" "c" ["a", "b"]
    (.String "v") (.String "v") rfl).2.2.2.1⟩

/-- Witness of C9: level `debug` with a level callback that does nothing. -/
theorem fallback_on_noop_formatter_witness :
    noopLevelConfig.LevelKey ≠ ""
    ∧ ∃ e1 : encoder,
        EncodeEntry.level msgpack noopLevelConfig { testEntry with Level := .DebugLevel }
            (NewEncoder noopLevelConfig).clone = Except.ok e1
        ∧ e1.mapSize = (NewEncoder noopLevelConfig).clone.mapSize + 1
        ∧ e1.buf = (NewEncoder noopLevelConfig).clone.buf
            ++ msgpack.EncodeString noopLevelConfig.LevelKey
            ++ (if callbackBytes msgpack [] = [] then msgpack.EncodeString "debug"
                else callbackBytes msgpack []) :=
  ⟨by decide, (fallback_on_noop_formatter msgpack noopLevelConfig
    { testEntry with Level := .DebugLevel } (NewEncoder noopLevelConfig).clone
    (fun _ => []) (fun _ => []) rfl rfl (by simp) (by simp [noopLevelConfig,
      zapcore.FullNameEncoder, AppendValue.prim]) (by simp)).1 (by decide)⟩

/-- Witness of C10: a configuration with an empty message key. -/
theorem omission_gating_witness :
    (NewEncoder noopLevelConfig).EncoderConfig = some noopLevelConfig
    ∧ noopLevelConfig.MessageKey = ""
    ∧ ∀ m, (NewEncoder noopLevelConfig).EncodeEntry msgpack { testEntry with Message := m } []
        = (NewEncoder noopLevelConfig).EncodeEntry msgpack testEntry [] :=
  ⟨rfl, rfl, ((omission_gating msgpack (NewEncoder noopLevelConfig) noopLevelConfig testEntry []
    (NewEncoder noopLevelConfig) rfl).1 rfl).2⟩

/-- The shape shared by the level, name and caller blocks of `EncodeEntry`,
for a callback that ran to completion. -/
theorem block_frame (c : Codec) (calls : List AppendValue) (fb key : String) (final f2 : encoder)
    (hrun : (final.incMapSize.write (c.EncodeString key)).runAppends c calls = .ok f2) :
    (if (final.incMapSize.write (c.EncodeString key)).buf.length = f2.buf.length then
        f2.write (c.EncodeString fb)
      else f2) =
      final.advance (entryBytes c key calls fb) 1 calls.length := by
  have hb := runAppends_bytes c calls _ f2 hrun
  rw [hb]
  by_cases hz : callbackBytes c calls = []
  · simp [hz, entryBytes, encoder.advance, encoder.write, encoder.incMapSize]
  · have : (callbackBytes c calls).length ≠ 0 := by simpa using hz
    simp [hz, entryBytes, encoder.advance, encoder.write, encoder.incMapSize, this]

theorem level_frame (c : Codec) (cfg : zapcore.EncoderConfig) (ent : zapcore.Entry)
    (e e1 : encoder) (h : EncodeEntry.level c cfg ent e = .ok e1) :
    ∃ dm ds, e1 = e.advance (levelBytes c cfg ent) dm ds := by
  unfold EncodeEntry.level at h
  unfold levelBytes
  by_cases hk : cfg.LevelKey ≠ ""
  · rw [if_pos hk] at h ⊢
    cases hf : cfg.EncodeLevel with
    | none => simp [hf] at h
    | some f =>
      simp only [hf] at h ⊢
      cases hr : (e.incMapSize.write (c.EncodeString cfg.LevelKey)).runAppends c (f ent.Level) with
      | error p => simp [hr] at h
      | ok f2 =>
        simp only [hr] at h
        have hb := block_frame c _ ent.Level.String cfg.LevelKey e f2 hr
        refine ⟨1, (f ent.Level).length, ?_⟩
        rw [← hb]
        split at h
        · rename_i heq; rw [if_pos heq]; exact (Except.ok.inj h).symm
        · rename_i heq; rw [if_neg heq]; exact (Except.ok.inj h).symm
  · rw [if_neg hk] at h ⊢
    exact ⟨0, 0, by rw [← Except.ok.inj h]; simp⟩

theorem name_frame (c : Codec) (cfg : zapcore.EncoderConfig) (ent : zapcore.Entry)
    (e e1 : encoder) (h : EncodeEntry.name c cfg ent e = .ok e1) :
    ∃ dm ds, e1 = e.advance (nameBytes c cfg ent) dm ds := by
  unfold EncodeEntry.name at h
  unfold nameBytes
  by_cases hk : ent.LoggerName ≠ "" ∧ cfg.NameKey ≠ ""
  · rw [if_pos hk] at h ⊢
    cases hN : cfg.EncodeName with
    | none =>
      simp only [hN, Option.getD] at h ⊢
      cases hr : (e.incMapSize.write (c.EncodeString cfg.NameKey)).runAppends c
          (zapcore.FullNameEncoder ent.LoggerName) with
      | error p => simp [hr] at h
      | ok f2 =>
        simp only [hr] at h
        have hb := block_frame c _ ent.LoggerName cfg.NameKey e f2 hr
        refine ⟨1, (zapcore.FullNameEncoder ent.LoggerName).length, ?_⟩
        rw [← hb]
        split at h
        · rename_i heq; rw [if_pos heq]; exact (Except.ok.inj h).symm
        · rename_i heq; rw [if_neg heq]; exact (Except.ok.inj h).symm
    | some g =>
      simp only [hN, Option.getD] at h ⊢
      cases hr : (e.incMapSize.write (c.EncodeString cfg.NameKey)).runAppends c
          (g ent.LoggerName) with
      | error p => simp [hr] at h
      | ok f2 =>
        simp only [hr] at h
        have hb := block_frame c _ ent.LoggerName cfg.NameKey e f2 hr
        refine ⟨1, (g ent.LoggerName).length, ?_⟩
        rw [← hb]
        split at h
        · rename_i heq; rw [if_pos heq]; exact (Except.ok.inj h).symm
        · rename_i heq; rw [if_neg heq]; exact (Except.ok.inj h).symm
  · rw [if_neg hk] at h ⊢
    exact ⟨0, 0, by rw [← Except.ok.inj h]; simp⟩

theorem caller_frame (c : Codec) (cfg : zapcore.EncoderConfig) (ent : zapcore.Entry)
    (e e1 : encoder) (h : EncodeEntry.caller c cfg ent e = .ok e1) :
    ∃ dm ds, e1 = e.advance (callerBytes c cfg ent) dm ds := by
  unfold EncodeEntry.caller at h
  unfold callerBytes
  by_cases hk : ent.Caller.Defined = true ∧ cfg.CallerKey ≠ ""
  · rw [if_pos hk] at h ⊢
    cases hf : cfg.EncodeCaller with
    | none => simp [hf] at h
    | some f =>
      simp only [hf] at h ⊢
      cases hr : (e.incMapSize.write (c.EncodeString cfg.CallerKey)).runAppends c
          (f ent.Caller) with
      | error p => simp [hr] at h
      | ok f2 =>
        simp only [hr] at h
        have hb := block_frame c _ ent.Caller.String cfg.CallerKey e f2 hr
        refine ⟨1, (f ent.Caller).length, ?_⟩
        rw [← hb]
        split at h
        · rename_i heq; rw [if_pos heq]; exact (Except.ok.inj h).symm
        · rename_i heq; rw [if_neg heq]; exact (Except.ok.inj h).symm
  · rw [if_neg hk] at h ⊢
    exact ⟨0, 0, by rw [← Except.ok.inj h]; simp⟩

theorem time_frame (c : Codec) (cfg : zapcore.EncoderConfig) (ent : zapcore.Entry)
    (e : encoder) (hns : e.nsPrefix = "") :
    ∃ dm, EncodeEntry.time c cfg ent e = e.advance (timeBytes c cfg ent) dm 0 := by
  unfold EncodeEntry.time timeBytes
  by_cases hk : cfg.TimeKey = ""
  · exact ⟨0, by simp [hk]⟩
  · exact ⟨1, by simp [hk, encoder.AddTime, encoder.encodeKey, encoder.write,
      encoder.incMapSize, encoder.advance, hns]⟩

theorem message_frame (c : Codec) (cfg : zapcore.EncoderConfig) (ent : zapcore.Entry)
    (e : encoder) :
    ∃ dm, EncodeEntry.message c cfg cfg ent e = e.advance (messageBytes c cfg ent) dm 0 := by
  unfold EncodeEntry.message messageBytes
  by_cases hk : cfg.MessageKey = ""
  · exact ⟨0, by simp [hk]⟩
  · exact ⟨1, by simp [hk, encoder.write, encoder.incMapSize, encoder.advance]⟩

theorem stack_frame (c : Codec) (cfg : zapcore.EncoderConfig) (ent : zapcore.Entry)
    (e : encoder) :
    ∃ dm, EncodeEntry.stack c cfg ent e =
      e.advance (stackBytes c cfg ent (e.nsPrefix ++ cfg.StacktraceKey)) dm 0 := by
  unfold EncodeEntry.stack stackBytes
  by_cases hk : ent.Stack ≠ "" ∧ cfg.StacktraceKey ≠ ""
  · rw [if_pos hk, if_pos hk]
    exact ⟨1, by simp [encoder.AddString, encoder.encodeKey, encoder.write,
      encoder.incMapSize, encoder.advance]⟩
  · rw [if_neg hk, if_neg hk]
    exact ⟨0, by simp⟩

theorem encodeArray_transfer (c : Codec) (e e2 : encoder) (arr : ArrayMarshaler)
    (r : encoder × Option GoError) (hcfg : e2.EncoderConfig = e.EncoderConfig)
    (h : e.encodeArray c arr = .ok r) :
    ∃ b, r.1 = e.advance b 0 0 ∧ e2.encodeArray c arr = .ok (e2.advance b 0 0, r.2) := by
  cases arr with
  | mk calls ret =>
    rw [encoder.encodeArray] at h ⊢
    have hc : e2.clone = e.clone := by simp [encoder.clone, hcfg]
    rw [hc]
    cases hm : MarshalLogArray c calls e.clone with
    | error p => simp [hm] at h
    | ok s =>
      cases ret with
      | none =>
        simp [hm] at h; subst h
        exact ⟨c.EncodeArrayLen s.sliceLen ++ s.buf, by simp [encoder.advance, encoder.write],
          by simp [encoder.advance, encoder.write]⟩
      | some err =>
        simp [hm] at h; subst h
        exact ⟨[], by simp, by simp⟩

theorem encodeObject_transfer (c : Codec) (e e2 : encoder) (obj : ObjectMarshaler)
    (r : encoder × Option GoError) (hcfg : e2.EncoderConfig = e.EncoderConfig)
    (h : e.encodeObject c obj = .ok r) :
    ∃ b, r.1 = e.advance b 0 0 ∧ e2.encodeObject c obj = .ok (e2.advance b 0 0, r.2) := by
  cases obj with
  | mk calls ret =>
    rw [encoder.encodeObject] at h ⊢
    have hc : e2.clone = e.clone := by simp [encoder.clone, hcfg]
    rw [hc]
    cases hm : MarshalLogObject c calls e.clone with
    | error p => simp [hm] at h
    | ok s =>
      cases ret with
      | none =>
        simp [hm] at h; subst h
        exact ⟨c.EncodeMapLen s.mapSize ++ s.buf, by simp [encoder.advance, encoder.write],
          by simp [encoder.advance, encoder.write]⟩
      | some err =>
        simp [hm] at h; subst h
        exact ⟨[], by simp, by simp⟩

theorem AddTo_frame (c : Codec) (f : zapcore.Field) (e e1 : encoder)
    (h : f.AddTo c e = .ok e1) :
    ∃ dm, e1 = { e.advance (fieldBytes c e.EncoderConfig e.nsPrefix f) dm 0 with
                 nsPrefix := finalPrefix e.nsPrefix (fieldCalls [f]) } := by
  cases f with
  | Array key arr =>
    simp only [zapcore.Field.AddTo, encoder.AddArray] at h
    cases hr : encoder.encodeArray c (e.incMapSize.encodeKey c key) arr with
    | error p => simp [hr] at h
    | ok r =>
      simp only [hr] at h
      obtain ⟨b, h1, h2⟩ := encodeArray_transfer c (e.incMapSize.encodeKey c key)
        ((scope e.EncoderConfig e.nsPrefix).incMapSize.encodeKey c key) arr r rfl hr
      have h' := Except.ok.inj h
      subst h'
      obtain ⟨r1, r2⟩ := r
      simp only at h1 h2 ⊢
      subst h1
      cases r2 with
      | none =>
        refine ⟨1, ?_⟩
        simp only [fieldBytes, zapcore.Field.AddTo, encoder.AddArray, h2]
        simp [zapcore.Field.addError, scope, encoderPool.New, encoder.advance, fieldCalls,
          zapcore.Field.call, finalPrefix, encoder.encodeKey, encoder.write,
          encoder.incMapSize]
      | some err =>
        refine ⟨2, ?_⟩
        simp only [fieldBytes, zapcore.Field.AddTo, encoder.AddArray, h2]
        simp [zapcore.Field.addError, scope, encoderPool.New, encoder.advance, fieldCalls,
          zapcore.Field.call, finalPrefix, encoder.encodeKey, encoder.write,
          encoder.incMapSize, encoder.AddString]
  | Object key obj =>
    simp only [zapcore.Field.AddTo, encoder.AddObject] at h
    cases hr : encoder.encodeObject c (e.incMapSize.encodeKey c key) obj with
    | error p => simp [hr] at h
    | ok r =>
      simp only [hr] at h
      obtain ⟨b, h1, h2⟩ := encodeObject_transfer c (e.incMapSize.encodeKey c key)
        ((scope e.EncoderConfig e.nsPrefix).incMapSize.encodeKey c key) obj r rfl hr
      have h' := Except.ok.inj h
      subst h'
      obtain ⟨r1, r2⟩ := r
      simp only at h1 h2 ⊢
      subst h1
      cases r2 with
      | none =>
        refine ⟨1, ?_⟩
        simp only [fieldBytes, zapcore.Field.AddTo, encoder.AddObject, h2]
        simp [zapcore.Field.addError, scope, encoderPool.New, encoder.advance, fieldCalls,
          zapcore.Field.call, finalPrefix, encoder.encodeKey, encoder.write,
          encoder.incMapSize]
      | some err =>
        refine ⟨2, ?_⟩
        simp only [fieldBytes, zapcore.Field.AddTo, encoder.AddObject, h2]
        simp [zapcore.Field.addError, scope, encoderPool.New, encoder.advance, fieldCalls,
          zapcore.Field.call, finalPrefix, encoder.encodeKey, encoder.write,
          encoder.incMapSize, encoder.AddString]
  | Scalar key val =>
    simp only [zapcore.Field.AddTo] at h
    rw [Add_eq] at h
    cases hp : val.prim with
    | none => simp [hp] at h
    | some p =>
      simp [hp] at h; subst h
      refine ⟨1, ?_⟩
      simp [fieldBytes, zapcore.Field.AddTo, Add_eq, hp, scope, encoderPool.New,
        encoder.advance, fieldCalls, zapcore.Field.call, finalPrefix]
  | Reflect key val =>
    simp only [zapcore.Field.AddTo] at h
    have h' := Except.ok.inj h
    subst h'
    cases he : (c.Encode val).2 with
    | none =>
      exact ⟨1, by simp [fieldBytes, zapcore.Field.AddTo, encoder.AddReflected, he,
        zapcore.Field.addError, scope, encoderPool.New, encoder.advance, fieldCalls,
        zapcore.Field.call, finalPrefix, encoder.encodeKey, encoder.write,
        encoder.incMapSize]⟩
    | some err =>
      exact ⟨2, by simp [fieldBytes, zapcore.Field.AddTo, encoder.AddReflected, he,
        zapcore.Field.addError, scope, encoderPool.New, encoder.advance, fieldCalls,
        zapcore.Field.call, finalPrefix, encoder.encodeKey, encoder.write,
        encoder.incMapSize, encoder.AddString]⟩
  | Namespace key =>
    simp only [zapcore.Field.AddTo] at h
    have h' := Except.ok.inj h
    subst h'
    exact ⟨0, by simp [fieldBytes, zapcore.Field.AddTo, scope, encoderPool.New,
      encoder.advance, fieldCalls, zapcore.Field.call, finalPrefix, encoder.OpenNamespace]⟩
  | Stringer key str =>
    simp only [zapcore.Field.AddTo] at h
    have h' := Except.ok.inj h
    subst h'
    exact ⟨1, by simp [fieldBytes, zapcore.Field.AddTo, scope, encoderPool.New,
      encoder.advance, fieldCalls, zapcore.Field.call, finalPrefix, encoder.AddString,
      encoder.encodeKey, encoder.write, encoder.incMapSize]⟩
  | Skip =>
    simp only [zapcore.Field.AddTo] at h
    have h' := Except.ok.inj h
    subst h'
    exact ⟨0, by simp [fieldBytes, zapcore.Field.AddTo, scope, encoderPool.New,
      encoder.advance, fieldCalls, zapcore.Field.call, finalPrefix]⟩

theorem finalPrefix_append (a b : List ObjectCall) :
    ∀ ns : String, finalPrefix ns (a ++ b) = finalPrefix (finalPrefix ns a) b := by
  induction a with
  | nil => intro ns; simp [finalPrefix]
  | cons x xs ih =>
    intro ns
    cases x <;> simp [finalPrefix, ih]

theorem fieldCalls_cons (f : zapcore.Field) (rest : List zapcore.Field) :
    fieldCalls (f :: rest) = fieldCalls [f] ++ fieldCalls rest := by
  simp only [fieldCalls]
  rw [← List.filterMap_append]
  rfl

theorem fields_frame (c : Codec) :
    ∀ (fields : List zapcore.Field) (e e1 : encoder), EncodeEntry.fields c fields e = .ok e1 →
      ∃ dm, e1 = { e.advance (fieldsBytes c e.EncoderConfig e.nsPrefix fields) dm 0 with
                   nsPrefix := finalPrefix e.nsPrefix (fieldCalls fields) }
  | [], e, e1, h => by
    simp only [EncodeEntry.fields] at h
    have h' := Except.ok.inj h
    subst h'
    exact ⟨0, by simp [fieldsBytes, fieldCalls, finalPrefix, encoder.advance]⟩
  | f :: rest, e, e1, h => by
    rw [EncodeEntry.fields] at h
    cases hr : f.AddTo c e with
    | error p => simp [hr] at h
    | ok e2 =>
      simp only [hr] at h
      obtain ⟨d1, h1⟩ := AddTo_frame c f e e2 hr
      obtain ⟨d2, h2⟩ := fields_frame c rest e2 e1 h
      refine ⟨d1 + d2, ?_⟩
      rw [h2, h1, fieldCalls_cons f rest, finalPrefix_append]
      simp [fieldsBytes, encoder.advance, Nat.add_assoc]

/-- The buffer of the scope `final` of `EncodeEntry`, whenever the scope is
completed: the bytes of the level, time, name, caller and message entries, of
the fields in list order, and of the stack trace, in this order. -/
theorem final_order (c : Codec) (enc : encoder) (cfg : zapcore.EncoderConfig)
    (ent : zapcore.Entry) (fields : List zapcore.Field) (final : encoder)
    (hcfg : enc.EncoderConfig = some cfg)
    (hfin : EncodeEntry.final c enc ent fields = .ok final) :
    final.buf = levelBytes c cfg ent ++ timeBytes c cfg ent ++ nameBytes c cfg ent
      ++ callerBytes c cfg ent ++ messageBytes c cfg ent ++ fieldsBytes c (some cfg) "" fields
      ++ stackBytes c cfg ent (finalPrefix "" (fieldCalls fields) ++ cfg.StacktraceKey) := by
  unfold EncodeEntry.final at hfin
  have hclone : enc.clone.EncoderConfig = some cfg := by simp [encoder.clone, hcfg]
  simp only [hclone, hcfg] at hfin
  cases h1 : EncodeEntry.level c cfg ent enc.clone with
  | error p => simp [h1] at hfin
  | ok f1 =>
    simp only [h1] at hfin
    obtain ⟨m1, s1, e1⟩ := level_frame c cfg ent _ f1 h1
    obtain ⟨m2, e2⟩ := time_frame c cfg ent f1 (by rw [e1]; rfl)
    cases h3 : EncodeEntry.name c cfg ent (EncodeEntry.time c cfg ent f1) with
    | error p => simp [h3] at hfin
    | ok f3 =>
      simp only [h3] at hfin
      obtain ⟨m3, s3, e3⟩ := name_frame c cfg ent _ f3 h3
      cases h4 : EncodeEntry.caller c cfg ent f3 with
      | error p => simp [h4] at hfin
      | ok f4 =>
        simp only [h4] at hfin
        obtain ⟨m4, s4, e4⟩ := caller_frame c cfg ent _ f4 h4
        obtain ⟨m5, e5⟩ := message_frame c cfg ent f4
        cases h6 : EncodeEntry.fields c fields (EncodeEntry.message c cfg cfg ent f4) with
        | error p => simp [h6] at hfin
        | ok f6 =>
          simp only [h6] at hfin
          obtain ⟨m6, e6⟩ := fields_frame c fields _ f6 h6
          obtain ⟨m7, e7⟩ := stack_frame c cfg ent f6
          have hf := Except.ok.inj hfin
          rw [← hf, e7, e6, e5, e4, e3, e2, e1]
          simp [encoder.advance, encoder.clone, getEncoder, encoderPool.New, hcfg]

/-- C11: whenever the map scope `final` of `EncodeEntry` is completed, its
buffer (the content of the output map) is the concatenation, in this order, of
the bytes of the level, time, logger-name, caller and message entries (each
empty when gated out), of the bytes the fields write, field after field in
list order, and of the stack-trace entry last; when the callbacks and the
fields write complete entries, it is the serialisation of the entry list in
that same order. -/
theorem entries_written_in_fixed_order (c : Codec) (enc : encoder)
    (cfg : zapcore.EncoderConfig) (ent : zapcore.Entry) (fields : List zapcore.Field)
    (final : encoder) (hcfg : enc.EncoderConfig = some cfg)
    (hfin : EncodeEntry.final c enc ent fields = Except.ok final) :
    enc.EncodeEntry c ent fields = Except.ok
        (c.EncodeArrayLen 2 ++ c.EncodeTime ent.Time ++ c.EncodeMapLen final.mapSize
          ++ final.buf, none)
    ∧ final.buf = levelBytes c cfg ent ++ timeBytes c cfg ent ++ nameBytes c cfg ent
        ++ callerBytes c cfg ent ++ messageBytes c cfg ent ++ fieldsBytes c (some cfg) "" fields
        ++ stackBytes c cfg ent (finalPrefix "" (fieldCalls fields) ++ cfg.StacktraceKey)
    ∧ (∀ (f : zapcore.Field) (rest : List zapcore.Field) (ns : String),
        fieldsBytes c (some cfg) ns (f :: rest) = fieldBytes c (some cfg) ns f
          ++ fieldsBytes c (some cfg) (finalPrefix ns (fieldCalls [f])) rest)
    ∧ (∀ l n cl fs : List (String × Value),
        levelEntries c cfg ent = some l → nameEntries c cfg ent = some n →
        callerEntries c cfg ent = some cl →
        objectEntries c "" (fieldCalls fields) = some fs →
        final.buf = serializeEntries c
          (l ++ timeEntries cfg ent ++ n ++ cl ++ messageEntries cfg ent ++ fs
            ++ stackEntries cfg ent (finalPrefix "" (fieldCalls fields) ++ cfg.StacktraceKey))) := by
  refine ⟨?_, final_order c enc cfg ent fields final hcfg hfin, fun f rest ns => rfl, ?_⟩
  · simp [encoder.EncodeEntry, hfin, encoder.write, encoder.clone, getEncoder, encoderPool.New]
  · intro l n cl fs hl hn hc hfs
    have henv : envelopeEntries c cfg ent
        = some (l ++ timeEntries cfg ent ++ n ++ cl ++ messageEntries cfg ent) := by
      simp [envelopeEntries, hl, hn, hc]
    obtain ⟨ds, h⟩ := final_entries c enc cfg ent fields _ fs hcfg henv hfs
    rw [hfin] at h
    rw [Except.ok.inj h]

/-- Witness of C11: the concrete scenario of the specification. -/
theorem entries_written_in_fixed_order_witness :
    ∃ final : encoder,
      EncodeEntry.final msgpack (NewEncoder testConfig) testEntry testFields = Except.ok final
      ∧ final.buf = levelBytes msgpack testConfig testEntry ++ timeBytes msgpack testConfig testEntry
        ++ nameBytes msgpack testConfig testEntry ++ callerBytes msgpack testConfig testEntry
        ++ messageBytes msgpack testConfig testEntry
        ++ fieldsBytes msgpack (some testConfig) "" testFields
        ++ stackBytes msgpack testConfig testEntry
            (finalPrefix "" (fieldCalls testFields) ++ testConfig.StacktraceKey) :=
  ⟨_, rfl, (entries_written_in_fixed_order msgpack (NewEncoder testConfig) testConfig testEntry
    testFields _ rfl rfl).2.1⟩

/-- C12 (the code departs from the intended key set): with a field that opens
the namespace `ns`, the stack-trace entry of the record is written under the
key `ns.S`, not under the configured stack-trace key `S` the specification
describes; a decoder finds the key `ns.S` in the map. -/
theorem stack_trace_key_takes_namespace :
    expectedEntries msgpack testConfig stackEntry namespaceFields
        = some [("L", .prim (.String "info")), ("T", .prim (.Time ⟨1529426022, 99⟩)),
            ("N", .prim (.String "bob")), ("M", .prim (.String "lob law")),
            ("ns.k", .prim (.Bool true)), ("S", .prim (.String "trace"))]
    ∧ (∃ final : encoder,
        EncodeEntry.final msgpack (NewEncoder testConfig) stackEntry namespaceFields
          = Except.ok final
        ∧ final.mapSize = 6
        ∧ final.buf = serializeEntries msgpack
            [("L", .prim (.String "info")), ("T", .prim (.Time ⟨1529426022, 99⟩)),
              ("N", .prim (.String "bob")), ("M", .prim (.String "lob law")),
              ("ns.k", .prim (.Bool true)), ("ns.S", .prim (.String "trace"))]
        ∧ final.buf ≠ serializeEntries msgpack
            [("L", .prim (.String "info")), ("T", .prim (.Time ⟨1529426022, 99⟩)),
              ("N", .prim (.String "bob")), ("M", .prim (.String "lob law")),
              ("ns.k", .prim (.Bool true)), ("S", .prim (.String "trace"))])
    ∧ (∃ out : Bytes,
        (NewEncoder testConfig).EncodeEntry msgpack stackEntry namespaceFields
          = Except.ok (out, none)
        ∧ msgpack.Unmarshal out = some
            (.Array [.Time ⟨1529426022, 99⟩,
              .Map [(.Str (utf8 "L"), .Str (utf8 "info")),
                (.Str (utf8 "T"), .Time ⟨1529426022, 99⟩),
                (.Str (utf8 "N"), .Str (utf8 "bob")), (.Str (utf8 "M"), .Str (utf8 "lob law")),
                (.Str (utf8 "ns.k"), .Bool true),
                (.Str (utf8 "ns.S"), .Str (utf8 "trace"))]])) := by
  refine ⟨rfl, ⟨_, rfl, rfl, rfl, by decide⟩, ⟨_, rfl, rfl⟩⟩

/-- C13: every scalar `Add*` method increments the map-entry count by one,
leaves the sequence-element count, the namespace prefix and the configuration
as they are, and appends to the buffer exactly the string encoding of
`nsPrefix ++ key` followed by the encoding of the value by the codec primitive
of the method's type. -/
theorem Add_counts_key_value (c : Codec) (enc : encoder) (key : String) :
    (∀ val, enc.AddBinary c key val = { enc with
        buf := enc.buf ++ c.EncodeString (enc.nsPrefix ++ key) ++ c.EncodeBytes val,
        mapSize := enc.mapSize + 1 })
    ∧ (∀ val, enc.AddByteString c key val = { enc with
        buf := enc.buf ++ c.EncodeString (enc.nsPrefix ++ key) ++ c.EncodeString val,
        mapSize := enc.mapSize + 1 })
    ∧ (∀ val, enc.AddBool c key val = { enc with
        buf := enc.buf ++ c.EncodeString (enc.nsPrefix ++ key) ++ c.EncodeBool val,
        mapSize := enc.mapSize + 1 })
    ∧ (∀ val, enc.AddDuration c key val = { enc with
        buf := enc.buf ++ c.EncodeString (enc.nsPrefix ++ key)
          ++ c.EncodeFloat64 (Duration.Seconds val),
        mapSize := enc.mapSize + 1 })
    ∧ (∀ val, enc.AddFloat64 c key val = { enc with
        buf := enc.buf ++ c.EncodeString (enc.nsPrefix ++ key) ++ c.EncodeFloat64 val,
        mapSize := enc.mapSize + 1 })
    ∧ (∀ val, enc.AddFloat32 c key val = { enc with
        buf := enc.buf ++ c.EncodeString (enc.nsPrefix ++ key) ++ c.EncodeFloat32 val,
        mapSize := enc.mapSize + 1 })
    ∧ (∀ val, enc.AddInt c key val = { enc with
        buf := enc.buf ++ c.EncodeString (enc.nsPrefix ++ key) ++ c.EncodeInt val,
        mapSize := enc.mapSize + 1 })
    ∧ (∀ val, enc.AddInt64 c key val = { enc with
        buf := enc.buf ++ c.EncodeString (enc.nsPrefix ++ key) ++ c.EncodeInt64 val,
        mapSize := enc.mapSize + 1 })
    ∧ (∀ val, enc.AddInt32 c key val = { enc with
        buf := enc.buf ++ c.EncodeString (enc.nsPrefix ++ key) ++ c.EncodeInt32 val,
        mapSize := enc.mapSize + 1 })
    ∧ (∀ val, enc.AddInt16 c key val = { enc with
        buf := enc.buf ++ c.EncodeString (enc.nsPrefix ++ key) ++ c.EncodeInt16 val,
        mapSize := enc.mapSize + 1 })
    ∧ (∀ val, enc.AddInt8 c key val = { enc with
        buf := enc.buf ++ c.EncodeString (enc.nsPrefix ++ key) ++ c.EncodeInt8 val,
        mapSize := enc.mapSize + 1 })
    ∧ (∀ val, enc.AddString c key val = { enc with
        buf := enc.buf ++ c.EncodeString (enc.nsPrefix ++ key) ++ c.EncodeString val,
        mapSize := enc.mapSize + 1 })
    ∧ (∀ val, enc.AddTime c key val = { enc with
        buf := enc.buf ++ c.EncodeString (enc.nsPrefix ++ key) ++ c.EncodeTime val,
        mapSize := enc.mapSize + 1 })
    ∧ (∀ val, enc.AddUint c key val = { enc with
        buf := enc.buf ++ c.EncodeString (enc.nsPrefix ++ key) ++ c.EncodeUint val,
        mapSize := enc.mapSize + 1 })
    ∧ (∀ val, enc.AddUint64 c key val = { enc with
        buf := enc.buf ++ c.EncodeString (enc.nsPrefix ++ key) ++ c.EncodeUint64 val,
        mapSize := enc.mapSize + 1 })
    ∧ (∀ val, enc.AddUint32 c key val = { enc with
        buf := enc.buf ++ c.EncodeString (enc.nsPrefix ++ key) ++ c.EncodeUint32 val,
        mapSize := enc.mapSize + 1 })
    ∧ (∀ val, enc.AddUint16 c key val = { enc with
        buf := enc.buf ++ c.EncodeString (enc.nsPrefix ++ key) ++ c.EncodeUint16 val,
        mapSize := enc.mapSize + 1 })
    ∧ (∀ val, enc.AddUint8 c key val = { enc with
        buf := enc.buf ++ c.EncodeString (enc.nsPrefix ++ key) ++ c.EncodeUint8 val,
        mapSize := enc.mapSize + 1 })
    ∧ (∀ val, enc.AddUintptr c key val = { enc with
        buf := enc.buf ++ c.EncodeString (enc.nsPrefix ++ key) ++ c.EncodeUint val,
        mapSize := enc.mapSize + 1 }) := by
  refine ⟨?_, ?_, ?_, ?_, ?_, ?_, ?_, ?_, ?_, ?_, ?_, ?_, ?_, ?_, ?_, ?_, ?_, ?_, ?_⟩ <;>
    intro val <;> rfl

/-- C14: every scalar `Append*` method increments the sequence-element count by
one, leaves the map-entry count, the namespace prefix and the configuration as
they are, and appends to the buffer exactly the encoding of the value by the
codec primitive of the method's type: no key is written, and the bytes do not
depend on the namespace prefix. -/
theorem Append_counts_value (c : Codec) (enc : encoder) :
    (∀ val, enc.AppendBool c val = { enc with
        buf := enc.buf ++ c.EncodeBool val, sliceLen := enc.sliceLen + 1 })
    ∧ (∀ val, enc.AppendByteString c val = { enc with
        buf := enc.buf ++ c.EncodeString val, sliceLen := enc.sliceLen + 1 })
    ∧ (∀ val, enc.AppendDuration c val = { enc with
        buf := enc.buf ++ c.EncodeFloat64 (Duration.Seconds val), sliceLen := enc.sliceLen + 1 })
    ∧ (∀ val, enc.AppendFloat64 c val = { enc with
        buf := enc.buf ++ c.EncodeFloat64 val, sliceLen := enc.sliceLen + 1 })
    ∧ (∀ val, enc.AppendFloat32 c val = { enc with
        buf := enc.buf ++ c.EncodeFloat32 val, sliceLen := enc.sliceLen + 1 })
    ∧ (∀ val, enc.AppendInt c val = { enc with
        buf := enc.buf ++ c.EncodeInt val, sliceLen := enc.sliceLen + 1 })
    ∧ (∀ val, enc.AppendInt64 c val = { enc with
        buf := enc.buf ++ c.EncodeInt64 val, sliceLen := enc.sliceLen + 1 })
    ∧ (∀ val, enc.AppendInt32 c val = { enc with
        buf := enc.buf ++ c.EncodeInt32 val, sliceLen := enc.sliceLen + 1 })
    ∧ (∀ val, enc.AppendInt16 c val = { enc with
        buf := enc.buf ++ c.EncodeInt16 val, sliceLen := enc.sliceLen + 1 })
    ∧ (∀ val, enc.AppendInt8 c val = { enc with
        buf := enc.buf ++ c.EncodeInt8 val, sliceLen := enc.sliceLen + 1 })
    ∧ (∀ val, enc.AppendString c val = { enc with
        buf := enc.buf ++ c.EncodeString val, sliceLen := enc.sliceLen + 1 })
    ∧ (∀ val, enc.AppendTime c val = { enc with
        buf := enc.buf ++ c.EncodeTime val, sliceLen := enc.sliceLen + 1 })
    ∧ (∀ val, enc.AppendUint c val = { enc with
        buf := enc.buf ++ c.EncodeUint val, sliceLen := enc.sliceLen + 1 })
    ∧ (∀ val, enc.AppendUint64 c val = { enc with
        buf := enc.buf ++ c.EncodeUint64 val, sliceLen := enc.sliceLen + 1 })
    ∧ (∀ val, enc.AppendUint32 c val = { enc with
        buf := enc.buf ++ c.EncodeUint32 val, sliceLen := enc.sliceLen + 1 })
    ∧ (∀ val, enc.AppendUint16 c val = { enc with
        buf := enc.buf ++ c.EncodeUint16 val, sliceLen := enc.sliceLen + 1 })
    ∧ (∀ val, enc.AppendUint8 c val = { enc with
        buf := enc.buf ++ c.EncodeUint8 val, sliceLen := enc.sliceLen + 1 })
    ∧ (∀ val, enc.AppendUintptr c val = { enc with
        buf := enc.buf ++ c.EncodeUint64 val, sliceLen := enc.sliceLen + 1 })
    ∧ (∀ (ns : String) (val : AppendValue),
        Except.map encoder.buf (({ enc with nsPrefix := ns } : encoder).Append c val)
          = Except.map encoder.buf (enc.Append c val)) := by
  refine ⟨?_, ?_, ?_, ?_, ?_, ?_, ?_, ?_, ?_, ?_, ?_, ?_, ?_, ?_, ?_, ?_, ?_, ?_, ?_⟩
  all_goals first
    | (intro val; rfl)
    | (intro ns val; cases val <;> rfl)

/-- C15: the four complex-number methods panic on every input, and the panic
is their first statement: the receiver is left exactly as it was (no count
incremented, no byte written, not even the key), whereas a supported method
such as `AddInt` returns with the count incremented; the scalar dispatch
on a complex value aborts likewise. -/
theorem complex_operations_panic_first (c : Codec) (enc : encoder) (key : String)
    (re im : Nat) :
    AddComplex128.outcome enc key re im
        = Outcome.panicked "complex numbers not supported in msgpack" enc
    ∧ AddComplex64.outcome enc key re im
        = Outcome.panicked "complex numbers not supported in msgpack" enc
    ∧ AppendComplex128.outcome enc re im = Outcome.panicked "not implemented" enc
    ∧ AppendComplex64.outcome enc re im = Outcome.panicked "not implemented" enc
    ∧ ((AddComplex128.outcome enc key re im).receiver.buf = enc.buf
        ∧ (AddComplex128.outcome enc key re im).receiver.mapSize = enc.mapSize
        ∧ (AddComplex128.outcome enc key re im).receiver.sliceLen = enc.sliceLen)
    ∧ ((AppendComplex128.outcome enc re im).receiver.buf = enc.buf
        ∧ (AppendComplex128.outcome enc re im).receiver.mapSize = enc.mapSize
        ∧ (AppendComplex128.outcome enc re im).receiver.sliceLen = enc.sliceLen)
    ∧ (AddComplex128.outcome enc key re im).toExcept = enc.AddComplex128 key re im
    ∧ (AddComplex64.outcome enc key re im).toExcept = enc.AddComplex64 key re im
    ∧ (AppendComplex128.outcome enc re im).toExcept = enc.AppendComplex128 re im
    ∧ (AppendComplex64.outcome enc re im).toExcept = enc.AppendComplex64 re im
    ∧ enc.Add c key (.Complex128 re im) = Except.error "complex numbers not supported in msgpack"
    ∧ enc.Add c key (.Complex64 re im) = Except.error "complex numbers not supported in msgpack"
    ∧ enc.Append c (.Complex128 re im) = Except.error "not implemented"
    ∧ enc.Append c (.Complex64 re im) = Except.error "not implemented"
    ∧ (AddInt.outcome c enc key 0).toExcept = Except.ok (enc.AddInt c key 0)
    ∧ (AddInt.outcome c enc key 0).receiver.mapSize = enc.mapSize + 1 := by
  refine ⟨rfl, rfl, rfl, rfl, ⟨rfl, rfl, rfl⟩, ⟨rfl, rfl, rfl⟩, rfl, rfl, rfl, rfl, rfl, rfl,
    rfl, rfl, rfl, rfl⟩

mutual
theorem encodeArray_total (c : Codec) :
    ∀ (arr : ArrayMarshaler) (e : encoder), arr.noComplex = true →
      ∃ r, e.encodeArray c arr = .ok r
  | .mk calls ret, e, h => by
    simp only [ArrayMarshaler.noComplex] at h
    obtain ⟨s, hs⟩ := MarshalLogArray_total c calls e.clone h
    rw [encoder.encodeArray, hs]
    cases ret with
    | none => exact ⟨_, rfl⟩
    | some err => exact ⟨_, rfl⟩
theorem encodeObject_total (c : Codec) :
    ∀ (obj : ObjectMarshaler) (e : encoder), obj.noComplex = true →
      ∃ r, e.encodeObject c obj = .ok r
  | .mk calls ret, e, h => by
    simp only [ObjectMarshaler.noComplex] at h
    obtain ⟨s, hs⟩ := MarshalLogObject_total c calls e.clone h
    rw [encoder.encodeObject, hs]
    cases ret with
    | none => exact ⟨_, rfl⟩
    | some err => exact ⟨_, rfl⟩
theorem MarshalLogArray_total (c : Codec) :
    ∀ (calls : List ArrayCall) (e : encoder), arrayNoComplex calls = true →
      ∃ e1, MarshalLogArray c calls e = .ok e1
  | [], e, _ => ⟨e, by simp [MarshalLogArray]⟩
  | .Append val :: rest, e, h => by
    simp only [arrayNoComplex, Bool.and_eq_true] at h
    obtain ⟨p, hp⟩ := Option.isSome_iff_exists.mp h.1
    rw [MarshalLogArray, ArrayCall.run, Append_eq, hp]
    exact MarshalLogArray_total c rest _ h.2
  | .AppendArray arr :: rest, e, h => by
    simp only [arrayNoComplex, Bool.and_eq_true] at h
    obtain ⟨r, hr⟩ := encodeArray_total c arr e.incSliceLen h.1
    rw [MarshalLogArray, ArrayCall.run, hr]
    exact MarshalLogArray_total c rest _ h.2
  | .AppendObject obj :: rest, e, h => by
    simp only [arrayNoComplex, Bool.and_eq_true] at h
    obtain ⟨r, hr⟩ := encodeObject_total c obj e.incSliceLen h.1
    rw [MarshalLogArray, ArrayCall.run, hr]
    exact MarshalLogArray_total c rest _ h.2
  | .AppendReflected val :: rest, e, h => by
    simp only [arrayNoComplex] at h
    rw [MarshalLogArray, ArrayCall.run]
    exact MarshalLogArray_total c rest _ h
theorem MarshalLogObject_total (c : Codec) :
    ∀ (calls : List ObjectCall) (e : encoder), objectNoComplex calls = true →
      ∃ e1, MarshalLogObject c calls e = .ok e1
  | [], e, _ => ⟨e, by simp [MarshalLogObject]⟩
  | .Add key val :: rest, e, h => by
    simp only [objectNoComplex, Bool.and_eq_true] at h
    obtain ⟨p, hp⟩ := Option.isSome_iff_exists.mp h.1
    rw [MarshalLogObject, ObjectCall.run, Add_eq, hp]
    exact MarshalLogObject_total c rest _ h.2
  | .AddArray key arr :: rest, e, h => by
    simp only [objectNoComplex, Bool.and_eq_true] at h
    obtain ⟨r, hr⟩ := encodeArray_total c arr (e.incMapSize.encodeKey c key) h.1
    rw [MarshalLogObject, ObjectCall.run, hr]
    exact MarshalLogObject_total c rest _ h.2
  | .AddObject key obj :: rest, e, h => by
    simp only [objectNoComplex, Bool.and_eq_true] at h
    obtain ⟨r, hr⟩ := encodeObject_total c obj (e.incMapSize.encodeKey c key) h.1
    rw [MarshalLogObject, ObjectCall.run, hr]
    exact MarshalLogObject_total c rest _ h.2
  | .AddReflected key val :: rest, e, h => by
    simp only [objectNoComplex] at h
    rw [MarshalLogObject, ObjectCall.run]
    exact MarshalLogObject_total c rest _ h
  | .OpenNamespace key :: rest, e, h => by
    simp only [objectNoComplex] at h
    rw [MarshalLogObject, ObjectCall.run]
    exact MarshalLogObject_total c rest _ h
end

theorem AddTo_total (c : Codec) (f : zapcore.Field) (e : encoder) (h : f.noComplex = true) :
    ∃ e1, f.AddTo c e = .ok e1 := by
  cases f with
  | Array key arr =>
    obtain ⟨r, hr⟩ := encodeArray_total c arr (e.incMapSize.encodeKey c key) h
    exact ⟨zapcore.Field.addError c key r, by simp only [zapcore.Field.AddTo, encoder.AddArray, hr]⟩
  | Object key obj =>
    obtain ⟨r, hr⟩ := encodeObject_total c obj (e.incMapSize.encodeKey c key) h
    exact ⟨zapcore.Field.addError c key r, by simp only [zapcore.Field.AddTo, encoder.AddObject, hr]⟩
  | Scalar key val =>
    obtain ⟨p, hp⟩ := Option.isSome_iff_exists.mp h
    exact ⟨_, by rw [zapcore.Field.AddTo, Add_eq, hp]⟩
  | Reflect key val => exact ⟨_, rfl⟩
  | Namespace key => exact ⟨_, rfl⟩
  | Stringer key str => exact ⟨_, rfl⟩
  | Skip => exact ⟨_, rfl⟩

theorem fields_total (c : Codec) :
    ∀ (fields : List zapcore.Field) (e : encoder), (∀ f ∈ fields, f.noComplex = true) →
      ∃ e1, EncodeEntry.fields c fields e = .ok e1
  | [], e, _ => ⟨e, rfl⟩
  | f :: rest, e, h => by
    obtain ⟨e2, h2⟩ := AddTo_total c f e (h f (List.mem_cons_self _ _))
    rw [EncodeEntry.fields, h2]
    exact fields_total c rest e2 (fun g hg => h g (List.mem_cons_of_mem _ hg))

theorem runAppends_total (c : Codec) :
    ∀ (calls : List AppendValue) (e : encoder), (∀ v ∈ calls, v.prim ≠ none) →
      ∃ f2, e.runAppends c calls = .ok f2
  | [], e, _ => ⟨e, rfl⟩
  | v :: rest, e, hall => by
    cases hp : v.prim with
    | none => exact absurd hp (hall v (List.mem_cons_self _ _))
    | some p =>
      rw [encoder.runAppends, Append_eq, hp]
      exact runAppends_total c rest _ (fun w hw => hall w (List.mem_cons_of_mem _ hw))

theorem level_total (c : Codec) (cfg : zapcore.EncoderConfig) (ent : zapcore.Entry)
    (e : encoder) (fl : zapcore.Level → List AppendValue) (hl : cfg.EncodeLevel = some fl)
    (hlp : ∀ v ∈ fl ent.Level, v.prim ≠ none) :
    ∃ e1, EncodeEntry.level c cfg ent e = .ok e1 := by
  unfold EncodeEntry.level
  split
  · obtain ⟨f2, h2⟩ := runAppends_total c (fl ent.Level)
      (e.incMapSize.write (c.EncodeString cfg.LevelKey)) hlp
    simp only [hl, h2]
    split <;> exact ⟨_, rfl⟩
  · exact ⟨_, rfl⟩

theorem caller_total (c : Codec) (cfg : zapcore.EncoderConfig) (ent : zapcore.Entry)
    (e : encoder) (fc : zapcore.EntryCaller → List AppendValue) (hc : cfg.EncodeCaller = some fc)
    (hcp : ∀ v ∈ fc ent.Caller, v.prim ≠ none) :
    ∃ e1, EncodeEntry.caller c cfg ent e = .ok e1 := by
  unfold EncodeEntry.caller
  split
  · obtain ⟨f2, h2⟩ := runAppends_total c (fc ent.Caller)
      (e.incMapSize.write (c.EncodeString cfg.CallerKey)) hcp
    simp only [hc, h2]
    split <;> exact ⟨_, rfl⟩
  · exact ⟨_, rfl⟩

theorem name_total (c : Codec) (cfg : zapcore.EncoderConfig) (ent : zapcore.Entry)
    (e : encoder)
    (hnp : ∀ v ∈ (cfg.EncodeName.getD zapcore.FullNameEncoder) ent.LoggerName, v.prim ≠ none) :
    ∃ e1, EncodeEntry.name c cfg ent e = .ok e1 := by
  unfold EncodeEntry.name
  split
  · obtain ⟨f2, h2⟩ := runAppends_total c _
      (e.incMapSize.write (c.EncodeString cfg.NameKey)) hnp
    cases hN : cfg.EncodeName with
    | none =>
      simp only [hN, Option.getD] at h2 ⊢
      simp only [h2]
      split <;> exact ⟨_, rfl⟩
    | some g =>
      simp only [hN, Option.getD] at h2 ⊢
      simp only [h2]
      split <;> exact ⟨_, rfl⟩
  · exact ⟨_, rfl⟩

/-- C16 fails as stated: with every formatting callback set, a field whose
array marshaler appends a complex number makes `EncodeEntry` panic; it returns
neither a buffer nor an error. -/
theorem EncodeEntry_panics_on_nested_complex :
    (NewEncoder testConfig).EncodeEntry msgpack testEntry [complexArrayField]
        = Except.error "not implemented"
    ∧ ¬ ∃ out : Bytes × Option GoError,
        (NewEncoder testConfig).EncodeEntry msgpack testEntry [complexArrayField]
          = Except.ok out := by
  have h : (NewEncoder testConfig).EncodeEntry msgpack testEntry [complexArrayField]
      = Except.error "not implemented" := by decide
  refine ⟨h, ?_⟩
  rintro ⟨out, hout⟩
  rw [h] at hout
  exact Except.noConfusion hout

/-- C16 (amended): when the level and caller callbacks are set, the formatting
callbacks append no complex value and no field passes a complex value to the
encoder at any depth, `EncodeEntry` returns a buffer together with a nil
error, whatever errors the marshalers of the fields report. -/
theorem EncodeEntry_returns_nil_error (c : Codec) (enc : encoder)
    (cfg : zapcore.EncoderConfig) (ent : zapcore.Entry) (fields : List zapcore.Field)
    (fl : zapcore.Level → List AppendValue) (fc : zapcore.EntryCaller → List AppendValue)
    (hcfg : enc.EncoderConfig = some cfg)
    (hl : cfg.EncodeLevel = some fl) (hc : cfg.EncodeCaller = some fc)
    (hlp : ∀ v ∈ fl ent.Level, v.prim ≠ none)
    (hnp : ∀ v ∈ (cfg.EncodeName.getD zapcore.FullNameEncoder) ent.LoggerName, v.prim ≠ none)
    (hcp : ∀ v ∈ fc ent.Caller, v.prim ≠ none)
    (hfields : ∀ f ∈ fields, f.noComplex = true) :
    ∃ buf : Bytes, enc.EncodeEntry c ent fields = Except.ok (buf, none) := by
  have hclone : enc.clone.EncoderConfig = some cfg := by simp [encoder.clone, hcfg]
  obtain ⟨f1, h1⟩ := level_total c cfg ent enc.clone fl hl hlp
  obtain ⟨f3, h3⟩ := name_total c cfg ent (EncodeEntry.time c cfg ent f1) hnp
  obtain ⟨f4, h4⟩ := caller_total c cfg ent f3 fc hc hcp
  obtain ⟨f6, h6⟩ := fields_total c fields (EncodeEntry.message c cfg cfg ent f4) hfields
  have hfin : EncodeEntry.final c enc ent fields = .ok (EncodeEntry.stack c cfg ent f6) := by
    unfold EncodeEntry.final
    simp only [hclone, hcfg, h1, h3, h4, h6]
  refine ⟨[] ++ ((((enc.clone.write (c.EncodeArrayLen 2)).write (c.EncodeTime ent.Time)).write
    (c.EncodeMapLen (EncodeEntry.stack c cfg ent f6).mapSize)).write
      (EncodeEntry.stack c cfg ent f6).buf).buf, ?_⟩
  simp only [encoder.EncodeEntry, hfin]

/-- Witness of C16 (amended): a field whose array marshaler reports the error
`boom`; the record is returned with a nil error. -/
theorem EncodeEntry_returns_nil_error_witness :
    failingField.noComplex = true
    ∧ ∃ buf : Bytes,
        (NewEncoder testConfig).EncodeEntry msgpack testEntry [failingField]
          = Except.ok (buf, none) :=
  ⟨rfl, EncodeEntry_returns_nil_error msgpack (NewEncoder testConfig) testConfig testEntry
    [failingField] zapcore.LowercaseLevelEncoder (fun ec => [.String ec.String]) rfl rfl rfl
    (by simp [zapcore.LowercaseLevelEncoder, AppendValue.prim])
    (by simp [testConfig, zapcore.FullNameEncoder, AppendValue.prim])
    (by simp [AppendValue.prim])
    (by intro f hf; simp at hf; subst hf; rfl)⟩

theorem Append_withConfig (c : Codec) (e : encoder) (x : Option zapcore.EncoderConfig)
    (v : AppendValue) :
    (e.withConfig x).Append c v = (e.Append c v).map (fun r => r.withConfig x) := by
  cases v <;> rfl

theorem Add_withConfig (c : Codec) (e : encoder) (x : Option zapcore.EncoderConfig)
    (key : String) (v : AddValue) :
    (e.withConfig x).Add c key v = (e.Add c key v).map (fun r => r.withConfig x) := by
  cases v <;> rfl

mutual
theorem encodeArray_withConfig (c : Codec) (x : Option zapcore.EncoderConfig) :
    ∀ (arr : ArrayMarshaler) (e : encoder),
      (e.withConfig x).encodeArray c arr
        = (e.encodeArray c arr).map (fun r => (r.1.withConfig x, r.2))
  | .mk calls ret, e => by
    rw [encoder.encodeArray, encoder.encodeArray]
    have hc : (e.withConfig x).clone = e.clone.withConfig x := rfl
    rw [hc, MarshalLogArray_withConfig c x calls e.clone]
    cases MarshalLogArray c calls e.clone with
    | error p => rfl
    | ok s => cases ret <;> rfl
theorem encodeObject_withConfig (c : Codec) (x : Option zapcore.EncoderConfig) :
    ∀ (obj : ObjectMarshaler) (e : encoder),
      (e.withConfig x).encodeObject c obj
        = (e.encodeObject c obj).map (fun r => (r.1.withConfig x, r.2))
  | .mk calls ret, e => by
    rw [encoder.encodeObject, encoder.encodeObject]
    have hc : (e.withConfig x).clone = e.clone.withConfig x := rfl
    rw [hc, MarshalLogObject_withConfig c x calls e.clone]
    cases MarshalLogObject c calls e.clone with
    | error p => rfl
    | ok s => cases ret <;> rfl
theorem MarshalLogArray_withConfig (c : Codec) (x : Option zapcore.EncoderConfig) :
    ∀ (calls : List ArrayCall) (e : encoder),
      MarshalLogArray c calls (e.withConfig x)
        = (MarshalLogArray c calls e).map (fun r => r.withConfig x)
  | [], e => by simp [MarshalLogArray, Except.map]
  | .Append val :: rest, e => by
    rw [MarshalLogArray, MarshalLogArray, ArrayCall.run, ArrayCall.run, Append_withConfig]
    cases e.Append c val with
    | error p => rfl
    | ok e2 => exact MarshalLogArray_withConfig c x rest e2
  | .AppendArray arr :: rest, e => by
    rw [MarshalLogArray, MarshalLogArray, ArrayCall.run, ArrayCall.run]
    have hc : (e.withConfig x).incSliceLen = e.incSliceLen.withConfig x := rfl
    rw [hc, encodeArray_withConfig c x arr e.incSliceLen]
    cases encoder.encodeArray c e.incSliceLen arr with
    | error p => rfl
    | ok r => exact MarshalLogArray_withConfig c x rest r.1
  | .AppendObject obj :: rest, e => by
    rw [MarshalLogArray, MarshalLogArray, ArrayCall.run, ArrayCall.run]
    have hc : (e.withConfig x).incSliceLen = e.incSliceLen.withConfig x := rfl
    rw [hc, encodeObject_withConfig c x obj e.incSliceLen]
    cases encoder.encodeObject c e.incSliceLen obj with
    | error p => rfl
    | ok r => exact MarshalLogArray_withConfig c x rest r.1
  | .AppendReflected val :: rest, e => by
    rw [MarshalLogArray, MarshalLogArray, ArrayCall.run, ArrayCall.run]
    exact MarshalLogArray_withConfig c x rest (e.AppendReflected c val).1
theorem MarshalLogObject_withConfig (c : Codec) (x : Option zapcore.EncoderConfig) :
    ∀ (calls : List ObjectCall) (e : encoder),
      MarshalLogObject c calls (e.withConfig x)
        = (MarshalLogObject c calls e).map (fun r => r.withConfig x)
  | [], e => by simp [MarshalLogObject, Except.map]
  | .Add key val :: rest, e => by
    rw [MarshalLogObject, MarshalLogObject, ObjectCall.run, ObjectCall.run, Add_withConfig]
    cases e.Add c key val with
    | error p => rfl
    | ok e2 => exact MarshalLogObject_withConfig c x rest e2
  | .AddArray key arr :: rest, e => by
    rw [MarshalLogObject, MarshalLogObject, ObjectCall.run, ObjectCall.run]
    have hc : (e.withConfig x).incMapSize.encodeKey c key
        = (e.incMapSize.encodeKey c key).withConfig x := rfl
    rw [hc, encodeArray_withConfig c x arr (e.incMapSize.encodeKey c key)]
    cases encoder.encodeArray c (e.incMapSize.encodeKey c key) arr with
    | error p => rfl
    | ok r => exact MarshalLogObject_withConfig c x rest r.1
  | .AddObject key obj :: rest, e => by
    rw [MarshalLogObject, MarshalLogObject, ObjectCall.run, ObjectCall.run]
    have hc : (e.withConfig x).incMapSize.encodeKey c key
        = (e.incMapSize.encodeKey c key).withConfig x := rfl
    rw [hc, encodeObject_withConfig c x obj (e.incMapSize.encodeKey c key)]
    cases encoder.encodeObject c (e.incMapSize.encodeKey c key) obj with
    | error p => rfl
    | ok r => exact MarshalLogObject_withConfig c x rest r.1
  | .AddReflected key val :: rest, e => by
    rw [MarshalLogObject, MarshalLogObject, ObjectCall.run, ObjectCall.run]
    exact MarshalLogObject_withConfig c x rest (e.AddReflected c key val).1
  | .OpenNamespace key :: rest, e => by
    rw [MarshalLogObject, MarshalLogObject, ObjectCall.run, ObjectCall.run]
    exact MarshalLogObject_withConfig c x rest (e.OpenNamespace key)
end

theorem runAppends_withConfig (c : Codec) (x : Option zapcore.EncoderConfig) :
    ∀ (calls : List AppendValue) (e : encoder),
      (e.withConfig x).runAppends c calls = (e.runAppends c calls).map (fun r => r.withConfig x)
  | [], e => rfl
  | v :: rest, e => by
    rw [encoder.runAppends, encoder.runAppends, Append_withConfig]
    cases e.Append c v with
    | error p => rfl
    | ok e2 => exact runAppends_withConfig c x rest e2

theorem AddTo_withConfig (c : Codec) (x : Option zapcore.EncoderConfig) (f : zapcore.Field)
    (e : encoder) :
    f.AddTo c (e.withConfig x) = (f.AddTo c e).map (fun r => r.withConfig x) := by
  cases f with
  | Array key arr =>
    simp only [zapcore.Field.AddTo, encoder.AddArray]
    have hc : (e.withConfig x).incMapSize.encodeKey c key
        = (e.incMapSize.encodeKey c key).withConfig x := rfl
    rw [hc, encodeArray_withConfig c x arr (e.incMapSize.encodeKey c key)]
    cases encoder.encodeArray c (e.incMapSize.encodeKey c key) arr with
    | error p => rfl
    | ok r => obtain ⟨r1, r2⟩ := r; cases r2 <;> rfl
  | Object key obj =>
    simp only [zapcore.Field.AddTo, encoder.AddObject]
    have hc : (e.withConfig x).incMapSize.encodeKey c key
        = (e.incMapSize.encodeKey c key).withConfig x := rfl
    rw [hc, encodeObject_withConfig c x obj (e.incMapSize.encodeKey c key)]
    cases encoder.encodeObject c (e.incMapSize.encodeKey c key) obj with
    | error p => rfl
    | ok r => obtain ⟨r1, r2⟩ := r; cases r2 <;> rfl
  | Scalar key val => exact Add_withConfig c e x key val
  | Reflect key val =>
    simp only [zapcore.Field.AddTo, zapcore.Field.addError, encoder.AddReflected]
    cases (c.Encode val).2 <;> rfl
  | Namespace key => rfl
  | Stringer key str => rfl
  | Skip => rfl

theorem fields_withConfig (c : Codec) (x : Option zapcore.EncoderConfig) :
    ∀ (fields : List zapcore.Field) (e : encoder),
      EncodeEntry.fields c fields (e.withConfig x)
        = (EncodeEntry.fields c fields e).map (fun r => r.withConfig x)
  | [], e => rfl
  | f :: rest, e => by
    rw [EncodeEntry.fields, EncodeEntry.fields, AddTo_withConfig]
    cases f.AddTo c e with
    | error p => rfl
    | ok e2 => exact fields_withConfig c x rest e2

theorem level_withConfig (c : Codec) (cfg : zapcore.EncoderConfig) (ent : zapcore.Entry)
    (x : Option zapcore.EncoderConfig) (e : encoder) :
    EncodeEntry.level c cfg ent (e.withConfig x)
      = (EncodeEntry.level c cfg ent e).map (fun r => r.withConfig x) := by
  unfold EncodeEntry.level
  split
  · cases cfg.EncodeLevel with
    | none => rfl
    | some f =>
      have hc : (e.withConfig x).incMapSize.write (c.EncodeString cfg.LevelKey)
          = (e.incMapSize.write (c.EncodeString cfg.LevelKey)).withConfig x := rfl
      simp only [hc, runAppends_withConfig]
      cases (e.incMapSize.write (c.EncodeString cfg.LevelKey)).runAppends c (f ent.Level) with
      | error p => rfl
      | ok f2 =>
        simp only [Except.map]
        have hb : (f2.withConfig x).buf = f2.buf := rfl
        have hb2 : ((e.incMapSize.write (c.EncodeString cfg.LevelKey)).withConfig x).buf
            = (e.incMapSize.write (c.EncodeString cfg.LevelKey)).buf := rfl
        rw [hb, hb2]
        split <;> rfl
  · rfl

theorem caller_withConfig (c : Codec) (cfg : zapcore.EncoderConfig) (ent : zapcore.Entry)
    (x : Option zapcore.EncoderConfig) (e : encoder) :
    EncodeEntry.caller c cfg ent (e.withConfig x)
      = (EncodeEntry.caller c cfg ent e).map (fun r => r.withConfig x) := by
  unfold EncodeEntry.caller
  split
  · cases cfg.EncodeCaller with
    | none => rfl
    | some f =>
      have hc : (e.withConfig x).incMapSize.write (c.EncodeString cfg.CallerKey)
          = (e.incMapSize.write (c.EncodeString cfg.CallerKey)).withConfig x := rfl
      simp only [hc, runAppends_withConfig]
      cases (e.incMapSize.write (c.EncodeString cfg.CallerKey)).runAppends c (f ent.Caller) with
      | error p => rfl
      | ok f2 =>
        simp only [Except.map]
        have hb : (f2.withConfig x).buf = f2.buf := rfl
        have hb2 : ((e.incMapSize.write (c.EncodeString cfg.CallerKey)).withConfig x).buf
            = (e.incMapSize.write (c.EncodeString cfg.CallerKey)).buf := rfl
        rw [hb, hb2]
        split <;> rfl
  · rfl

theorem name_withConfig (c : Codec) (cfg : zapcore.EncoderConfig) (ent : zapcore.Entry)
    (x : Option zapcore.EncoderConfig) (e : encoder) :
    EncodeEntry.name c cfg ent (e.withConfig x)
      = (EncodeEntry.name c cfg ent e).map (fun r => r.withConfig x) := by
  unfold EncodeEntry.name
  split
  · have hc : (e.withConfig x).incMapSize.write (c.EncodeString cfg.NameKey)
        = (e.incMapSize.write (c.EncodeString cfg.NameKey)).withConfig x := rfl
    simp only [hc, runAppends_withConfig]
    cases cfg.EncodeName with
    | none =>
      simp only []
      cases (e.incMapSize.write (c.EncodeString cfg.NameKey)).runAppends c
          (zapcore.FullNameEncoder ent.LoggerName) with
      | error p => rfl
      | ok f2 =>
        simp only [Except.map]
        have hb : (f2.withConfig x).buf = f2.buf := rfl
        have hb2 : ((e.incMapSize.write (c.EncodeString cfg.NameKey)).withConfig x).buf
            = (e.incMapSize.write (c.EncodeString cfg.NameKey)).buf := rfl
        rw [hb, hb2]
        split <;> rfl
    | some g =>
      simp only []
      cases (e.incMapSize.write (c.EncodeString cfg.NameKey)).runAppends c
          (g ent.LoggerName) with
      | error p => rfl
      | ok f2 =>
        simp only [Except.map]
        have hb : (f2.withConfig x).buf = f2.buf := rfl
        have hb2 : ((e.incMapSize.write (c.EncodeString cfg.NameKey)).withConfig x).buf
            = (e.incMapSize.write (c.EncodeString cfg.NameKey)).buf := rfl
        rw [hb, hb2]
        split <;> rfl
  · rfl

theorem time_withConfig (c : Codec) (cfg : zapcore.EncoderConfig) (ent : zapcore.Entry)
    (x : Option zapcore.EncoderConfig) (e : encoder) :
    EncodeEntry.time c cfg ent (e.withConfig x) = (EncodeEntry.time c cfg ent e).withConfig x := by
  unfold EncodeEntry.time
  split <;> rfl

theorem message_withConfig (c : Codec) (cfg cfg2 : zapcore.EncoderConfig) (ent : zapcore.Entry)
    (x : Option zapcore.EncoderConfig) (e : encoder) :
    EncodeEntry.message c cfg cfg2 ent (e.withConfig x)
      = (EncodeEntry.message c cfg cfg2 ent e).withConfig x := by
  unfold EncodeEntry.message
  split <;> rfl

theorem stack_withConfig (c : Codec) (cfg : zapcore.EncoderConfig) (ent : zapcore.Entry)
    (x : Option zapcore.EncoderConfig) (e : encoder) :
    EncodeEntry.stack c cfg ent (e.withConfig x) = (EncodeEntry.stack c cfg ent e).withConfig x := by
  unfold EncodeEntry.stack
  split <;> rfl

/-- The scope `final` of `EncodeEntry` depends on the configuration only through
the six keys and the level, name and caller callbacks. -/
theorem final_config (c : Codec) (enc : encoder) (cfg cfg2 : zapcore.EncoderConfig)
    (ent : zapcore.Entry) (fields : List zapcore.Field)
    (hM : cfg2.MessageKey = cfg.MessageKey) (hL : cfg2.LevelKey = cfg.LevelKey)
    (hT : cfg2.TimeKey = cfg.TimeKey) (hN : cfg2.NameKey = cfg.NameKey)
    (hC : cfg2.CallerKey = cfg.CallerKey) (hS : cfg2.StacktraceKey = cfg.StacktraceKey)
    (hEL : cfg2.EncodeLevel = cfg.EncodeLevel) (hEN : cfg2.EncodeName = cfg.EncodeName)
    (hEC : cfg2.EncodeCaller = cfg.EncodeCaller) :
    EncodeEntry.final c (enc.withConfig (some cfg2)) ent fields
      = (EncodeEntry.final c (enc.withConfig (some cfg)) ent fields).map
          (fun r => r.withConfig (some cfg2)) := by
  have hlevel : ∀ e, EncodeEntry.level c cfg2 ent e = EncodeEntry.level c cfg ent e := by
    intro e; unfold EncodeEntry.level; rw [hL, hEL]
  have htime : ∀ e, EncodeEntry.time c cfg2 ent e = EncodeEntry.time c cfg ent e := by
    intro e; unfold EncodeEntry.time; rw [hT]
  have hname : ∀ e, EncodeEntry.name c cfg2 ent e = EncodeEntry.name c cfg ent e := by
    intro e; unfold EncodeEntry.name; rw [hN, hEN]
  have hcaller : ∀ e, EncodeEntry.caller c cfg2 ent e = EncodeEntry.caller c cfg ent e := by
    intro e; unfold EncodeEntry.caller; rw [hC, hEC]
  have hmessage : ∀ e, EncodeEntry.message c cfg2 cfg2 ent e
      = EncodeEntry.message c cfg cfg ent e := by
    intro e; unfold EncodeEntry.message; rw [hM]
  have hstack : ∀ e, EncodeEntry.stack c cfg2 ent e = EncodeEntry.stack c cfg ent e := by
    intro e; unfold EncodeEntry.stack; rw [hS]
  unfold EncodeEntry.final
  have hc2 : (enc.withConfig (some cfg2)).clone
      = (enc.withConfig (some cfg)).clone.withConfig (some cfg2) := rfl
  have hcfg2 : ((enc.withConfig (some cfg)).clone.withConfig (some cfg2)).EncoderConfig
      = some cfg2 := rfl
  have hcfg1 : (enc.withConfig (some cfg)).clone.EncoderConfig = some cfg := rfl
  have he2 : (enc.withConfig (some cfg2)).EncoderConfig = some cfg2 := rfl
  have he1 : (enc.withConfig (some cfg)).EncoderConfig = some cfg := rfl
  rw [hc2]
  simp only [hcfg2, hcfg1, he2, he1, hlevel, htime, hname, hcaller, hmessage, hstack,
    level_withConfig]
  cases EncodeEntry.level c cfg ent (enc.withConfig (some cfg)).clone with
  | error p => rfl
  | ok f1 =>
    simp only [Except.map, time_withConfig, name_withConfig]
    cases EncodeEntry.name c cfg ent (EncodeEntry.time c cfg ent f1) with
    | error p => rfl
    | ok f3 =>
      simp only [Except.map, caller_withConfig]
      cases EncodeEntry.caller c cfg ent f3 with
      | error p => rfl
      | ok f4 =>
        simp only [Except.map, message_withConfig, fields_withConfig]
        cases EncodeEntry.fields c fields (EncodeEntry.message c cfg cfg ent f4) with
        | error p => rfl
        | ok f6 =>
          simp only [Except.map, stack_withConfig]

/-- The record returned by `EncodeEntry` depends on the configuration only
through the six keys and the level, name and caller callbacks. -/
theorem EncodeEntry_config (c : Codec) (enc : encoder) (cfg cfg2 : zapcore.EncoderConfig)
    (ent : zapcore.Entry) (fields : List zapcore.Field)
    (hM : cfg2.MessageKey = cfg.MessageKey) (hL : cfg2.LevelKey = cfg.LevelKey)
    (hT : cfg2.TimeKey = cfg.TimeKey) (hN : cfg2.NameKey = cfg.NameKey)
    (hC : cfg2.CallerKey = cfg.CallerKey) (hS : cfg2.StacktraceKey = cfg.StacktraceKey)
    (hEL : cfg2.EncodeLevel = cfg.EncodeLevel) (hEN : cfg2.EncodeName = cfg.EncodeName)
    (hEC : cfg2.EncodeCaller = cfg.EncodeCaller) :
    (enc.withConfig (some cfg2)).EncodeEntry c ent fields
      = (enc.withConfig (some cfg)).EncodeEntry c ent fields := by
  unfold encoder.EncodeEntry
  rw [final_config c enc cfg cfg2 ent fields hM hL hT hN hC hS hEL hEN hEC]
  cases EncodeEntry.final c (enc.withConfig (some cfg)) ent fields with
  | error p => rfl
  | ok f => rfl

theorem withConfig_self (enc : encoder) (cfg : zapcore.EncoderConfig)
    (hcfg : enc.EncoderConfig = some cfg) : enc.withConfig (some cfg) = enc := by
  cases enc
  simp only [encoder.withConfig] at hcfg ⊢
  rw [hcfg]

/-- C17: with a non-empty time key the time block of `EncodeEntry` counts one
entry and writes the string encoding of the time key followed by the codec
encoding of the event time, the very bytes of element 0 of the record; in the
returned record these bytes follow the level entry; and the record is the same
whatever `EncodeTime` callback is configured. -/
theorem time_entry_is_codec_time (c : Codec) (enc : encoder) (cfg : zapcore.EncoderConfig)
    (ent : zapcore.Entry) (fields : List zapcore.Field) (final : encoder)
    (hcfg : enc.EncoderConfig = some cfg) (hk : cfg.TimeKey ≠ "")
    (hfin : EncodeEntry.final c enc ent fields = Except.ok final) :
    (∀ e : encoder, e.nsPrefix = "" →
      EncodeEntry.time c cfg ent e = { e with
        buf := e.buf ++ c.EncodeString cfg.TimeKey ++ c.EncodeTime ent.Time,
        mapSize := e.mapSize + 1 })
    ∧ enc.EncodeEntry c ent fields = Except.ok
        (c.EncodeArrayLen 2 ++ c.EncodeTime ent.Time ++ c.EncodeMapLen final.mapSize
          ++ (levelBytes c cfg ent ++ (c.EncodeString cfg.TimeKey ++ c.EncodeTime ent.Time)
            ++ (nameBytes c cfg ent ++ callerBytes c cfg ent ++ messageBytes c cfg ent
              ++ fieldsBytes c (some cfg) "" fields
              ++ stackBytes c cfg ent
                  (finalPrefix "" (fieldCalls fields) ++ cfg.StacktraceKey))), none)
    ∧ (∀ f : Option (Time → List AppendValue),
        (enc.withConfig (some { cfg with EncodeTime := f })).EncodeEntry c ent fields
          = enc.EncodeEntry c ent fields) := by
  refine ⟨?_, ?_, ?_⟩
  · intro e hns
    simp [EncodeEntry.time, hk, encoder.AddTime, encoder.encodeKey, encoder.write,
      encoder.incMapSize, hns]
  · have hb := final_order c enc cfg ent fields final hcfg hfin
    have ht : timeBytes c cfg ent = c.EncodeString cfg.TimeKey ++ c.EncodeTime ent.Time := by
      simp [timeBytes, hk]
    rw [ht] at hb
    simp only [encoder.EncodeEntry, hfin, hb]
    simp [encoder.write, encoder.clone, getEncoder, encoderPool.New]
  · intro f
    have h := EncodeEntry_config c enc cfg { cfg with EncodeTime := f } ent fields
      rfl rfl rfl rfl rfl rfl rfl rfl rfl
    rw [h, withConfig_self enc cfg hcfg]

/-- Witness of C17: the concrete scenario of the specification. -/
theorem time_entry_is_codec_time_witness :
    testConfig.TimeKey ≠ ""
    ∧ ∀ f : Option (Time → List AppendValue),
        ((NewEncoder testConfig).withConfig
            (some { testConfig with EncodeTime := f })).EncodeEntry msgpack testEntry testFields
          = (NewEncoder testConfig).EncodeEntry msgpack testEntry testFields :=
  ⟨by decide, (time_entry_is_codec_time msgpack (NewEncoder testConfig) testConfig testEntry
    testFields _ rfl (by decide) rfl).2.2⟩

/-- C18 fails as stated: with the MessagePack codec `AddInt("k", 34)` writes the
one-byte compact form `22`, `AddInt64("k", 34)` the nine-byte form `d3 00 … 22`;
`AddUint("k", 45678)` writes three bytes, `AddUint64("k", 45678)` nine; the
same holds for the Append operations. -/
theorem AddInt_compact_differs_from_AddInt64 :
    ((NewEncoder testConfig).AddInt msgpack "k" 34).buf = [0xa1, 0x6b, 0x22]
    ∧ ((NewEncoder testConfig).AddInt64 msgpack "k" 34).buf
        = [0xa1, 0x6b, 0xd3, 0, 0, 0, 0, 0, 0, 0, 0x22]
    ∧ ((NewEncoder testConfig).AddUint msgpack "k" 45678).buf = [0xa1, 0x6b, 0xcd, 0xb2, 0x6e]
    ∧ ((NewEncoder testConfig).AddUint64 msgpack "k" 45678).buf
        = [0xa1, 0x6b, 0xcf, 0, 0, 0, 0, 0, 0, 0xb2, 0x6e]
    ∧ ((NewEncoder testConfig).AppendInt msgpack 34).buf = [0x22]
    ∧ ((NewEncoder testConfig).AppendInt64 msgpack 34).buf = [0xd3, 0, 0, 0, 0, 0, 0, 0, 0x22]
    ∧ ((NewEncoder testConfig).AppendUint msgpack 45678).buf = [0xcd, 0xb2, 0x6e]
    ∧ ((NewEncoder testConfig).AppendUint64 msgpack 45678).buf
        = [0xcf, 0, 0, 0, 0, 0, 0, 0xb2, 0x6e]
    ∧ ((NewEncoder testConfig).AddInt msgpack "k" 34).buf
        ≠ ((NewEncoder testConfig).AddInt64 msgpack "k" 34).buf
    ∧ ((NewEncoder testConfig).AddUint msgpack "k" 45678).buf
        ≠ ((NewEncoder testConfig).AddUint64 msgpack "k" 45678).buf := by
  refine ⟨by decide, by decide, by decide, by decide, by decide, by decide, by decide,
    by decide, by decide, by decide⟩

theorem msgpack_EncodeInt_eq_iff (v : Int) :
    msgpack.EncodeInt v = msgpack.EncodeInt64 v ↔ v < -2147483648 := by
  constructor
  · intro h
    by_contra hv
    simp only [msgpack.EncodeInt, msgpack.EncodeUint, msgpack.EncodeUint8, msgpack.EncodeUint16,
      msgpack.EncodeUint32, msgpack.EncodeUint64, msgpack.EncodeInt8, msgpack.EncodeInt16,
      msgpack.EncodeInt32, msgpack.EncodeInt64] at h
    split_ifs at h <;> simp [beBytes] at h
    omega
  · intro hv
    have h1 : ¬ (0 ≤ v) := by omega
    have h2 : ¬ (-32 ≤ v) := by omega
    have h3 : ¬ (-128 ≤ v) := by omega
    have h4 : ¬ (-32768 ≤ v) := by omega
    have h5 : ¬ (-2147483648 ≤ v) := by omega
    simp only [msgpack.EncodeInt, if_neg h1, if_neg h2, if_neg h3, if_neg h4, if_neg h5]

theorem msgpack_EncodeUint_eq_iff (n : Nat) :
    msgpack.EncodeUint n = msgpack.EncodeUint64 n ↔ 4294967295 < n := by
  constructor
  · intro h
    by_contra hn
    simp only [msgpack.EncodeUint, msgpack.EncodeUint8, msgpack.EncodeUint16,
      msgpack.EncodeUint32, msgpack.EncodeUint64] at h
    split_ifs at h <;> simp [beBytes] at h
    omega
  · intro hn
    have h1 : ¬ (n ≤ 127) := by omega
    have h2 : ¬ (n ≤ 255) := by omega
    have h3 : ¬ (n ≤ 65535) := by omega
    have h4 : ¬ (n ≤ 4294967295) := by omega
    simp only [msgpack.EncodeUint, if_neg h1, if_neg h2, if_neg h3, if_neg h4]

/-- C18 (amended): every sized integer Add and Append operation writes its
value through the codec's fixed-width primitive of its width and signedness;
the platform-width operations write through the codec's `EncodeInt` and
`EncodeUint`, so `AddInt` writes the same bytes as `AddInt64` exactly when
these two primitives agree on the value (likewise `AddUint`/`AddUint64` and
the Append operations); for the MessagePack codec they agree only for values
below `-2^31`, respectively above `2^32 - 1`. -/
theorem integer_operations_by_codec_primitive (c : Codec) (enc : encoder) (key : String)
    (v : Int) (n : Nat) :
    (enc.AddInt c key v = enc.AddInt64 c key v ↔ c.EncodeInt v = c.EncodeInt64 v)
    ∧ (enc.AddUint c key n = enc.AddUint64 c key n ↔ c.EncodeUint n = c.EncodeUint64 n)
    ∧ (enc.AppendInt c v = enc.AppendInt64 c v ↔ c.EncodeInt v = c.EncodeInt64 v)
    ∧ (enc.AppendUint c n = enc.AppendUint64 c n ↔ c.EncodeUint n = c.EncodeUint64 n)
    ∧ (msgpack.EncodeInt v = msgpack.EncodeInt64 v ↔ v < -2147483648)
    ∧ (msgpack.EncodeUint n = msgpack.EncodeUint64 n ↔ 4294967295 < n)
    ∧ (enc.AddInt c key v).buf = enc.buf ++ c.EncodeString (enc.nsPrefix ++ key) ++ c.EncodeInt v
    ∧ (enc.AddInt64 c key v).buf
        = enc.buf ++ c.EncodeString (enc.nsPrefix ++ key) ++ c.EncodeInt64 v
    ∧ (enc.AddInt32 c key v).buf
        = enc.buf ++ c.EncodeString (enc.nsPrefix ++ key) ++ c.EncodeInt32 v
    ∧ (enc.AddInt16 c key v).buf
        = enc.buf ++ c.EncodeString (enc.nsPrefix ++ key) ++ c.EncodeInt16 v
    ∧ (enc.AddInt8 c key v).buf
        = enc.buf ++ c.EncodeString (enc.nsPrefix ++ key) ++ c.EncodeInt8 v
    ∧ (enc.AddUint c key n).buf
        = enc.buf ++ c.EncodeString (enc.nsPrefix ++ key) ++ c.EncodeUint n
    ∧ (enc.AddUint64 c key n).buf
        = enc.buf ++ c.EncodeString (enc.nsPrefix ++ key) ++ c.EncodeUint64 n
    ∧ (enc.AddUint32 c key n).buf
        = enc.buf ++ c.EncodeString (enc.nsPrefix ++ key) ++ c.EncodeUint32 n
    ∧ (enc.AddUint16 c key n).buf
        = enc.buf ++ c.EncodeString (enc.nsPrefix ++ key) ++ c.EncodeUint16 n
    ∧ (enc.AddUint8 c key n).buf
        = enc.buf ++ c.EncodeString (enc.nsPrefix ++ key) ++ c.EncodeUint8 n
    ∧ (enc.AppendInt c v).buf = enc.buf ++ c.EncodeInt v
    ∧ (enc.AppendInt64 c v).buf = enc.buf ++ c.EncodeInt64 v
    ∧ (enc.AppendInt32 c v).buf = enc.buf ++ c.EncodeInt32 v
    ∧ (enc.AppendInt16 c v).buf = enc.buf ++ c.EncodeInt16 v
    ∧ (enc.AppendInt8 c v).buf = enc.buf ++ c.EncodeInt8 v
    ∧ (enc.AppendUint c n).buf = enc.buf ++ c.EncodeUint n
    ∧ (enc.AppendUint64 c n).buf = enc.buf ++ c.EncodeUint64 n
    ∧ (enc.AppendUint32 c n).buf = enc.buf ++ c.EncodeUint32 n
    ∧ (enc.AppendUint16 c n).buf = enc.buf ++ c.EncodeUint16 n
    ∧ (enc.AppendUint8 c n).buf = enc.buf ++ c.EncodeUint8 n := by
  refine ⟨?_, ?_, ?_, ?_, msgpack_EncodeInt_eq_iff v, msgpack_EncodeUint_eq_iff n,
    rfl, rfl, rfl, rfl, rfl, rfl, rfl, rfl, rfl, rfl, rfl, rfl, rfl, rfl, rfl, rfl, rfl, rfl,
    rfl, rfl⟩
  · constructor
    · intro h
      have hb := congrArg encoder.buf h
      simpa [encoder.AddInt, encoder.AddInt64, encoder.write] using hb
    · intro h
      simp only [encoder.AddInt, encoder.AddInt64, h]
  · constructor
    · intro h
      have hb := congrArg encoder.buf h
      simpa [encoder.AddUint, encoder.AddUint64, encoder.write] using hb
    · intro h
      simp only [encoder.AddUint, encoder.AddUint64, h]
  · constructor
    · intro h
      have hb := congrArg encoder.buf h
      simpa [encoder.AppendInt, encoder.AppendInt64, encoder.write] using hb
    · intro h
      simp only [encoder.AppendInt, encoder.AppendInt64, h]
  · constructor
    · intro h
      have hb := congrArg encoder.buf h
      simpa [encoder.AppendUint, encoder.AppendUint64, encoder.write] using hb
    · intro h
      simp only [encoder.AppendUint, encoder.AppendUint64, h]

/-- C19: `AddDuration(k, d)` is `AddFloat64(k, d.Seconds())` and
`AppendDuration(d)` is `AppendFloat64(d.Seconds())`; the effect commutes with
any change of the configuration and the record returned by `EncodeEntry` is
the same whatever `EncodeDuration` callback is configured; 500ms is written as
the float `0.5`, 5s as `5.0`, 1.5s as `1.5`, -500ms as `-0.5` and 1ns as the
float nearest to `1e-9`. -/
theorem duration_is_float_seconds (c : Codec) (enc : encoder) (key : String) (d : Int) :
    enc.AddDuration c key d = enc.AddFloat64 c key (Duration.Seconds d)
    ∧ enc.AppendDuration c d = enc.AppendFloat64 c (Duration.Seconds d)
    ∧ (∀ x : Option zapcore.EncoderConfig,
        (enc.withConfig x).AddDuration c key d = (enc.AddDuration c key d).withConfig x)
    ∧ (∀ x : Option zapcore.EncoderConfig,
        (enc.withConfig x).AppendDuration c d = (enc.AppendDuration c d).withConfig x)
    ∧ (∀ (cfg : zapcore.EncoderConfig) (f : Option (Int → List AppendValue))
        (ent : zapcore.Entry) (fields : List zapcore.Field),
        (enc.withConfig (some { cfg with EncodeDuration := f })).EncodeEntry c ent fields
          = (enc.withConfig (some cfg)).EncodeEntry c ent fields)
    ∧ Duration.Seconds 500000000 = 0x3FE0000000000000
    ∧ Duration.Seconds 5000000000 = 0x4014000000000000
    ∧ Duration.Seconds 1500000000 = 0x3FF8000000000000
    ∧ Duration.Seconds (-500000000) = 0xBFE0000000000000
    ∧ Duration.Seconds 1 = 0x3E112E0BE826D695
    ∧ ((NewEncoder testConfig).AddDuration msgpack "d" 500000000).buf
        = [0xa1, 0x64, 0xcb, 0x3f, 0xe0, 0, 0, 0, 0, 0, 0]
    ∧ ((NewEncoder testConfig).AppendDuration msgpack 5000000000).buf
        = [0xcb, 0x40, 0x14, 0, 0, 0, 0, 0, 0] := by
  refine ⟨rfl, rfl, fun _ => rfl, fun _ => rfl, ?_, by decide, by decide, by decide, by decide,
    by decide, by decide, by decide⟩
  intro cfg f ent fields
  exact EncodeEntry_config c enc cfg { cfg with EncodeDuration := f } ent fields
    rfl rfl rfl rfl rfl rfl rfl rfl rfl

theorem putEncoder_eq_New (enc : encoder) : putEncoder enc = encoderPool.New := rfl

theorem Heap.set_inv (h : Heap) (p : Nat) (e : encoder) (hinv : h.Inv) (hp : h.Live p) :
    (h.set p e).Inv := by
  refine ⟨?_, hinv.2⟩
  intro q hq
  have hq' : q ∈ h.pool := hq
  have hne : p ≠ q := fun heq => hp.2 (heq ▸ hq')
  refine ⟨?_, ?_⟩
  · rw [Heap.set_length]; exact (hinv.1 q hq').1
  · rw [Heap.get_set_other h p q e hne]; exact (hinv.1 q hq').2

theorem Heap.set_live (h : Heap) (p q : Nat) (e : encoder) :
    (h.set p e).Live q ↔ h.Live q := by
  simp [Heap.Live, Heap.set]

theorem Heap.Keeps.refl (h : Heap) (hinv : h.Inv) : h.Keeps h := ⟨hinv, fun _ hq => hq⟩

theorem Heap.Keeps.trans {h1 h2 h3 : Heap} (a : h1.Keeps h2) (b : h2.Keeps h3) : h1.Keeps h3 :=
  ⟨b.1, fun q hq => b.2 q (a.2 q hq)⟩

theorem Heap.set_keeps (h : Heap) (p : Nat) (e : encoder) (hinv : h.Inv) (hp : h.Live p) :
    h.Keeps (h.set p e) :=
  ⟨Heap.set_inv h p e hinv hp, fun q hq => (Heap.set_live h p q e).mpr hq⟩

theorem Heap.call_keeps (h : Heap) (p : Nat) (m : encoder → encoder) (hinv : h.Inv)
    (hp : h.Live p) : h.Keeps (h.call p m) :=
  Heap.set_keeps h p _ hinv hp

theorem Heap.getEncoder_keeps (h : Heap) (k : Nat) (hinv : h.Inv) :
    h.Keeps (h.getEncoder k).2
    ∧ (h.getEncoder k).2.Live (h.getEncoder k).1
    ∧ (h.getEncoder k).2.get (h.getEncoder k).1 = encoderPool.New
    ∧ ∀ q, h.Live q → q ≠ (h.getEncoder k).1 := by
  unfold Heap.getEncoder
  cases hp : h.pool.get? k with
  | none =>
    simp only []
    refine ⟨⟨⟨?_, hinv.2⟩, ?_⟩, ⟨by simp, ?_⟩, ?_, ?_⟩
    · intro q hq
      have hq' : q ∈ h.pool := hq
      have hlt := (hinv.1 q hq').1
      refine ⟨by simp; omega, ?_⟩
      have := (hinv.1 q hq').2
      simpa [Heap.get, List.getD_eq_getElem?_getD, List.getElem?_append_left hlt] using this
    · intro q hq
      exact ⟨by simp; have := hq.1; omega, hq.2⟩
    · intro hmem
      have := (hinv.1 _ hmem).1
      omega
    · simp [Heap.get, List.getD_eq_getElem?_getD]
    · intro q hq heq
      have := hq.1
      omega
  | some p =>
    simp only []
    have hmem : p ∈ h.pool := List.get?_mem hp
    have hsub : ∀ q, q ∈ h.pool.eraseIdx k → q ∈ h.pool :=
      fun q hq => (List.eraseIdx_sublist h.pool k).subset hq
    refine ⟨⟨⟨?_, hinv.2.sublist (List.eraseIdx_sublist h.pool k)⟩, ?_⟩,
      ⟨(hinv.1 p hmem).1, ?_⟩, (hinv.1 p hmem).2, ?_⟩
    · intro q hq
      exact hinv.1 q (hsub q hq)
    · intro q hq
      exact ⟨hq.1, fun hq2 => hq.2 (hsub q hq2)⟩
    · intro hmem2
      obtain ⟨i, hik, hi⟩ := List.mem_eraseIdx_iff_getElem?.mp hmem2
      have hk : h.pool[k]? = some p := by simpa [List.get?_eq_getElem?] using hp
      have hi' : i < h.pool.length := by
        by_contra hge
        rw [List.getElem?_eq_none (by omega)] at hi
        exact Option.noConfusion hi
      exact hik (List.getElem?_inj hi' hinv.2 (hi.trans hk.symm))
    · intro q hq heq
      exact hq.2 (heq ▸ hmem)

theorem Heap.putEncoder_inv (h : Heap) (p : Nat) (hinv : h.Inv) (hp : h.Live p) :
    (h.putEncoder p).Inv ∧ ∀ q, h.Live q → q ≠ p → (h.putEncoder p).Live q := by
  refine ⟨⟨?_, ?_⟩, ?_⟩
  · intro q hq
    have hq' : q = p ∨ q ∈ h.pool := by simpa [Heap.putEncoder] using hq
    rcases hq' with heq | hmem
    · subst heq
      refine ⟨by simpa [Heap.putEncoder] using hp.1, ?_⟩
      have : (h.putEncoder q).get q = (h.set q (zapmsgpack.putEncoder (h.get q))).get q := rfl
      rw [this, Heap.get_set_same h q _ hp.1]
      rfl
    · have hne : p ≠ q := fun heq => hp.2 (heq ▸ hmem)
      refine ⟨by simpa [Heap.putEncoder] using (hinv.1 q hmem).1, ?_⟩
      have : (h.putEncoder p).get q = (h.set p (zapmsgpack.putEncoder (h.get p))).get q := rfl
      rw [this, Heap.get_set_other h p q _ hne]
      exact (hinv.1 q hmem).2
  · have : (h.putEncoder p).pool = p :: h.pool := rfl
    rw [this]
    exact List.nodup_cons.mpr ⟨hp.2, hinv.2⟩
  · intro q hq hne
    refine ⟨by simpa [Heap.putEncoder] using hq.1, ?_⟩
    have : (h.putEncoder p).pool = p :: h.pool := rfl
    rw [this]
    simp only [List.mem_cons, not_or]
    exact ⟨hne, hq.2⟩

theorem Heap.clone_keeps (h : Heap) (k enc : Nat) (hinv : h.Inv) :
    h.Keeps (h.clone k enc).2
    ∧ (h.clone k enc).2.Live (h.clone k enc).1
    ∧ ∀ q, h.Live q → q ≠ (h.clone k enc).1 := by
  obtain ⟨hk, hl, _, hne⟩ := Heap.getEncoder_keeps h k hinv
  have hc := Heap.call_keeps (h.getEncoder k).2 (h.getEncoder k).1
    (fun clone => { clone with EncoderConfig := ((h.getEncoder k).2.get enc).EncoderConfig })
    hk.1 hl
  exact ⟨hk.trans hc, hc.2 _ hl, hne⟩

theorem Heap.Clone_keeps (h : Heap) (k enc : Nat) (hinv : h.Inv) :
    h.Keeps (h.Clone k enc).2
    ∧ (h.Clone k enc).2.Live (h.Clone k enc).1 := by
  obtain ⟨hk, hl, _⟩ := Heap.clone_keeps h k enc hinv
  have key : ∀ g : Heap, h.Keeps g ∧ g.Live (h.clone k enc).1 →
      ∀ m : encoder → encoder, h.Keeps (g.call (h.clone k enc).1 m)
        ∧ (g.call (h.clone k enc).1 m).Live (h.clone k enc).1 :=
    fun g hg m => ⟨hg.1.trans (Heap.call_keeps g _ m hg.1.1 hg.2),
      (Heap.call_keeps g _ m hg.1.1 hg.2).2 _ hg.2⟩
  simp only [Heap.Clone]
  exact key _ (key _ (key _ (key _ ⟨hk, hl⟩ _) _) _) _

theorem Heap.NewEncoder_keeps (h : Heap) (k : Nat) (cfg : zapcore.EncoderConfig)
    (hinv : h.Inv) :
    h.Keeps (h.NewEncoder k cfg).2
    ∧ (h.NewEncoder k cfg).2.Live (h.NewEncoder k cfg).1 := by
  obtain ⟨hk, hl, _, _⟩ := Heap.getEncoder_keeps h k hinv
  have hc := Heap.call_keeps (h.getEncoder k).2 (h.getEncoder k).1
    (fun enc => { enc with EncoderConfig := some cfg }) hk.1 hl
  exact ⟨hk.trans hc, hc.2 _ hl⟩

/-- The end of `encodeArray` and `encodeObject`: two writes into the receiver,
then the scratch encoder goes back to the pool. -/
theorem Heap.finish_keeps (h m : Heap) (enc s : Nat) (f1 f2 : encoder → encoder)
    (hk : h.Keeps m) (hs : m.Live s) (he : m.Live enc) (hne : ∀ q, h.Live q → q ≠ s) :
    h.Keeps (((m.call enc f1).call enc f2).putEncoder s) := by
  have c1 := Heap.call_keeps m enc f1 hk.1 he
  have c2 := Heap.call_keeps (m.call enc f1) enc f2 c1.1 (c1.2 _ he)
  have hp := Heap.putEncoder_inv ((m.call enc f1).call enc f2) s c2.1 (c2.2 _ (c1.2 _ hs))
  exact ⟨hp.1, fun q hq => hp.2 q (c2.2 _ (c1.2 _ (hk.2 q hq))) (hne q hq)⟩

mutual
theorem Heap.encodeArray_keeps (c : Codec) (sched : Heap → Nat) :
    ∀ (arr : ArrayMarshaler) (h : Heap) (enc : Nat), h.Inv → h.Live enc →
      h.Keeps (Heap.encodeArray c sched h enc arr).1
  | .mk calls ret, h, enc, hinv, hl => by
    obtain ⟨hk, hs, hne⟩ := Heap.clone_keeps h (sched h) enc hinv
    have ih := Heap.MarshalLogArray_keeps c sched calls (h.clone (sched h) enc).2
      (h.clone (sched h) enc).1 hk.1 hs
    simp only [Heap.encodeArray]
    generalize Heap.MarshalLogArray c sched calls (h.clone (sched h) enc).2
      (h.clone (sched h) enc).1 = m at ih ⊢
    obtain ⟨m1, m2⟩ := m
    cases m2 with
    | error p => exact hk.trans ih
    | ok u =>
      cases ret with
      | some err => exact hk.trans ih
      | none =>
        exact Heap.finish_keeps h m1 enc _ _ _ (hk.trans ih) (ih.2 _ hs) (ih.2 _ (hk.2 _ hl)) hne
theorem Heap.encodeObject_keeps (c : Codec) (sched : Heap → Nat) :
    ∀ (obj : ObjectMarshaler) (h : Heap) (enc : Nat), h.Inv → h.Live enc →
      h.Keeps (Heap.encodeObject c sched h enc obj).1
  | .mk calls ret, h, enc, hinv, hl => by
    obtain ⟨hk, hs, hne⟩ := Heap.clone_keeps h (sched h) enc hinv
    have ih := Heap.MarshalLogObject_keeps c sched calls (h.clone (sched h) enc).2
      (h.clone (sched h) enc).1 hk.1 hs
    simp only [Heap.encodeObject]
    generalize Heap.MarshalLogObject c sched calls (h.clone (sched h) enc).2
      (h.clone (sched h) enc).1 = m at ih ⊢
    obtain ⟨m1, m2⟩ := m
    cases m2 with
    | error p => exact hk.trans ih
    | ok u =>
      cases ret with
      | some err => exact hk.trans ih
      | none =>
        exact Heap.finish_keeps h m1 enc _ _ _ (hk.trans ih) (ih.2 _ hs) (ih.2 _ (hk.2 _ hl)) hne
theorem Heap.arrayCall_keeps (c : Codec) (sched : Heap → Nat) :
    ∀ (call : ArrayCall) (h : Heap) (enc : Nat), h.Inv → h.Live enc →
      h.Keeps (Heap.arrayCall c sched h enc call).1
  | .Append val, h, enc, hinv, hl => by
    rw [Heap.arrayCall]
    cases (h.get enc).Append c val with
    | error p => exact Heap.Keeps.refl h hinv
    | ok e => exact Heap.set_keeps h enc e hinv hl
  | .AppendArray arr, h, enc, hinv, hl => by
    rw [Heap.arrayCall]
    have c1 := Heap.call_keeps h enc encoder.incSliceLen hinv hl
    exact c1.trans (Heap.encodeArray_keeps c sched arr _ enc c1.1 (c1.2 _ hl))
  | .AppendObject obj, h, enc, hinv, hl => by
    rw [Heap.arrayCall]
    have c1 := Heap.call_keeps h enc encoder.incSliceLen hinv hl
    exact c1.trans (Heap.encodeObject_keeps c sched obj _ enc c1.1 (c1.2 _ hl))
  | .AppendReflected val, h, enc, hinv, hl => by
    rw [Heap.arrayCall]
    exact Heap.call_keeps h enc _ hinv hl
theorem Heap.objectCall_keeps (c : Codec) (sched : Heap → Nat) :
    ∀ (call : ObjectCall) (h : Heap) (enc : Nat), h.Inv → h.Live enc →
      h.Keeps (Heap.objectCall c sched h enc call).1
  | .Add key val, h, enc, hinv, hl => by
    rw [Heap.objectCall]
    cases (h.get enc).Add c key val with
    | error p => exact Heap.Keeps.refl h hinv
    | ok e => exact Heap.set_keeps h enc e hinv hl
  | .AddArray key arr, h, enc, hinv, hl => by
    rw [Heap.objectCall]
    have c1 := Heap.call_keeps h enc encoder.incMapSize hinv hl
    have c2 := Heap.call_keeps _ enc (fun e => e.encodeKey c key) c1.1 (c1.2 _ hl)
    exact c1.trans (c2.trans
      (Heap.encodeArray_keeps c sched arr _ enc c2.1 (c2.2 _ (c1.2 _ hl))))
  | .AddObject key obj, h, enc, hinv, hl => by
    rw [Heap.objectCall]
    have c1 := Heap.call_keeps h enc encoder.incMapSize hinv hl
    have c2 := Heap.call_keeps _ enc (fun e => e.encodeKey c key) c1.1 (c1.2 _ hl)
    exact c1.trans (c2.trans
      (Heap.encodeObject_keeps c sched obj _ enc c2.1 (c2.2 _ (c1.2 _ hl))))
  | .AddReflected key val, h, enc, hinv, hl => by
    rw [Heap.objectCall]
    exact Heap.call_keeps h enc _ hinv hl
  | .OpenNamespace key, h, enc, hinv, hl => by
    rw [Heap.objectCall]
    exact Heap.call_keeps h enc _ hinv hl
theorem Heap.MarshalLogArray_keeps (c : Codec) (sched : Heap → Nat) :
    ∀ (calls : List ArrayCall) (h : Heap) (enc : Nat), h.Inv → h.Live enc →
      h.Keeps (Heap.MarshalLogArray c sched calls h enc).1
  | [], h, enc, hinv, _ => by
    rw [Heap.MarshalLogArray]
    exact Heap.Keeps.refl h hinv
  | call :: rest, h, enc, hinv, hl => by
    have ih1 := Heap.arrayCall_keeps c sched call h enc hinv hl
    simp only [Heap.MarshalLogArray]
    cases hr : (Heap.arrayCall c sched h enc call).2 with
    | error p => exact ih1
    | ok u =>
      exact ih1.trans (Heap.MarshalLogArray_keeps c sched rest _ enc ih1.1 (ih1.2 _ hl))
theorem Heap.MarshalLogObject_keeps (c : Codec) (sched : Heap → Nat) :
    ∀ (calls : List ObjectCall) (h : Heap) (enc : Nat), h.Inv → h.Live enc →
      h.Keeps (Heap.MarshalLogObject c sched calls h enc).1
  | [], h, enc, hinv, _ => by
    rw [Heap.MarshalLogObject]
    exact Heap.Keeps.refl h hinv
  | call :: rest, h, enc, hinv, hl => by
    have ih1 := Heap.objectCall_keeps c sched call h enc hinv hl
    simp only [Heap.MarshalLogObject]
    cases hr : (Heap.objectCall c sched h enc call).2 with
    | error p => exact ih1
    | ok u =>
      exact ih1.trans (Heap.MarshalLogObject_keeps c sched rest _ enc ih1.1 (ih1.2 _ hl))
end

theorem Heap.andThen_keeps {α β : Type} (g : Heap) (r : Heap × Except String α)
    (k : Heap → Heap × Except String β) (hr : g.Keeps r.1)
    (hk : g.Keeps r.1 → g.Keeps (k r.1).1) : g.Keeps (Heap.andThen r k).1 := by
  unfold Heap.andThen
  cases r.2 with
  | error p => exact hr
  | ok a => exact hk hr

theorem Heap.AddTo_keeps (c : Codec) (sched : Heap → Nat) (f : zapcore.Field) (h : Heap)
    (enc : Nat) (hinv : h.Inv) (hl : h.Live enc) : h.Keeps (Heap.AddTo c sched h enc f).1 := by
  have tail : ∀ (call : ObjectCall) (key : String),
      h.Keeps (match (Heap.objectCall c sched h enc call).2 with
        | .error p => ((Heap.objectCall c sched h enc call).1, (Except.error p : Except String Unit))
        | .ok none => ((Heap.objectCall c sched h enc call).1, .ok ())
        | .ok (some err) => ((Heap.objectCall c sched h enc call).1.call enc
            (fun e => e.AddString c (key ++ "Error") err), .ok ())).1 := by
    intro call key
    have ih := Heap.objectCall_keeps c sched call h enc hinv hl
    split
    · exact ih
    · exact ih
    · exact ih.trans (Heap.call_keeps _ enc _ ih.1 (ih.2 _ hl))
  cases f with
  | Array key arr => exact tail (.AddArray key arr) key
  | Object key obj => exact tail (.AddObject key obj) key
  | Scalar key val =>
    simp only [Heap.AddTo]
    exact Heap.andThen_keeps h _ _ (Heap.objectCall_keeps c sched _ h enc hinv hl) (fun hk => hk)
  | Reflect key val => exact tail (.AddReflected key val) key
  | Namespace key => exact Heap.call_keeps h enc _ hinv hl
  | Stringer key str => exact Heap.call_keeps h enc _ hinv hl
  | Skip => exact Heap.Keeps.refl h hinv

theorem Heap.fields_keeps (c : Codec) (sched : Heap → Nat) :
    ∀ (fields : List zapcore.Field) (h : Heap) (enc : Nat), h.Inv → h.Live enc →
      h.Keeps (Heap.fields c sched fields h enc).1
  | [], h, _, hinv, _ => Heap.Keeps.refl h hinv
  | f :: rest, h, enc, hinv, hl => by
    simp only [Heap.fields]
    refine Heap.andThen_keeps h _ _ (Heap.AddTo_keeps c sched f h enc hinv hl) (fun hk => ?_)
    exact hk.trans (Heap.fields_keeps c sched rest _ enc hk.1 (hk.2 _ hl))

theorem Heap.runAppends_keeps (c : Codec) :
    ∀ (calls : List AppendValue) (h : Heap) (enc : Nat), h.Inv → h.Live enc →
      h.Keeps (Heap.runAppends c calls h enc).1
  | [], h, _, hinv, _ => Heap.Keeps.refl h hinv
  | val :: rest, h, enc, hinv, hl => by
    simp only [Heap.runAppends]
    cases (h.get enc).Append c val with
    | error p => exact Heap.Keeps.refl h hinv
    | ok e =>
      have s := Heap.set_keeps h enc e hinv hl
      exact s.trans (Heap.runAppends_keeps c rest _ enc s.1 (s.2 _ hl))

theorem Heap.entryBlock_keeps (c : Codec) (h : Heap) (final : Nat) (key : String)
    (callback : Option (List AppendValue)) (fallback : String) (hinv : h.Inv)
    (hl : h.Live final) : h.Keeps (Heap.entryBlock c h final key callback fallback).1 := by
  have c1 := Heap.call_keeps h final encoder.incMapSize hinv hl
  have c2 := Heap.call_keeps _ final (fun e => e.write (c.EncodeString key)) c1.1 (c1.2 _ hl)
  have c12 := c1.trans c2
  simp only [Heap.entryBlock]
  cases callback with
  | none => exact c12
  | some calls =>
    simp only []
    refine c12.trans (Heap.andThen_keeps _ _ _
      (Heap.runAppends_keeps c calls _ final c12.1 (c12.2 _ hl)) (fun hk => ?_))
    split
    · exact hk.trans (Heap.call_keeps _ final _ hk.1 (hk.2 _ (c12.2 _ hl)))
    · exact hk

theorem Heap.EncodeEntry.final_keeps (c : Codec) (sched : Heap → Nat) (h : Heap)
    (enc final : Nat) (ent : zapcore.Entry) (fields : List zapcore.Field) (hinv : h.Inv)
    (hl : h.Live final) :
    h.Keeps (Heap.EncodeEntry.final c sched h enc final ent fields).1 := by
  have block : ∀ (g : Heap) (p : Prop) [Decidable p] (key : String)
      (callback : Option (List AppendValue)) (fallback : String), h.Keeps g →
      h.Keeps (if p then Heap.entryBlock c g final key callback fallback
        else (g, (Except.ok () : Except String Unit))).1 := by
    intro g p _ key callback fallback hg
    split
    · exact hg.trans (Heap.entryBlock_keeps c g final key callback fallback hg.1 (hg.2 _ hl))
    · exact hg
  have call : ∀ (g : Heap) (m : encoder → encoder), h.Keeps g → h.Keeps (g.call final m) :=
    fun g m hg => hg.trans (Heap.call_keeps g final m hg.1 (hg.2 _ hl))
  unfold Heap.EncodeEntry.final
  split
  · rename_i cfg encCfg _ _
    refine Heap.andThen_keeps h _ _ (block h _ _ _ _ (Heap.Keeps.refl h hinv)) (fun h1 => ?_)
    refine Heap.andThen_keeps h _ _ ?_ (fun h2 => ?_)
    · split
      · exact (call _ _ h1).trans
          (Heap.entryBlock_keeps c _ final _ _ _ (call _ _ h1).1 ((call _ _ h1).2 _ hl))
      · exact call _ _ h1
    refine Heap.andThen_keeps h _ _ (block _ _ _ _ _ h2) (fun h3 => ?_)
    refine Heap.andThen_keeps h _ _ ?_ (fun h4 => ?_)
    · exact (call _ _ h3).trans
        (Heap.fields_keeps c sched fields _ final (call _ _ h3).1 ((call _ _ h3).2 _ hl))
    · exact call _ _ h4
  · exact Heap.Keeps.refl h hinv

theorem Heap.EncodeEntry_keeps (c : Codec) (sched : Heap → Nat) (h : Heap) (enc : Nat)
    (ent : zapcore.Entry) (fields : List zapcore.Field) (hinv : h.Inv) :
    h.Keeps (Heap.EncodeEntry c sched h enc ent fields).1 := by
  obtain ⟨k1, l1, n1⟩ := Heap.clone_keeps h (sched h) enc hinv
  have c1 := Heap.call_keeps _ (h.clone (sched h) enc).1
    (fun e => e.write (c.EncodeArrayLen 2)) k1.1 l1
  have c2 := Heap.call_keeps _ (h.clone (sched h) enc).1
    (fun e => e.write (c.EncodeTime ent.Time)) c1.1 (c1.2 _ l1)
  have k12 := k1.trans (c1.trans c2)
  have lf := c2.2 _ (c1.2 _ l1)
  simp only [Heap.EncodeEntry]
  generalize ((h.clone (sched h) enc).2.call (h.clone (sched h) enc).1
      (fun e => e.write (c.EncodeArrayLen 2))).call (h.clone (sched h) enc).1
      (fun e => e.write (c.EncodeTime ent.Time)) = g at c2 k12 lf ⊢
  generalize (h.clone (sched h) enc).1 = finenc at n1 lf ⊢
  obtain ⟨k2, l2, n2⟩ := Heap.clone_keeps g (sched g) enc k12.1
  have kf := Heap.EncodeEntry.final_keeps c sched (g.clone (sched g) enc).2 enc
    (g.clone (sched g) enc).1 ent fields k2.1 l2
  have hbase := k12.trans k2
  refine Heap.andThen_keeps h _ _ (hbase.trans kf) (fun _ => ?_)
  generalize (Heap.EncodeEntry.final c sched (g.clone (sched g) enc).2 enc
    (g.clone (sched g) enc).1 ent fields).1 = m at kf ⊢
  generalize (g.clone (sched g) enc).2 = g2 at k2 l2 kf hbase ⊢
  generalize (g.clone (sched g) enc).1 = final at l2 n2 kf ⊢
  have lfin : m.Live final := kf.2 _ l2
  have lfe : m.Live finenc := kf.2 _ (k2.2 _ lf)
  have hne : finenc ≠ final := n2 _ lf
  have d1 := Heap.call_keeps m finenc
    (fun e => e.write (c.EncodeMapLen (m.get final).mapSize)) kf.1 lfe
  have d2 := Heap.call_keeps _ finenc
    (fun e => e.write ((m.call finenc
      (fun e => e.write (c.EncodeMapLen (m.get final).mapSize))).get final).buf)
    d1.1 (d1.2 _ lfe)
  have d12 := d1.trans d2
  have p1 := Heap.putEncoder_inv _ final d12.1 (d12.2 _ lfin)
  have p2 := Heap.putEncoder_inv _ finenc p1.1 (p1.2 _ (d12.2 _ lfe) hne)
  refine ⟨p2.1, fun q hq => ?_⟩
  have hq2 : m.Live q := kf.2 _ (hbase.2 _ hq)
  exact p2.2 _ (p1.2 _ (d12.2 _ hq2) (n2 _ (k12.2 _ hq))) (n1 _ hq)

theorem World.init_inv : World.init.Inv := by
  refine ⟨⟨?_, List.nodup_nil⟩, ?_⟩
  · intro p hp
    exact absurd hp (List.not_mem_nil p)
  · intro p hp
    exact absurd hp (List.not_mem_nil p)

theorem World.Inv.keep (w : World) (g : Heap) (hw : w.Inv) (hk : w.heap.Keeps g) :
    World.Inv { w with heap := g } :=
  ⟨hk.1, fun p hp => hk.2 p (hw.2 p hp)⟩

theorem World.Inv.hand (w : World) (g : Heap) (p : Nat) (hw : w.Inv) (hk : w.heap.Keeps g)
    (hp : g.Live p) : World.Inv { heap := g, handles := w.handles ++ [p] } := by
  refine ⟨hk.1, fun q hq => ?_⟩
  rcases List.mem_append.mp hq with h1 | h1
  · exact hk.2 q (hw.2 q h1)
  · have : q = p := by simpa using h1
    exact this ▸ hp

theorem World.step_inv (c : Codec) (sched : Heap → Nat) (w : World) (op : Op) (hw : w.Inv) :
    (World.step c sched w op).Inv := by
  cases op with
  | NewEncoder cfg =>
    obtain ⟨hk, hl⟩ := Heap.NewEncoder_keeps w.heap (sched w.heap) cfg hw.1
    exact World.Inv.hand w _ _ hw hk hl
  | Clone i =>
    simp only [World.step]
    cases hg : w.handles.get? i with
    | none => exact hw
    | some enc =>
      obtain ⟨hk, hl⟩ := Heap.Clone_keeps w.heap (sched w.heap) enc hw.1
      exact World.Inv.hand w _ _ hw hk hl
  | Object i call =>
    simp only [World.step]
    cases hg : w.handles.get? i with
    | none => exact hw
    | some enc =>
      exact World.Inv.keep w _ hw
        (Heap.objectCall_keeps c sched call w.heap enc hw.1 (hw.2 enc (List.get?_mem hg)))
  | Array i call =>
    simp only [World.step]
    cases hg : w.handles.get? i with
    | none => exact hw
    | some enc =>
      exact World.Inv.keep w _ hw
        (Heap.arrayCall_keeps c sched call w.heap enc hw.1 (hw.2 enc (List.get?_mem hg)))
  | EncodeEntry i ent fields =>
    simp only [World.step]
    cases hg : w.handles.get? i with
    | none => exact hw
    | some enc =>
      exact World.Inv.keep w _ hw (Heap.EncodeEntry_keeps c sched w.heap enc ent fields hw.1)

theorem World.run_inv (c : Codec) (sched : Heap → Nat) :
    ∀ (ops : List Op) (w : World), w.Inv → (World.run c sched ops w).Inv
  | [], _, hw => hw
  | op :: rest, w, hw => by
    have h1 := World.step_inv c sched w op hw
    have h2 := World.run_inv c sched rest _ h1
    simpa [World.run] using h2

/-- C20: `putEncoder` resets the buffer, both counts, the namespace prefix and
the configuration pointer, leaving the instance in the state `New` builds,
before the instance is handed to the pool; hence after any sequence of
`NewEncoder`, `Clone`, Add, Append, nested array and object operations and
`EncodeEntry` calls of a client that starts with an empty pool, whatever
instance `Get` chooses each time, every pooled instance is allocated and has an
empty buffer, zero counts, an empty prefix and no configuration, and so has
the instance handed out by the next `getEncoder`; the pool is not empty after
an `EncodeEntry` call. -/
theorem pool_instances_blank (c : Codec) (sched : Heap → Nat) (ops : List Op) :
    (∀ enc : encoder,
        (putEncoder enc).buf = [] ∧ (putEncoder enc).mapSize = 0
        ∧ (putEncoder enc).sliceLen = 0 ∧ (putEncoder enc).nsPrefix = ""
        ∧ (putEncoder enc).EncoderConfig = none)
    ∧ (∀ (h : Heap) (p : Nat), (h.putEncoder p).pool = p :: h.pool
        ∧ (h.putEncoder p).objs = h.objs.set p (putEncoder (h.get p)))
    ∧ (∀ p ∈ (World.run c sched ops World.init).heap.pool,
        p < (World.run c sched ops World.init).heap.objs.length
        ∧ ((World.run c sched ops World.init).heap.get p).buf = []
        ∧ ((World.run c sched ops World.init).heap.get p).mapSize = 0
        ∧ ((World.run c sched ops World.init).heap.get p).sliceLen = 0
        ∧ ((World.run c sched ops World.init).heap.get p).nsPrefix = ""
        ∧ ((World.run c sched ops World.init).heap.get p).EncoderConfig = none)
    ∧ (∀ pick : Nat,
        (((World.run c sched ops World.init).heap.getEncoder pick).2.get
            ((World.run c sched ops World.init).heap.getEncoder pick).1) = encoderPool.New)
    ∧ (World.run msgpack (fun _ => 0)
          [.NewEncoder testConfig, .EncodeEntry 0 testEntry testFields] World.init).heap.pool
        = [1, 2]
    ∧ (Heap.EncodeEntry msgpack (fun _ => 0)
          (World.run msgpack (fun _ => 0) [.NewEncoder testConfig] World.init).heap 0
          testEntry testFields).2
        = (NewEncoder testConfig).EncodeEntry msgpack testEntry testFields := by
  have hinv := World.run_inv c sched ops World.init World.init_inv
  refine ⟨fun enc => ⟨rfl, rfl, rfl, rfl, rfl⟩, fun h p => ⟨rfl, rfl⟩, ?_, ?_, ?_, ?_⟩
  · intro p hp
    obtain ⟨hlt, hget⟩ := hinv.1.1 p hp
    rw [hget]
    exact ⟨hlt, rfl, rfl, rfl, rfl, rfl⟩
  · intro pick
    exact (Heap.getEncoder_keeps _ pick hinv.1).2.2.1
  · decide
  · rfl

theorem Heap.get_call_same (h : Heap) (p : Nat) (m : encoder → encoder)
    (hp : p < h.objs.length) : (h.call p m).get p = m (h.get p) :=
  Heap.get_set_same h p _ hp

theorem Heap.get_call_other (h : Heap) (p q : Nat) (m : encoder → encoder) (hne : p ≠ q) :
    (h.call p m).get q = h.get q :=
  Heap.get_set_other h p q _ hne

theorem Heap.get_putEncoder_other (h : Heap) (p q : Nat) (hne : p ≠ q) :
    (h.putEncoder p).get q = h.get q := by
  have : (h.putEncoder p).get q = (h.set p (zapmsgpack.putEncoder (h.get p))).get q := rfl
  rw [this, Heap.get_set_other h p q _ hne]

theorem Heap.getEncoder_get (h : Heap) (k q : Nat) (hq : h.Live q) :
    (h.getEncoder k).2.get q = h.get q := by
  unfold Heap.getEncoder
  cases h.pool.get? k with
  | none => simp [Heap.get, List.getD_eq_getElem?_getD, List.getElem?_append_left hq.1]
  | some p => rfl

theorem Heap.clone_get (h : Heap) (k enc : Nat) (hinv : h.Inv) (hl : h.Live enc) :
    (h.clone k enc).2.get (h.clone k enc).1 = (h.get enc).clone
    ∧ ∀ q, h.Live q → (h.clone k enc).2.get q = h.get q := by
  obtain ⟨hk, hs, hnew, hne⟩ := Heap.getEncoder_keeps h k hinv
  refine ⟨?_, ?_⟩
  · simp only [Heap.clone]
    rw [Heap.get_call_same _ _ _ hs.1, hnew, Heap.getEncoder_get h k enc hl]
    rfl
  · intro q hq
    simp only [Heap.clone]
    rw [Heap.get_call_other _ _ _ _ (fun heq => hne q hq heq.symm), Heap.getEncoder_get h k q hq]

/-- The state of the receiver and of the other instances after the end of
`encodeArray` and `encodeObject`. -/
theorem Heap.finish_get (m : Heap) (enc s : Nat) (f1 f2 : encoder → encoder) (hne : enc ≠ s)
    (he : enc < m.objs.length) :
    (((m.call enc f1).call enc f2).putEncoder s).get enc = f2 (f1 (m.get enc))
    ∧ ∀ q, q ≠ enc → q ≠ s → (((m.call enc f1).call enc f2).putEncoder s).get q = m.get q := by
  refine ⟨?_, ?_⟩
  · rw [Heap.get_putEncoder_other _ _ _ (fun h => hne h.symm),
      Heap.get_call_same _ _ _ (by simpa [Heap.call, Heap.set] using he),
      Heap.get_call_same _ _ _ he]
  · intro q hqe hqs
    rw [Heap.get_putEncoder_other _ _ _ (fun h => hqs h.symm),
      Heap.get_call_other _ _ _ _ (fun h => hqe h.symm),
      Heap.get_call_other _ _ _ _ (fun h => hqe h.symm)]

mutual
theorem Heap.encodeArray_sim (c : Codec) (sched : Heap → Nat) :
    ∀ (arr : ArrayMarshaler) (h : Heap) (enc : Nat), h.Inv → h.Live enc →
      Heap.Sim h enc (Heap.encodeArray c sched h enc arr) ((h.get enc).encodeArray c arr)
  | .mk calls ret, h, enc, hinv, hl => by
    obtain ⟨hk, hs, hne⟩ := Heap.clone_keeps h (sched h) enc hinv
    obtain ⟨hgs, hgq⟩ := Heap.clone_get h (sched h) enc hinv hl
    have ihk := Heap.MarshalLogArray_keeps c sched calls (h.clone (sched h) enc).2
      (h.clone (sched h) enc).1 hk.1 hs
    have ih := Heap.MarshalLogArray_sim c sched calls (h.clone (sched h) enc).2
      (h.clone (sched h) enc).1 hk.1 hs
    rw [hgs] at ih
    obtain ⟨ihf, ihe, iho⟩ := ih
    have hes : enc ≠ (h.clone (sched h) enc).1 := hne enc hl
    have frame : ∀ q, h.Live q → (Heap.MarshalLogArray c sched calls (h.clone (sched h) enc).2
        (h.clone (sched h) enc).1).1.get q = h.get q := by
      intro q hq
      rw [ihf q (hk.2 q hq) (hne q hq), hgq q hq]
    simp only [Heap.encodeArray, encoder.encodeArray]
    cases hp : zapmsgpack.MarshalLogArray c calls (h.get enc).clone with
    | error p =>
      rw [ihe p hp]
      exact ⟨fun q hq _ => frame q hq, fun p2 h2 => by rw [Except.error.inj h2],
        fun x hx => Except.noConfusion hx⟩
    | ok sEnc =>
      obtain ⟨⟨a, ha⟩, hst⟩ := iho sEnc hp
      rw [ha]
      cases ret with
      | some err =>
        exact ⟨fun q hq _ => frame q hq, fun p2 h2 => Except.noConfusion h2,
          fun x hx => by rw [← Except.ok.inj hx]; exact ⟨rfl, frame enc hl⟩⟩
      | none =>
        obtain ⟨fe, fq⟩ := Heap.finish_get
          (Heap.MarshalLogArray c sched calls (h.clone (sched h) enc).2
            (h.clone (sched h) enc).1).1 enc (h.clone (sched h) enc).1
          (fun e => e.write (c.EncodeArrayLen
            ((Heap.MarshalLogArray c sched calls (h.clone (sched h) enc).2
              (h.clone (sched h) enc).1).1.get (h.clone (sched h) enc).1).sliceLen))
          (fun e => e.write
            (((Heap.MarshalLogArray c sched calls (h.clone (sched h) enc).2
              (h.clone (sched h) enc).1).1.call enc
                (fun e => e.write (c.EncodeArrayLen
                  ((Heap.MarshalLogArray c sched calls (h.clone (sched h) enc).2
                    (h.clone (sched h) enc).1).1.get (h.clone (sched h) enc).1).sliceLen))).get
                      (h.clone (sched h) enc).1).buf)
          hes (ihk.2 _ (hk.2 _ hl)).1
        refine ⟨fun q hq hqe => ?_, fun p2 h2 => Except.noConfusion h2, fun x hx => ?_⟩
        · rw [fq q hqe (hne q hq)]
          exact frame q hq
        · rw [← Except.ok.inj hx]
          refine ⟨rfl, ?_⟩
          rw [fe, Heap.get_call_other _ _ _ _ hes, hst, frame enc hl]
theorem Heap.encodeObject_sim (c : Codec) (sched : Heap → Nat) :
    ∀ (obj : ObjectMarshaler) (h : Heap) (enc : Nat), h.Inv → h.Live enc →
      Heap.Sim h enc (Heap.encodeObject c sched h enc obj) ((h.get enc).encodeObject c obj)
  | .mk calls ret, h, enc, hinv, hl => by
    obtain ⟨hk, hs, hne⟩ := Heap.clone_keeps h (sched h) enc hinv
    obtain ⟨hgs, hgq⟩ := Heap.clone_get h (sched h) enc hinv hl
    have ihk := Heap.MarshalLogObject_keeps c sched calls (h.clone (sched h) enc).2
      (h.clone (sched h) enc).1 hk.1 hs
    have ih := Heap.MarshalLogObject_sim c sched calls (h.clone (sched h) enc).2
      (h.clone (sched h) enc).1 hk.1 hs
    rw [hgs] at ih
    obtain ⟨ihf, ihe, iho⟩ := ih
    have hes : enc ≠ (h.clone (sched h) enc).1 := hne enc hl
    have frame : ∀ q, h.Live q → (Heap.MarshalLogObject c sched calls (h.clone (sched h) enc).2
        (h.clone (sched h) enc).1).1.get q = h.get q := by
      intro q hq
      rw [ihf q (hk.2 q hq) (hne q hq), hgq q hq]
    simp only [Heap.encodeObject, encoder.encodeObject]
    cases hp : zapmsgpack.MarshalLogObject c calls (h.get enc).clone with
    | error p =>
      rw [ihe p hp]
      exact ⟨fun q hq _ => frame q hq, fun p2 h2 => by rw [Except.error.inj h2],
        fun x hx => Except.noConfusion hx⟩
    | ok sEnc =>
      obtain ⟨⟨a, ha⟩, hst⟩ := iho sEnc hp
      rw [ha]
      cases ret with
      | some err =>
        exact ⟨fun q hq _ => frame q hq, fun p2 h2 => Except.noConfusion h2,
          fun x hx => by rw [← Except.ok.inj hx]; exact ⟨rfl, frame enc hl⟩⟩
      | none =>
        obtain ⟨fe, fq⟩ := Heap.finish_get
          (Heap.MarshalLogObject c sched calls (h.clone (sched h) enc).2
            (h.clone (sched h) enc).1).1 enc (h.clone (sched h) enc).1
          (fun e => e.write (c.EncodeMapLen
            ((Heap.MarshalLogObject c sched calls (h.clone (sched h) enc).2
              (h.clone (sched h) enc).1).1.get (h.clone (sched h) enc).1).mapSize))
          (fun e => e.write
            (((Heap.MarshalLogObject c sched calls (h.clone (sched h) enc).2
              (h.clone (sched h) enc).1).1.call enc
                (fun e => e.write (c.EncodeMapLen
                  ((Heap.MarshalLogObject c sched calls (h.clone (sched h) enc).2
                    (h.clone (sched h) enc).1).1.get (h.clone (sched h) enc).1).mapSize))).get
                      (h.clone (sched h) enc).1).buf)
          hes (ihk.2 _ (hk.2 _ hl)).1
        refine ⟨fun q hq hqe => ?_, fun p2 h2 => Except.noConfusion h2, fun x hx => ?_⟩
        · rw [fq q hqe (hne q hq)]
          exact frame q hq
        · rw [← Except.ok.inj hx]
          refine ⟨rfl, ?_⟩
          rw [fe, Heap.get_call_other _ _ _ _ hes, hst, frame enc hl]
theorem Heap.arrayCall_sim (c : Codec) (sched : Heap → Nat) :
    ∀ (call : ArrayCall) (h : Heap) (enc : Nat), h.Inv → h.Live enc →
      Heap.SimState h enc (Heap.arrayCall c sched h enc call) (ArrayCall.run c (h.get enc) call)
  | .Append val, h, enc, hinv, hl => by
    simp only [Heap.arrayCall, ArrayCall.run]
    cases hp : (h.get enc).Append c val with
    | error p =>
      exact ⟨fun q _ _ => rfl, fun p2 h2 => by rw [Except.error.inj h2],
        fun x hx => Except.noConfusion hx⟩
    | ok e =>
      exact ⟨fun q _ hqe => Heap.get_set_other h enc q e (fun h => hqe h.symm),
        fun p2 h2 => Except.noConfusion h2,
        fun x hx => by rw [← Except.ok.inj hx]; exact ⟨⟨_, rfl⟩, Heap.get_set_same h enc e hl.1⟩⟩
  | .AppendArray arr, h, enc, hinv, hl => by
    have c1 := Heap.call_keeps h enc encoder.incSliceLen hinv hl
    have ih := Heap.encodeArray_sim c sched arr (h.call enc encoder.incSliceLen) enc c1.1
      (c1.2 _ hl)
    rw [Heap.get_call_same h enc _ hl.1] at ih
    obtain ⟨ihf, ihe, iho⟩ := ih
    simp only [Heap.arrayCall, ArrayCall.run]
    refine ⟨fun q hq hqe => ?_, fun p hp => ?_, fun e he => ?_⟩
    · rw [ihf q (c1.2 _ hq) hqe, Heap.get_call_other _ _ _ _ (fun h => hqe h.symm)]
    · cases hr : encoder.encodeArray c (h.get enc).incSliceLen arr with
      | error p2 => rw [hr] at hp; rw [← Except.error.inj hp]; exact ihe p2 hr
      | ok r => rw [hr] at hp; exact Except.noConfusion hp
    · cases hr : encoder.encodeArray c (h.get enc).incSliceLen arr with
      | error p2 => rw [hr] at he; exact Except.noConfusion he
      | ok r =>
        rw [hr] at he
        rw [← Except.ok.inj he]
        exact ⟨⟨_, (iho r hr).1⟩, (iho r hr).2⟩
  | .AppendObject obj, h, enc, hinv, hl => by
    have c1 := Heap.call_keeps h enc encoder.incSliceLen hinv hl
    have ih := Heap.encodeObject_sim c sched obj (h.call enc encoder.incSliceLen) enc c1.1
      (c1.2 _ hl)
    rw [Heap.get_call_same h enc _ hl.1] at ih
    obtain ⟨ihf, ihe, iho⟩ := ih
    simp only [Heap.arrayCall, ArrayCall.run]
    refine ⟨fun q hq hqe => ?_, fun p hp => ?_, fun e he => ?_⟩
    · rw [ihf q (c1.2 _ hq) hqe, Heap.get_call_other _ _ _ _ (fun h => hqe h.symm)]
    · cases hr : encoder.encodeObject c (h.get enc).incSliceLen obj with
      | error p2 => rw [hr] at hp; rw [← Except.error.inj hp]; exact ihe p2 hr
      | ok r => rw [hr] at hp; exact Except.noConfusion hp
    · cases hr : encoder.encodeObject c (h.get enc).incSliceLen obj with
      | error p2 => rw [hr] at he; exact Except.noConfusion he
      | ok r =>
        rw [hr] at he
        rw [← Except.ok.inj he]
        exact ⟨⟨_, (iho r hr).1⟩, (iho r hr).2⟩
  | .AppendReflected val, h, enc, hinv, hl => by
    simp only [Heap.arrayCall, ArrayCall.run]
    exact ⟨fun q _ hqe => Heap.get_call_other h enc q _ (fun h => hqe h.symm),
      fun p2 h2 => Except.noConfusion h2,
      fun x hx => by rw [← Except.ok.inj hx]; exact ⟨⟨_, rfl⟩, Heap.get_call_same h enc _ hl.1⟩⟩
theorem Heap.objectCall_sim (c : Codec) (sched : Heap → Nat) :
    ∀ (call : ObjectCall) (h : Heap) (enc : Nat), h.Inv → h.Live enc →
      Heap.SimState h enc (Heap.objectCall c sched h enc call)
        (ObjectCall.run c (h.get enc) call)
  | .Add key val, h, enc, hinv, hl => by
    simp only [Heap.objectCall, ObjectCall.run]
    cases hp : (h.get enc).Add c key val with
    | error p =>
      exact ⟨fun q _ _ => rfl, fun p2 h2 => by rw [Except.error.inj h2],
        fun x hx => Except.noConfusion hx⟩
    | ok e =>
      exact ⟨fun q _ hqe => Heap.get_set_other h enc q e (fun h => hqe h.symm),
        fun p2 h2 => Except.noConfusion h2,
        fun x hx => by rw [← Except.ok.inj hx]; exact ⟨⟨_, rfl⟩, Heap.get_set_same h enc e hl.1⟩⟩
  | .AddArray key arr, h, enc, hinv, hl => by
    have c1 := Heap.call_keeps h enc encoder.incMapSize hinv hl
    have c2 := Heap.call_keeps _ enc (fun e => e.encodeKey c key) c1.1 (c1.2 _ hl)
    have ih := Heap.encodeArray_sim c sched arr _ enc c2.1 (c2.2 _ (c1.2 _ hl))
    rw [Heap.get_call_same _ enc _ (c1.2 _ hl).1, Heap.get_call_same h enc _ hl.1] at ih
    obtain ⟨ihf, ihe, iho⟩ := ih
    simp only [Heap.objectCall, ObjectCall.run]
    refine ⟨fun q hq hqe => ?_, fun p hp => ?_, fun e he => ?_⟩
    · rw [ihf q (c2.2 _ (c1.2 _ hq)) hqe, Heap.get_call_other _ _ _ _ (fun h => hqe h.symm),
        Heap.get_call_other _ _ _ _ (fun h => hqe h.symm)]
    · cases hr : encoder.encodeArray c ((h.get enc).incMapSize.encodeKey c key) arr with
      | error p2 => rw [hr] at hp; rw [← Except.error.inj hp]; exact ihe p2 hr
      | ok r => rw [hr] at hp; exact Except.noConfusion hp
    · cases hr : encoder.encodeArray c ((h.get enc).incMapSize.encodeKey c key) arr with
      | error p2 => rw [hr] at he; exact Except.noConfusion he
      | ok r =>
        rw [hr] at he
        rw [← Except.ok.inj he]
        exact ⟨⟨_, (iho r hr).1⟩, (iho r hr).2⟩
  | .AddObject key obj, h, enc, hinv, hl => by
    have c1 := Heap.call_keeps h enc encoder.incMapSize hinv hl
    have c2 := Heap.call_keeps _ enc (fun e => e.encodeKey c key) c1.1 (c1.2 _ hl)
    have ih := Heap.encodeObject_sim c sched obj _ enc c2.1 (c2.2 _ (c1.2 _ hl))
    rw [Heap.get_call_same _ enc _ (c1.2 _ hl).1, Heap.get_call_same h enc _ hl.1] at ih
    obtain ⟨ihf, ihe, iho⟩ := ih
    simp only [Heap.objectCall, ObjectCall.run]
    refine ⟨fun q hq hqe => ?_, fun p hp => ?_, fun e he => ?_⟩
    · rw [ihf q (c2.2 _ (c1.2 _ hq)) hqe, Heap.get_call_other _ _ _ _ (fun h => hqe h.symm),
        Heap.get_call_other _ _ _ _ (fun h => hqe h.symm)]
    · cases hr : encoder.encodeObject c ((h.get enc).incMapSize.encodeKey c key) obj with
      | error p2 => rw [hr] at hp; rw [← Except.error.inj hp]; exact ihe p2 hr
      | ok r => rw [hr] at hp; exact Except.noConfusion hp
    · cases hr : encoder.encodeObject c ((h.get enc).incMapSize.encodeKey c key) obj with
      | error p2 => rw [hr] at he; exact Except.noConfusion he
      | ok r =>
        rw [hr] at he
        rw [← Except.ok.inj he]
        exact ⟨⟨_, (iho r hr).1⟩, (iho r hr).2⟩
  | .AddReflected key val, h, enc, hinv, hl => by
    simp only [Heap.objectCall, ObjectCall.run]
    exact ⟨fun q _ hqe => Heap.get_call_other h enc q _ (fun h => hqe h.symm),
      fun p2 h2 => Except.noConfusion h2,
      fun x hx => by rw [← Except.ok.inj hx]; exact ⟨⟨_, rfl⟩, Heap.get_call_same h enc _ hl.1⟩⟩
  | .OpenNamespace key, h, enc, hinv, hl => by
    simp only [Heap.objectCall, ObjectCall.run]
    exact ⟨fun q _ hqe => Heap.get_call_other h enc q _ (fun h => hqe h.symm),
      fun p2 h2 => Except.noConfusion h2,
      fun x hx => by rw [← Except.ok.inj hx]; exact ⟨⟨_, rfl⟩, Heap.get_call_same h enc _ hl.1⟩⟩
theorem Heap.MarshalLogArray_sim (c : Codec) (sched : Heap → Nat) :
    ∀ (calls : List ArrayCall) (h : Heap) (enc : Nat), h.Inv → h.Live enc →
      Heap.SimState h enc (Heap.MarshalLogArray c sched calls h enc)
        (zapmsgpack.MarshalLogArray c calls (h.get enc))
  | [], h, enc, _, _ => by
    simp only [Heap.MarshalLogArray, zapmsgpack.MarshalLogArray]
    exact ⟨fun q _ _ => rfl, fun p2 h2 => Except.noConfusion h2,
      fun x hx => by rw [← Except.ok.inj hx]; exact ⟨⟨_, rfl⟩, rfl⟩⟩
  | call :: rest, h, enc, hinv, hl => by
    have k1 := Heap.arrayCall_keeps c sched call h enc hinv hl
    obtain ⟨f1, e1, o1⟩ := Heap.arrayCall_sim c sched call h enc hinv hl
    simp only [Heap.MarshalLogArray, zapmsgpack.MarshalLogArray]
    cases hp : ArrayCall.run c (h.get enc) call with
    | error p =>
      rw [e1 p hp]
      exact ⟨f1, fun p2 h2 => by rw [Except.error.inj h2], fun x hx => Except.noConfusion hx⟩
    | ok e2 =>
      obtain ⟨⟨a, ha⟩, hst⟩ := o1 e2 hp
      rw [ha]
      simp only []
      obtain ⟨f2, e3, o3⟩ := Heap.MarshalLogArray_sim c sched rest _ enc k1.1 (k1.2 _ hl)
      rw [hst] at e3 o3
      exact ⟨fun q hq hqe => by rw [f2 q (k1.2 _ hq) hqe, f1 q hq hqe], e3, o3⟩
theorem Heap.MarshalLogObject_sim (c : Codec) (sched : Heap → Nat) :
    ∀ (calls : List ObjectCall) (h : Heap) (enc : Nat), h.Inv → h.Live enc →
      Heap.SimState h enc (Heap.MarshalLogObject c sched calls h enc)
        (zapmsgpack.MarshalLogObject c calls (h.get enc))
  | [], h, enc, _, _ => by
    simp only [Heap.MarshalLogObject, zapmsgpack.MarshalLogObject]
    exact ⟨fun q _ _ => rfl, fun p2 h2 => Except.noConfusion h2,
      fun x hx => by rw [← Except.ok.inj hx]; exact ⟨⟨_, rfl⟩, rfl⟩⟩
  | call :: rest, h, enc, hinv, hl => by
    have k1 := Heap.objectCall_keeps c sched call h enc hinv hl
    obtain ⟨f1, e1, o1⟩ := Heap.objectCall_sim c sched call h enc hinv hl
    simp only [Heap.MarshalLogObject, zapmsgpack.MarshalLogObject]
    cases hp : ObjectCall.run c (h.get enc) call with
    | error p =>
      rw [e1 p hp]
      exact ⟨f1, fun p2 h2 => by rw [Except.error.inj h2], fun x hx => Except.noConfusion hx⟩
    | ok e2 =>
      obtain ⟨⟨a, ha⟩, hst⟩ := o1 e2 hp
      rw [ha]
      simp only []
      obtain ⟨f2, e3, o3⟩ := Heap.MarshalLogObject_sim c sched rest _ enc k1.1 (k1.2 _ hl)
      rw [hst] at e3 o3
      exact ⟨fun q hq hqe => by rw [f2 q (k1.2 _ hq) hqe, f1 q hq hqe], e3, o3⟩
end

theorem Heap.AddArray_sim (c : Codec) (sched : Heap → Nat) (key : String)
    (arr : ArrayMarshaler) (h : Heap) (enc : Nat) (hinv : h.Inv) (hl : h.Live enc) :
    Heap.Sim h enc (Heap.objectCall c sched h enc (.AddArray key arr))
      ((h.get enc).AddArray c key arr) := by
  have c1 := Heap.call_keeps h enc encoder.incMapSize hinv hl
  have c2 := Heap.call_keeps _ enc (fun e => e.encodeKey c key) c1.1 (c1.2 _ hl)
  have ih := Heap.encodeArray_sim c sched arr _ enc c2.1 (c2.2 _ (c1.2 _ hl))
  rw [Heap.get_call_same _ enc _ (c1.2 _ hl).1, Heap.get_call_same h enc _ hl.1] at ih
  obtain ⟨ihf, ihe, iho⟩ := ih
  simp only [Heap.objectCall, encoder.AddArray]
  refine ⟨fun q hq hqe => ?_, ihe, iho⟩
  rw [ihf q (c2.2 _ (c1.2 _ hq)) hqe, Heap.get_call_other _ _ _ _ (fun h => hqe h.symm),
    Heap.get_call_other _ _ _ _ (fun h => hqe h.symm)]

theorem Heap.AddObject_sim (c : Codec) (sched : Heap → Nat) (key : String)
    (obj : ObjectMarshaler) (h : Heap) (enc : Nat) (hinv : h.Inv) (hl : h.Live enc) :
    Heap.Sim h enc (Heap.objectCall c sched h enc (.AddObject key obj))
      ((h.get enc).AddObject c key obj) := by
  have c1 := Heap.call_keeps h enc encoder.incMapSize hinv hl
  have c2 := Heap.call_keeps _ enc (fun e => e.encodeKey c key) c1.1 (c1.2 _ hl)
  have ih := Heap.encodeObject_sim c sched obj _ enc c2.1 (c2.2 _ (c1.2 _ hl))
  rw [Heap.get_call_same _ enc _ (c1.2 _ hl).1, Heap.get_call_same h enc _ hl.1] at ih
  obtain ⟨ihf, ihe, iho⟩ := ih
  simp only [Heap.objectCall, encoder.AddObject]
  refine ⟨fun q hq hqe => ?_, ihe, iho⟩
  rw [ihf q (c2.2 _ (c1.2 _ hq)) hqe, Heap.get_call_other _ _ _ _ (fun h => hqe h.symm),
    Heap.get_call_other _ _ _ _ (fun h => hqe h.symm)]

theorem Heap.AddReflected_sim (c : Codec) (sched : Heap → Nat) (key : String)
    (val : Interface) (h : Heap) (enc : Nat) (hl : h.Live enc) :
    Heap.Sim h enc (Heap.objectCall c sched h enc (.AddReflected key val))
      (.ok ((h.get enc).AddReflected c key val)) := by
  simp only [Heap.objectCall]
  exact ⟨fun q _ hqe => Heap.get_call_other h enc q _ (fun h => hqe h.symm),
    fun p2 h2 => Except.noConfusion h2,
    fun x hx => by rw [← Except.ok.inj hx]; exact ⟨rfl, Heap.get_call_same h enc _ hl.1⟩⟩

theorem Heap.AddTo_sim (c : Codec) (sched : Heap → Nat) (f : zapcore.Field) (h : Heap)
    (enc : Nat) (hinv : h.Inv) (hl : h.Live enc) :
    Heap.SimState h enc (Heap.AddTo c sched h enc f) (f.AddTo c (h.get enc)) := by
  have tail : ∀ (call : ObjectCall) (key : String)
      (P : Except String (encoder × Option GoError)),
      Heap.Sim h enc (Heap.objectCall c sched h enc call) P →
      Heap.SimState h enc
        (match (Heap.objectCall c sched h enc call).2 with
          | .error p => ((Heap.objectCall c sched h enc call).1,
              (Except.error p : Except String Unit))
          | .ok none => ((Heap.objectCall c sched h enc call).1, .ok ())
          | .ok (some err) => ((Heap.objectCall c sched h enc call).1.call enc
              (fun e => e.AddString c (key ++ "Error") err), .ok ()))
        (match P with
          | .error p => .error p
          | .ok r => .ok (zapcore.Field.addError c key r)) := by
    intro call key P hsim
    have hk := Heap.objectCall_keeps c sched call h enc hinv hl
    obtain ⟨fr, er, ok⟩ := hsim
    cases P with
    | error p =>
      rw [er p rfl]
      exact ⟨fr, fun p2 h2 => by rw [Except.error.inj h2], fun x hx => Except.noConfusion hx⟩
    | ok x =>
      obtain ⟨x1, x2⟩ := x
      obtain ⟨h2, hst⟩ := ok (x1, x2) rfl
      rw [h2]
      cases x2 with
      | none =>
        exact ⟨fr, fun p2 h2 => Except.noConfusion h2,
          fun e he => by rw [← Except.ok.inj he]; exact ⟨⟨_, rfl⟩, hst⟩⟩
      | some err =>
        refine ⟨fun q hq hqe => ?_, fun p2 h2 => Except.noConfusion h2, fun e he => ?_⟩
        · exact (Heap.get_call_other _ enc q _ (fun h => hqe h.symm)).trans (fr q hq hqe)
        · rw [← Except.ok.inj he]
          refine ⟨⟨_, rfl⟩, ?_⟩
          exact (Heap.get_call_same _ enc _ (hk.2 _ hl).1).trans (by rw [hst]; rfl)
  cases f with
  | Array key arr =>
    exact tail (.AddArray key arr) key _ (Heap.AddArray_sim c sched key arr h enc hinv hl)
  | Object key obj =>
    exact tail (.AddObject key obj) key _ (Heap.AddObject_sim c sched key obj h enc hinv hl)
  | Scalar key val =>
    simp only [Heap.AddTo, Heap.objectCall, zapcore.Field.AddTo, Heap.andThen]
    cases hp : (h.get enc).Add c key val with
    | error p =>
      exact ⟨fun q _ _ => rfl, fun p2 h2 => by rw [Except.error.inj h2],
        fun x hx => Except.noConfusion hx⟩
    | ok e =>
      exact ⟨fun q _ hqe => Heap.get_set_other h enc q e (fun h => hqe h.symm),
        fun p2 h2 => Except.noConfusion h2,
        fun x hx => by rw [← Except.ok.inj hx]; exact ⟨⟨_, rfl⟩, Heap.get_set_same h enc e hl.1⟩⟩
  | Reflect key val =>
    exact tail (.AddReflected key val) key _ (Heap.AddReflected_sim c sched key val h enc hl)
  | Namespace key =>
    exact ⟨fun q _ hqe => Heap.get_call_other h enc q _ (fun h => hqe h.symm),
      fun p2 h2 => Except.noConfusion h2,
      fun x hx => by
        rw [← Except.ok.inj hx]; exact ⟨⟨_, rfl⟩, Heap.get_call_same h enc _ hl.1⟩⟩
  | Stringer key str =>
    exact ⟨fun q _ hqe => Heap.get_call_other h enc q _ (fun h => hqe h.symm),
      fun p2 h2 => Except.noConfusion h2,
      fun x hx => by
        rw [← Except.ok.inj hx]; exact ⟨⟨_, rfl⟩, Heap.get_call_same h enc _ hl.1⟩⟩
  | Skip =>
    exact ⟨fun q _ _ => rfl, fun p2 h2 => Except.noConfusion h2,
      fun x hx => by rw [← Except.ok.inj hx]; exact ⟨⟨_, rfl⟩, rfl⟩⟩

/-- Sequencing: a heap run followed by a continuation agrees with the state run
followed by the corresponding continuation. -/
theorem Heap.SimState.andThen {α β : Type} (h : Heap) (enc : Nat)
    (r : Heap × Except String α) (pr : Except String encoder)
    (k : Heap → Heap × Except String β) (pk : encoder → Except String encoder)
    (hk : h.Keeps r.1) (hs : Heap.SimState h enc r pr)
    (hc : ∀ e, pr = .ok e → Heap.SimState r.1 enc (k r.1) (pk e)) :
    Heap.SimState h enc (Heap.andThen r k) (pr.bind pk) := by
  obtain ⟨fr, er, ok⟩ := hs
  unfold Heap.andThen
  cases pr with
  | error p =>
    rw [er p rfl]
    exact ⟨fr, fun p2 h2 => by rw [← Except.error.inj h2],
      fun x hx => Except.noConfusion hx⟩
  | ok e =>
    obtain ⟨⟨a, ha⟩, hst⟩ := ok e rfl
    rw [ha]
    obtain ⟨f2, e2, o2⟩ := hc e rfl
    exact ⟨fun q hq hqe => by rw [f2 q (hk.2 _ hq) hqe, fr q hq hqe], e2, o2⟩

theorem fields_bind (c : Codec) (f : zapcore.Field) (rest : List zapcore.Field) (e : encoder) :
    EncodeEntry.fields c (f :: rest) e = (f.AddTo c e).bind (EncodeEntry.fields c rest) := by
  rw [EncodeEntry.fields]
  cases f.AddTo c e <;> rfl

theorem Heap.fields_sim (c : Codec) (sched : Heap → Nat) :
    ∀ (fields : List zapcore.Field) (h : Heap) (enc : Nat), h.Inv → h.Live enc →
      Heap.SimState h enc (Heap.fields c sched fields h enc)
        (EncodeEntry.fields c fields (h.get enc))
  | [], h, enc, _, _ =>
    ⟨fun q _ _ => rfl, fun p2 h2 => Except.noConfusion h2,
      fun x hx => by rw [← Except.ok.inj hx]; exact ⟨⟨_, rfl⟩, rfl⟩⟩
  | f :: rest, h, enc, hinv, hl => by
    have hk := Heap.AddTo_keeps c sched f h enc hinv hl
    rw [fields_bind]
    simp only [Heap.fields]
    refine Heap.SimState.andThen h enc _ _ _ _ hk (Heap.AddTo_sim c sched f h enc hinv hl)
      (fun e he => ?_)
    have ih := Heap.fields_sim c sched rest _ enc hk.1 (hk.2 _ hl)
    rw [((Heap.AddTo_sim c sched f h enc hinv hl).2.2 e he).2] at ih
    exact ih

theorem runAppends_bind (c : Codec) (v : AppendValue) (rest : List AppendValue) (e : encoder) :
    e.runAppends c (v :: rest) = (e.Append c v).bind (encoder.runAppends c rest) := by
  rw [encoder.runAppends]
  cases e.Append c v <;> rfl

theorem Heap.runAppends_sim (c : Codec) :
    ∀ (calls : List AppendValue) (h : Heap) (enc : Nat), h.Inv → h.Live enc →
      Heap.SimState h enc (Heap.runAppends c calls h enc) ((h.get enc).runAppends c calls)
  | [], h, enc, _, _ =>
    ⟨fun q _ _ => rfl, fun p2 h2 => Except.noConfusion h2,
      fun x hx => by rw [← Except.ok.inj hx]; exact ⟨⟨_, rfl⟩, rfl⟩⟩
  | v :: rest, h, enc, hinv, hl => by
    simp only [Heap.runAppends, encoder.runAppends]
    cases hp : (h.get enc).Append c v with
    | error p =>
      exact ⟨fun q _ _ => rfl, fun p2 h2 => by rw [Except.error.inj h2],
        fun x hx => Except.noConfusion hx⟩
    | ok e =>
      have s := Heap.set_keeps h enc e hinv hl
      obtain ⟨f2, e2, o2⟩ := Heap.runAppends_sim c rest (h.set enc e) enc s.1 (s.2 _ hl)
      rw [Heap.get_set_same h enc e hl.1] at e2 o2
      exact ⟨fun q hq hqe => by
        rw [f2 q (s.2 _ hq) hqe, Heap.get_set_other h enc q e (fun h => hqe h.symm)], e2, o2⟩

theorem level_eq_entryBlock (c : Codec) (cfg : zapcore.EncoderConfig) (ent : zapcore.Entry)
    (e : encoder) :
    EncodeEntry.level c cfg ent e =
      if cfg.LevelKey ≠ "" then
        zapmsgpack.entryBlock c e cfg.LevelKey (cfg.EncodeLevel.map (fun f => f ent.Level))
          ent.Level.String
      else .ok e := by
  unfold EncodeEntry.level entryBlock
  by_cases hk : cfg.LevelKey ≠ ""
  · rw [if_pos hk, if_pos hk]
    cases cfg.EncodeLevel with
    | none => rfl
    | some f =>
      simp only [Option.map]
      cases (e.incMapSize.write (c.EncodeString cfg.LevelKey)).runAppends c (f ent.Level) <;> rfl
  · rw [if_neg hk, if_neg hk]

theorem name_eq_entryBlock (c : Codec) (cfg : zapcore.EncoderConfig) (ent : zapcore.Entry)
    (e : encoder) :
    EncodeEntry.name c cfg ent e =
      if ent.LoggerName ≠ "" ∧ cfg.NameKey ≠ "" then
        zapmsgpack.entryBlock c e cfg.NameKey
          (some ((cfg.EncodeName.getD zapcore.FullNameEncoder) ent.LoggerName)) ent.LoggerName
      else .ok e := by
  unfold EncodeEntry.name entryBlock
  by_cases hk : ent.LoggerName ≠ "" ∧ cfg.NameKey ≠ ""
  · rw [if_pos hk, if_pos hk]
    cases cfg.EncodeName with
    | none =>
      simp only [Option.getD]
      cases (e.incMapSize.write (c.EncodeString cfg.NameKey)).runAppends c
        (zapcore.FullNameEncoder ent.LoggerName) <;> rfl
    | some g =>
      simp only [Option.getD]
      cases (e.incMapSize.write (c.EncodeString cfg.NameKey)).runAppends c
        (g ent.LoggerName) <;> rfl
  · rw [if_neg hk, if_neg hk]

theorem caller_eq_entryBlock (c : Codec) (cfg : zapcore.EncoderConfig) (ent : zapcore.Entry)
    (e : encoder) :
    EncodeEntry.caller c cfg ent e =
      if ent.Caller.Defined = true ∧ cfg.CallerKey ≠ "" then
        zapmsgpack.entryBlock c e cfg.CallerKey (cfg.EncodeCaller.map (fun f => f ent.Caller))
          ent.Caller.String
      else .ok e := by
  unfold EncodeEntry.caller entryBlock
  by_cases hk : ent.Caller.Defined = true ∧ cfg.CallerKey ≠ ""
  · rw [if_pos hk, if_pos hk]
    cases cfg.EncodeCaller with
    | none => rfl
    | some f =>
      simp only [Option.map]
      cases (e.incMapSize.write (c.EncodeString cfg.CallerKey)).runAppends c (f ent.Caller)
        <;> rfl
  · rw [if_neg hk, if_neg hk]

theorem final_eq_finalFrom (c : Codec) (enc : encoder) (cfg : zapcore.EncoderConfig)
    (ent : zapcore.Entry) (fields : List zapcore.Field) (hcfg : enc.EncoderConfig = some cfg) :
    EncodeEntry.final c enc ent fields = EncodeEntry.finalFrom c cfg cfg ent fields enc.clone := by
  have hclone : enc.clone.EncoderConfig = some cfg := by simp [encoder.clone, hcfg]
  unfold EncodeEntry.final EncodeEntry.finalFrom
  simp only [hclone, hcfg]
  cases EncodeEntry.level c cfg ent enc.clone with
  | error p => rfl
  | ok f1 =>
    simp only [Except.bind]
    cases EncodeEntry.name c cfg ent (EncodeEntry.time c cfg ent f1) with
    | error p => rfl
    | ok f3 =>
      simp only []
      cases EncodeEntry.caller c cfg ent f3 with
      | error p => rfl
      | ok f4 =>
        simp only []
        cases EncodeEntry.fields c fields (EncodeEntry.message c cfg cfg ent f4) <;> rfl

theorem final_nil (c : Codec) (enc : encoder) (ent : zapcore.Entry)
    (fields : List zapcore.Field) (hcfg : enc.EncoderConfig = none) :
    EncodeEntry.final c enc ent fields = .error nilDereference := by
  have hclone : enc.clone.EncoderConfig = none := by simp [encoder.clone, hcfg]
  unfold EncodeEntry.final
  simp only [hclone, hcfg]

theorem Heap.Refines.ret {α : Type} (h : Heap) (enc : Nat) (a : α) (hinv : h.Inv) :
    Heap.Refines h enc (h, (Except.ok a : Except String α)) (.ok (h.get enc)) :=
  ⟨Heap.Keeps.refl h hinv, fun q _ _ => rfl, fun p2 h2 => Except.noConfusion h2,
    fun x hx => by rw [← Except.ok.inj hx]; exact ⟨⟨_, rfl⟩, rfl⟩⟩

theorem Heap.Refines.call {α : Type} (h : Heap) (enc : Nat) (m : encoder → encoder) (a : α)
    (hinv : h.Inv) (hl : h.Live enc) :
    Heap.Refines h enc (h.call enc m, (Except.ok a : Except String α))
      (.ok (m (h.get enc))) :=
  ⟨Heap.call_keeps h enc m hinv hl,
    fun q _ hqe => Heap.get_call_other h enc q _ (fun h => hqe h.symm),
    fun p2 h2 => Except.noConfusion h2,
    fun x hx => by
      rw [← Except.ok.inj hx]; exact ⟨⟨_, rfl⟩, Heap.get_call_same h enc _ hl.1⟩⟩

/-- A run that starts after a method call on the receiver. -/
theorem Heap.Refines.after_call {α : Type} (h : Heap) (enc : Nat) (m : encoder → encoder)
    (r : Heap × Except String α) (f : encoder → Except String encoder) (hinv : h.Inv)
    (hl : h.Live enc)
    (hr : (h.call enc m).Inv → (h.call enc m).Live enc →
      Heap.Refines (h.call enc m) enc r (f ((h.call enc m).get enc))) :
    Heap.Refines h enc r (f (m (h.get enc))) := by
  have ck := Heap.call_keeps h enc m hinv hl
  obtain ⟨hk, fr, er, ok⟩ := hr ck.1 (ck.2 _ hl)
  rw [Heap.get_call_same h enc m hl.1] at er ok
  exact ⟨ck.trans hk, fun q hq hqe => by
    rw [fr q (ck.2 _ hq) hqe, Heap.get_call_other h enc q _ (fun h => hqe h.symm)], er, ok⟩

/-- Sequencing of two runs. -/
theorem Heap.Refines.seq {α β : Type} (h : Heap) (enc : Nat) (r : Heap × Except String α)
    (pr : Except String encoder) (k : Heap → Heap × Except String β)
    (pk : encoder → Except String encoder) (hl : h.Live enc)
    (hs : Heap.Refines h enc r pr)
    (hc : r.1.Inv → r.1.Live enc → Heap.Refines r.1 enc (k r.1) (pk (r.1.get enc))) :
    Heap.Refines h enc (Heap.andThen r k) (pr.bind pk) := by
  obtain ⟨hk, hsim⟩ := hs
  have hc2 := hc hk.1 (hk.2 _ hl)
  refine ⟨Heap.andThen_keeps h r k hk (fun _ => hk.trans hc2.1), ?_⟩
  refine Heap.SimState.andThen h enc r pr k pk hk hsim (fun e he => ?_)
  rw [← (hsim.2.2 e he).2]
  exact hc2.2

theorem Heap.runAppends_refines (c : Codec) (calls : List AppendValue) (h : Heap) (enc : Nat)
    (hinv : h.Inv) (hl : h.Live enc) :
    Heap.Refines h enc (Heap.runAppends c calls h enc) ((h.get enc).runAppends c calls) :=
  ⟨Heap.runAppends_keeps c calls h enc hinv hl, Heap.runAppends_sim c calls h enc hinv hl⟩

theorem Heap.fields_refines (c : Codec) (sched : Heap → Nat) (fields : List zapcore.Field)
    (h : Heap) (enc : Nat) (hinv : h.Inv) (hl : h.Live enc) :
    Heap.Refines h enc (Heap.fields c sched fields h enc)
      (EncodeEntry.fields c fields (h.get enc)) :=
  ⟨Heap.fields_keeps c sched fields h enc hinv hl, Heap.fields_sim c sched fields h enc hinv hl⟩

theorem Heap.entryBlock_refines (c : Codec) (h : Heap) (final : Nat) (key : String)
    (callback : Option (List AppendValue)) (fallback : String) (hinv : h.Inv)
    (hl : h.Live final) :
    Heap.Refines h final (Heap.entryBlock c h final key callback fallback)
      (zapmsgpack.entryBlock c (h.get final) key callback fallback) := by
  cases callback with
  | none =>
    have c1 := Heap.call_keeps h final encoder.incMapSize hinv hl
    have c2 := Heap.call_keeps _ final (fun e => e.write (c.EncodeString key)) c1.1 (c1.2 _ hl)
    exact ⟨c1.trans c2, fun q _ hqe => by
        simp only [Heap.entryBlock]
        rw [Heap.get_call_other _ _ _ _ (fun h => hqe h.symm),
          Heap.get_call_other _ _ _ _ (fun h => hqe h.symm)],
      fun p2 h2 => by
        simp only [zapmsgpack.entryBlock] at h2
        simp only [Heap.entryBlock]
        rw [Except.error.inj h2],
      fun x hx => by simp only [zapmsgpack.entryBlock] at hx; exact Except.noConfusion hx⟩
  | some calls =>
    simp only [Heap.entryBlock, zapmsgpack.entryBlock]
    refine Heap.Refines.after_call h final encoder.incMapSize _
      (fun e => ((e.write (c.EncodeString key)).runAppends c calls).bind (fun final =>
        if (e.write (c.EncodeString key)).buf.length = final.buf.length then
          .ok (final.write (c.EncodeString fallback))
        else .ok final)) hinv hl (fun i1 l1 => ?_)
    refine Heap.Refines.after_call _ final (fun e => e.write (c.EncodeString key)) _
      (fun e => (e.runAppends c calls).bind (fun final =>
        if e.buf.length = final.buf.length then
          .ok (final.write (c.EncodeString fallback))
        else .ok final)) i1 l1 (fun i2 l2 => ?_)
    refine Heap.Refines.seq _ final _ _ _ _ l2
      (Heap.runAppends_refines c calls _ final i2 l2) (fun i3 l3 => ?_)
    split
    · exact Heap.Refines.call _ final _ () i3 l3
    · exact Heap.Refines.ret _ final () i3

/-- A guarded block of `EncodeEntry`. -/
theorem Heap.block_refines (c : Codec) (h : Heap) (final : Nat) (p : Prop) [Decidable p]
    (key : String) (callback : Option (List AppendValue)) (fallback : String) (hinv : h.Inv)
    (hl : h.Live final) :
    Heap.Refines h final
      (if p then Heap.entryBlock c h final key callback fallback
        else (h, (Except.ok () : Except String Unit)))
      (if p then zapmsgpack.entryBlock c (h.get final) key callback fallback
        else .ok (h.get final)) := by
  by_cases hp : p
  · rw [if_pos hp, if_pos hp]
    exact Heap.entryBlock_refines c h final key callback fallback hinv hl
  · rw [if_neg hp, if_neg hp]
    exact Heap.Refines.ret h final () hinv

theorem Heap.EncodeEntry.final_refines (c : Codec) (sched : Heap → Nat) (h : Heap)
    (enc final : Nat) (cfg encCfg : zapcore.EncoderConfig) (ent : zapcore.Entry)
    (fields : List zapcore.Field) (hinv : h.Inv) (hl : h.Live final)
    (hcf : (h.get final).EncoderConfig = some cfg)
    (hce : (h.get enc).EncoderConfig = some encCfg) :
    Heap.Refines h final (Heap.EncodeEntry.final c sched h enc final ent fields)
      (EncodeEntry.finalFrom c cfg encCfg ent fields (h.get final)) := by
  unfold Heap.EncodeEntry.final EncodeEntry.finalFrom
  simp only [hcf, hce]
  refine Heap.Refines.seq h final _ _ _ _ hl ?_ (fun i1 l1 => ?_)
  · rw [level_eq_entryBlock]
    exact Heap.block_refines c h final _ _ _ _ hinv hl
  refine Heap.Refines.seq _ final _ _ _ _ l1 ?_ (fun i2 l2 => ?_)
  · rw [name_eq_entryBlock]
    refine Heap.Refines.after_call _ final (EncodeEntry.time c cfg ent) _
      (fun e => if ent.LoggerName ≠ "" ∧ cfg.NameKey ≠ "" then
          zapmsgpack.entryBlock c e cfg.NameKey
            (some ((cfg.EncodeName.getD zapcore.FullNameEncoder) ent.LoggerName))
            ent.LoggerName
        else .ok e) i1 l1 (fun i l => ?_)
    exact Heap.block_refines c _ final _ _ _ _ i l
  refine Heap.Refines.seq _ final _ _ _ _ l2 ?_ (fun i3 l3 => ?_)
  · rw [caller_eq_entryBlock]
    exact Heap.block_refines c _ final _ _ _ _ i2 l2
  refine Heap.Refines.seq _ final _ _ _ _ l3 ?_ (fun i4 l4 => ?_)
  · refine Heap.Refines.after_call _ final (EncodeEntry.message c cfg encCfg ent) _
      (fun e => EncodeEntry.fields c fields e) i3 l3 (fun i l => ?_)
    exact Heap.fields_refines c sched fields _ final i l
  exact Heap.Refines.call _ final _ () i4 l4

theorem Heap.EncodeEntry.final_no_config (c : Codec) (sched : Heap → Nat) (h : Heap)
    (enc final : Nat) (ent : zapcore.Entry) (fields : List zapcore.Field)
    (hce : (h.get enc).EncoderConfig = none) :
    Heap.EncodeEntry.final c sched h enc final ent fields = (h, .error nilDereference) := by
  unfold Heap.EncodeEntry.final
  rw [hce]
  cases (h.get final).EncoderConfig <;> rfl

/-- The method `EncodeEntry` on the heap returns what the method returns on the
state of its receiver, panics when it panics there, and leaves every live
instance, the receiver included, in the state it had before the call. -/
theorem Heap.EncodeEntry_agrees (c : Codec) (sched : Heap → Nat) (h : Heap) (enc : Nat)
    (ent : zapcore.Entry) (fields : List zapcore.Field) (hinv : h.Inv) (hl : h.Live enc) :
    (Heap.EncodeEntry c sched h enc ent fields).2 = (h.get enc).EncodeEntry c ent fields
    ∧ ∀ q, h.Live q → (Heap.EncodeEntry c sched h enc ent fields).1.get q = h.get q := by
  obtain ⟨k1, l1, n1⟩ := Heap.clone_keeps h (sched h) enc hinv
  obtain ⟨g1s, g1q⟩ := Heap.clone_get h (sched h) enc hinv hl
  have c1 := Heap.call_keeps _ (h.clone (sched h) enc).1
    (fun e => e.write (c.EncodeArrayLen 2)) k1.1 l1
  have c2 := Heap.call_keeps _ (h.clone (sched h) enc).1
    (fun e => e.write (c.EncodeTime ent.Time)) c1.1 (c1.2 _ l1)
  have k12 := k1.trans (c1.trans c2)
  have lf := c2.2 _ (c1.2 _ l1)
  have gF : (((h.clone (sched h) enc).2.call (h.clone (sched h) enc).1
      (fun e => e.write (c.EncodeArrayLen 2))).call (h.clone (sched h) enc).1
      (fun e => e.write (c.EncodeTime ent.Time))).get (h.clone (sched h) enc).1
      = (((h.get enc).clone).write (c.EncodeArrayLen 2)).write (c.EncodeTime ent.Time) := by
    rw [Heap.get_call_same _ _ _ (c1.2 _ l1).1, Heap.get_call_same _ _ _ l1.1, g1s]
  have gq : ∀ q, h.Live q → (((h.clone (sched h) enc).2.call (h.clone (sched h) enc).1
      (fun e => e.write (c.EncodeArrayLen 2))).call (h.clone (sched h) enc).1
      (fun e => e.write (c.EncodeTime ent.Time))).get q = h.get q := by
    intro q hq
    rw [Heap.get_call_other _ _ _ _ (fun heq => n1 q hq heq.symm),
      Heap.get_call_other _ _ _ _ (fun heq => n1 q hq heq.symm), g1q q hq]
  simp only [Heap.EncodeEntry, encoder.EncodeEntry]
  generalize ((h.clone (sched h) enc).2.call (h.clone (sched h) enc).1
      (fun e => e.write (c.EncodeArrayLen 2))).call (h.clone (sched h) enc).1
      (fun e => e.write (c.EncodeTime ent.Time)) = g at c2 k12 lf gF gq ⊢
  generalize (h.clone (sched h) enc).1 = finenc at n1 lf gF ⊢
  obtain ⟨k2, l2, n2⟩ := Heap.clone_keeps g (sched g) enc k12.1
  obtain ⟨g2s, g2q⟩ := Heap.clone_get g (sched g) enc k12.1 (k12.2 _ hl)
  rw [gq enc hl] at g2s
  have hge : (g.clone (sched g) enc).2.get enc = h.get enc := by
    rw [g2q enc (k12.2 _ hl), gq enc hl]
  have kf := Heap.EncodeEntry.final_keeps c sched (g.clone (sched g) enc).2 enc
    (g.clone (sched g) enc).1 ent fields k2.1 l2
  have hne : finenc ≠ (g.clone (sched g) enc).1 := n2 _ lf
  cases hcfg : (h.get enc).EncoderConfig with
  | none =>
    rw [Heap.EncodeEntry.final_no_config c sched _ enc _ ent fields (by rw [hge]; exact hcfg),
      zapmsgpack.final_nil c (h.get enc) ent fields hcfg]
    refine ⟨rfl, fun q hq => ?_⟩
    exact (g2q q (k12.2 _ hq)).trans (gq q hq)
  | some cfg =>
    have ref := Heap.EncodeEntry.final_refines c sched (g.clone (sched g) enc).2 enc
      (g.clone (sched g) enc).1 cfg cfg ent fields k2.1 l2
      (by rw [g2s]; simp [encoder.clone, hcfg]) (by rw [hge]; exact hcfg)
    rw [g2s, ← final_eq_finalFrom c (h.get enc) cfg ent fields hcfg] at ref
    obtain ⟨_, fr, er, ok⟩ := ref
    have frame : ∀ q, h.Live q →
        (Heap.EncodeEntry.final c sched (g.clone (sched g) enc).2 enc
          (g.clone (sched g) enc).1 ent fields).1.get q = h.get q := by
      intro q hq
      rw [fr q (k2.2 _ (k12.2 _ hq)) (n2 q (k12.2 _ hq)), g2q q (k12.2 _ hq), gq q hq]
    have hfF : (Heap.EncodeEntry.final c sched (g.clone (sched g) enc).2 enc
          (g.clone (sched g) enc).1 ent fields).1.get finenc
        = (((h.get enc).clone).write (c.EncodeArrayLen 2)).write (c.EncodeTime ent.Time) := by
      rw [fr finenc (k2.2 _ lf) hne, g2q finenc lf, gF]
    have lfin := kf.2 _ l2
    have lfe := kf.2 _ (k2.2 _ lf)
    generalize Heap.EncodeEntry.final c sched (g.clone (sched g) enc).2 enc
      (g.clone (sched g) enc).1 ent fields = R at kf er ok frame hfF lfin lfe ⊢
    generalize (g.clone (sched g) enc).1 = final at n2 hne er ok lfin ⊢
    cases hp : zapmsgpack.EncodeEntry.final c (h.get enc) ent fields with
    | error p =>
      simp only [Heap.andThen, er p hp]
      exact ⟨trivial, frame⟩
    | ok f =>
      obtain ⟨⟨a, ha⟩, hst⟩ := ok f hp
      simp only [Heap.andThen, ha]
      refine ⟨?_, fun q hq => ?_⟩
      · rw [Heap.get_call_same _ _ _ (by simpa [Heap.call, Heap.set] using lfe.1),
          Heap.get_call_same _ _ _ lfe.1, Heap.get_call_other _ _ _ _ hne, hst, hfF]
      · rw [Heap.get_putEncoder_other _ _ _ (fun heq => n1 q hq heq.symm),
          Heap.get_putEncoder_other _ _ _ (fun heq => n2 q (k12.2 _ hq) heq.symm),
          Heap.get_call_other _ _ _ _ (fun heq => n1 q hq heq.symm),
          Heap.get_call_other _ _ _ _ (fun heq => n1 q hq heq.symm), frame q hq]

/-- C21 (the code departs at one type): `AddUintptr` writes its value with the
codec's shortest-form `EncodeUint`, `AppendUintptr` with the fixed-width
`EncodeUint64`; with the MessagePack codec `AddUintptr("k", 1)` writes the value
byte `01` after the key and `AppendUintptr(1)` the nine bytes `cf 00 … 01`, and
the two value encodings differ for every value up to `2^32 - 1`.  For every
other scalar type the `Add` method writes the key followed by exactly the value
bytes the `Append` method of that type writes. -/
theorem AddUintptr_differs_from_AppendUintptr :
    ((NewEncoder testConfig).AddUintptr msgpack "k" 1).buf = [0xa1, 0x6b, 0x01]
    ∧ ((NewEncoder testConfig).AppendUintptr msgpack 1).buf = [0xcf, 0, 0, 0, 0, 0, 0, 0, 0x01]
    ∧ ((NewEncoder testConfig).AddUintptr msgpack "k" 1).buf
        ≠ msgpack.EncodeString "k" ++ ((NewEncoder testConfig).AppendUintptr msgpack 1).buf
    ∧ (∀ (c : Codec) (enc : encoder) (key : String) (val : Nat),
        (enc.AddUintptr c key val).buf
            = enc.buf ++ c.EncodeString (enc.nsPrefix ++ key) ++ c.EncodeUint val
        ∧ (enc.AppendUintptr c val).buf = enc.buf ++ c.EncodeUint64 val)
    ∧ (∀ val : Nat, msgpack.EncodeUint val = msgpack.EncodeUint64 val ↔ 4294967295 < val)
    ∧ (∀ (c : Codec) (enc enc2 : encoder) (key : String) (v : AppendValue) (e2 : encoder),
        (∀ val, v ≠ .Uintptr val) → enc2.Append c v = .ok e2 →
        ∃ b e1, e2.buf = enc2.buf ++ b ∧ enc.Add c key v.toAdd = .ok e1
          ∧ e1.buf = enc.buf ++ c.EncodeString (enc.nsPrefix ++ key) ++ b)
    ∧ (∀ (c : Codec) (enc enc2 : encoder) (key : String) (v : AppendValue) (msg : String),
        enc2.Append c v = .error msg → ∃ msg2, enc.Add c key v.toAdd = .error msg2) := by
  refine ⟨by decide, by decide, by decide, fun c enc key val => ⟨rfl, rfl⟩,
    msgpack_EncodeUint_eq_iff, ?_, ?_⟩
  · intro c enc enc2 key v e2 hv h
    cases v with
    | Complex128 re im => exact Except.noConfusion h
    | Complex64 re im => exact Except.noConfusion h
    | Uintptr val => exact absurd rfl (hv val)
    | Bool val => rw [← Except.ok.inj h]; exact ⟨c.EncodeBool val, _, rfl, rfl, rfl⟩
    | ByteString val => rw [← Except.ok.inj h]; exact ⟨c.EncodeString val, _, rfl, rfl, rfl⟩
    | Duration val =>
      rw [← Except.ok.inj h]
      exact ⟨c.EncodeFloat64 (Duration.Seconds val), _, rfl, rfl, rfl⟩
    | Float64 val => rw [← Except.ok.inj h]; exact ⟨c.EncodeFloat64 val, _, rfl, rfl, rfl⟩
    | Float32 val => rw [← Except.ok.inj h]; exact ⟨c.EncodeFloat32 val, _, rfl, rfl, rfl⟩
    | Int val => rw [← Except.ok.inj h]; exact ⟨c.EncodeInt val, _, rfl, rfl, rfl⟩
    | Int64 val => rw [← Except.ok.inj h]; exact ⟨c.EncodeInt64 val, _, rfl, rfl, rfl⟩
    | Int32 val => rw [← Except.ok.inj h]; exact ⟨c.EncodeInt32 val, _, rfl, rfl, rfl⟩
    | Int16 val => rw [← Except.ok.inj h]; exact ⟨c.EncodeInt16 val, _, rfl, rfl, rfl⟩
    | Int8 val => rw [← Except.ok.inj h]; exact ⟨c.EncodeInt8 val, _, rfl, rfl, rfl⟩
    | String val => rw [← Except.ok.inj h]; exact ⟨c.EncodeString val, _, rfl, rfl, rfl⟩
    | Time val => rw [← Except.ok.inj h]; exact ⟨c.EncodeTime val, _, rfl, rfl, rfl⟩
    | Uint val => rw [← Except.ok.inj h]; exact ⟨c.EncodeUint val, _, rfl, rfl, rfl⟩
    | Uint64 val => rw [← Except.ok.inj h]; exact ⟨c.EncodeUint64 val, _, rfl, rfl, rfl⟩
    | Uint32 val => rw [← Except.ok.inj h]; exact ⟨c.EncodeUint32 val, _, rfl, rfl, rfl⟩
    | Uint16 val => rw [← Except.ok.inj h]; exact ⟨c.EncodeUint16 val, _, rfl, rfl, rfl⟩
    | Uint8 val => rw [← Except.ok.inj h]; exact ⟨c.EncodeUint8 val, _, rfl, rfl, rfl⟩
  · intro c enc enc2 key v msg h
    cases v with
    | Complex128 re im => exact ⟨_, rfl⟩
    | Complex64 re im => exact ⟨_, rfl⟩
    | Bool val => exact Except.noConfusion h
    | ByteString val => exact Except.noConfusion h
    | Duration val => exact Except.noConfusion h
    | Float64 val => exact Except.noConfusion h
    | Float32 val => exact Except.noConfusion h
    | Int val => exact Except.noConfusion h
    | Int64 val => exact Except.noConfusion h
    | Int32 val => exact Except.noConfusion h
    | Int16 val => exact Except.noConfusion h
    | Int8 val => exact Except.noConfusion h
    | String val => exact Except.noConfusion h
    | Time val => exact Except.noConfusion h
    | Uint val => exact Except.noConfusion h
    | Uint64 val => exact Except.noConfusion h
    | Uint32 val => exact Except.noConfusion h
    | Uint16 val => exact Except.noConfusion h
    | Uint8 val => exact Except.noConfusion h
    | Uintptr val => exact Except.noConfusion h

/-- C22: `EncodeEntry` leaves its receiver as it was: on every heap that
satisfies the pool invariant and for every receiver that is not held by the
pool, whatever instances the pool hands out, the receiver's buffer, map-entry
count, sequence-element count, namespace prefix and configuration are the same
after the call as before (also when the call panics), and so is every other
encoder that is not held by the pool; the call returns what the method returns
on the state of the receiver, and a second call on the same encoder with the
same event and field list returns the same result and again leaves the
receiver as it was.  Every encoder a client was handed by `NewEncoder` or
`Clone` is such a receiver. -/
theorem EncodeEntry_leaves_receiver (c : Codec) (sched : Heap → Nat) (h : Heap) (enc : Nat)
    (ent : zapcore.Entry) (fields : List zapcore.Field) (hinv : h.Inv) (hl : h.Live enc) :
    ((Heap.EncodeEntry c sched h enc ent fields).1.get enc).buf = (h.get enc).buf
    ∧ ((Heap.EncodeEntry c sched h enc ent fields).1.get enc).mapSize = (h.get enc).mapSize
    ∧ ((Heap.EncodeEntry c sched h enc ent fields).1.get enc).sliceLen = (h.get enc).sliceLen
    ∧ ((Heap.EncodeEntry c sched h enc ent fields).1.get enc).nsPrefix = (h.get enc).nsPrefix
    ∧ ((Heap.EncodeEntry c sched h enc ent fields).1.get enc).EncoderConfig
        = (h.get enc).EncoderConfig
    ∧ (∀ q, h.Live q → (Heap.EncodeEntry c sched h enc ent fields).1.get q = h.get q)
    ∧ (Heap.EncodeEntry c sched h enc ent fields).2 = (h.get enc).EncodeEntry c ent fields
    ∧ (Heap.EncodeEntry c sched (Heap.EncodeEntry c sched h enc ent fields).1 enc ent fields).2
        = (Heap.EncodeEntry c sched h enc ent fields).2
    ∧ (Heap.EncodeEntry c sched (Heap.EncodeEntry c sched h enc ent fields).1 enc ent
          fields).1.get enc = h.get enc
    ∧ (∀ (ops : List Op) (i e : Nat),
        (World.run c sched ops World.init).handles.get? i = some e →
        (World.run c sched ops World.init).heap.Inv
        ∧ (World.run c sched ops World.init).heap.Live e) := by
  obtain ⟨hres, hframe⟩ := Heap.EncodeEntry_agrees c sched h enc ent fields hinv hl
  have hk := Heap.EncodeEntry_keeps c sched h enc ent fields hinv
  obtain ⟨hres2, hframe2⟩ := Heap.EncodeEntry_agrees c sched
    (Heap.EncodeEntry c sched h enc ent fields).1 enc ent fields hk.1 (hk.2 _ hl)
  have he := hframe enc hl
  refine ⟨by rw [he], by rw [he], by rw [he], by rw [he], by rw [he], hframe, hres, ?_, ?_, ?_⟩
  · rw [hres2, he, hres]
  · rw [hframe2 enc (hk.2 _ hl), he]
  · intro ops i e hi
    have hw := World.run_inv c sched ops World.init World.init_inv
    exact ⟨hw.1, hw.2 e (List.get?_mem hi)⟩

/-- Witness of C22: the encoder at address 0 of a heap whose pool holds a blank
instance; the encoder carries the field `str`. -/
theorem EncodeEntry_leaves_receiver_witness :
    testHeap.Inv ∧ testHeap.Live 0
    ∧ (Heap.EncodeEntry msgpack (fun _ => 0) testHeap 0 testEntry testFields).1.get 0
        = (NewEncoder testConfig).AddString msgpack "str" "foo"
    ∧ (Heap.EncodeEntry msgpack (fun _ => 0)
          (Heap.EncodeEntry msgpack (fun _ => 0) testHeap 0 testEntry testFields).1 0
          testEntry testFields).2
        = (Heap.EncodeEntry msgpack (fun _ => 0) testHeap 0 testEntry testFields).2
    ∧ (Heap.EncodeEntry msgpack (fun _ => 0) testHeap 0 testEntry testFields).2
        = .ok (testRecord.serialize msgpack, none) :=
  have hinv : testHeap.Inv :=
    ⟨fun p hp => by
      have hp1 : p = 1 := by simpa [testHeap] using hp
      subst hp1
      exact ⟨by decide, rfl⟩, by decide⟩
  have hl : testHeap.Live 0 := ⟨by decide, by decide⟩
  have key := EncodeEntry_leaves_receiver msgpack (fun _ => 0) testHeap 0 testEntry testFields
    hinv hl
  ⟨hinv, hl, key.2.2.2.2.2.1 0 hl, key.2.2.2.2.2.2.2.1, by rw [key.2.2.2.2.2.2.1]; rfl⟩

theorem encodeObject_panic_transfer (c : Codec) (e e2 : encoder) (obj : ObjectMarshaler)
    (msg : String) (hcfg : e2.EncoderConfig = e.EncoderConfig)
    (h : e.encodeObject c obj = .error msg) : e2.encodeObject c obj = .error msg := by
  cases obj with
  | mk calls ret =>
    rw [encoder.encodeObject] at h ⊢
    have hc : e2.clone = e.clone := by simp [encoder.clone, hcfg]
    rw [hc]
    cases hm : MarshalLogObject c calls e.clone with
    | error p => simpa [hm] using h
    | ok s => cases ret <;> simp [hm] at h

/-- C23: the scratch encoder of a nested scope starts with an empty buffer,
zero counts and an empty namespace prefix and shares the configuration of its
parent; `AddObject(k, obj)` on a parent with prefix `p` writes the container's
own key as `p ++ k`, and the bytes that follow, and the returned error or the
panic, are the same for every prefix of the parent; the keys the population
callback adds are written with the prefix of the nested scope only, which
starts empty: a key `k2` added first is written as `k2`, and the pairs of the
nested map are those the callback contributes from the prefix `""`.  The same
holds when the scratch instance is taken from the pool. -/
theorem nested_scope_starts_without_namespace (c : Codec) (enc : encoder) (key : String)
    (obj : ObjectMarshaler) :
    enc.clone = { EncoderConfig := enc.EncoderConfig, buf := [], mapSize := 0, sliceLen := 0,
                  nsPrefix := "" }
    ∧ enc.AddObject c key obj
        = (enc.advance (c.EncodeString (enc.nsPrefix ++ key)) 1 0).encodeObject c obj
    ∧ (∀ (r : encoder × Option GoError), enc.AddObject c key obj = .ok r →
        ∃ b, r.1 = enc.advance (c.EncodeString (enc.nsPrefix ++ key) ++ b) 1 0
          ∧ ∀ p : String, ({ enc with nsPrefix := p } : encoder).AddObject c key obj
              = .ok (({ enc with nsPrefix := p } : encoder).advance
                  (c.EncodeString (p ++ key) ++ b) 1 0, r.2))
    ∧ (∀ (msg : String), enc.AddObject c key obj = .error msg →
        ∀ p : String, ({ enc with nsPrefix := p } : encoder).AddObject c key obj = .error msg)
    ∧ (∀ (k2 : String) (val : AddValue) (pv : Prim), val.prim = some pv →
        ObjectCall.run c enc.clone (.Add k2 val)
          = .ok (enc.clone.advance (c.EncodeString k2 ++ pv.encode c) 1 0))
    ∧ (∀ (calls : List ObjectCall) (entries : List (String × Value)),
        objectEntries c "" calls = some entries →
        enc.AddObject c key (.mk calls none)
          = .ok (enc.advance (c.EncodeString (enc.nsPrefix ++ key)
              ++ (c.EncodeMapLen entries.length ++ serializeEntries c entries)) 1 0, none))
    ∧ (∀ (sched : Heap → Nat) (h : Heap) (a : Nat), h.Inv → h.Live a →
        (h.clone (sched h) a).2.get (h.clone (sched h) a).1 = (h.get a).clone
        ∧ Heap.Sim h a (Heap.objectCall c sched h a (.AddObject key obj))
            ((h.get a).AddObject c key obj))
    ∧ (∃ e : encoder, namespacedEncoder.AddObject msgpack "o" nestedObject = .ok (e, none)
        ∧ e.buf = msgpack.EncodeString "ns.o" ++ [0x81] ++ msgpack.EncodeString "k" ++ [0xc3]
        ∧ e.buf ≠ msgpack.EncodeString "ns.o" ++ [0x81] ++ msgpack.EncodeString "ns.k" ++ [0xc3]
        ∧ msgpack.Unmarshal (msgpack.EncodeMapLen e.mapSize ++ e.buf)
            = some (.Map [(.Str (utf8 "ns.o"), .Map [(.Str (utf8 "k"), .Bool true)])])) := by
  have hstart : enc.incMapSize.encodeKey c key
      = enc.advance (c.EncodeString (enc.nsPrefix ++ key)) 1 0 := rfl
  refine ⟨rfl, by rw [encoder.AddObject, hstart], ?_, ?_, ?_, ?_, ?_, ?_⟩
  · intro r hr
    obtain ⟨b, hb, _⟩ := encodeObject_transfer c (enc.incMapSize.encodeKey c key)
      (enc.incMapSize.encodeKey c key) obj r rfl hr
    refine ⟨b, ?_, fun p => ?_⟩
    · rw [hb]
      simp [encoder.advance, encoder.encodeKey, encoder.write, encoder.incMapSize]
    · obtain ⟨b2, hb2, h2⟩ := encodeObject_transfer c (enc.incMapSize.encodeKey c key)
        (({ enc with nsPrefix := p } : encoder).incMapSize.encodeKey c key) obj r rfl hr
      have hbb : b2 = b := by
        have := hb.symm.trans hb2
        simpa [encoder.advance] using this.symm
      rw [hbb] at h2
      rw [encoder.AddObject, h2]
      simp [encoder.advance, encoder.encodeKey, encoder.write, encoder.incMapSize]
  · intro msg hm p
    exact encodeObject_panic_transfer c (enc.incMapSize.encodeKey c key)
      (({ enc with nsPrefix := p } : encoder).incMapSize.encodeKey c key) obj msg rfl hm
  · intro k2 val pv hp
    rw [ObjectCall.run, Add_eq, hp]
    simp [encoder.clone, getEncoder, encoderPool.New]
  · intro calls entries hent
    have h1 : (ObjectMarshaler.mk calls none).entries c = some entries := by
      simpa [ObjectMarshaler.entries] using hent
    rw [encoder.AddObject, encodeObject_entries c _ entries _ h1]
    simp [encoder.advance, encoder.encodeKey, encoder.write, encoder.incMapSize]
  · intro sched h a hinv hl
    exact ⟨(Heap.clone_get h (sched h) a hinv hl).1, Heap.AddObject_sim c sched key obj h a hinv hl⟩
  · exact ⟨_, rfl, by decide, by decide, rfl⟩

end zapmsgpack
